import Mathlib

/-!
# A shallow embedding of `mm.c` (segregated free-list allocator)

The heap is a word-addressed memory: `mem a` is the 64-bit word whose first
byte has address `a`.  Every access of `mm.c` is a `uintptr_t` access, so the
embedding reads and writes whole words; an access outside the current heap
`[lo, brk)` or at an address that is not a multiple of 8 is a fault.
`unsigned int` arithmetic is taken modulo `2^32`.
-/

namespace MM

/-- Ways in which a run of the C code fails to return. -/
inductive Fault where
  | segv        -- access outside the heap, or unaligned
  | assertion   -- a failed `assert`
  | diverge     -- a loop that never ends
  deriving DecidableEq, Repr

/-- The global state of the allocator together with the state of the
heap-growth service. -/
structure Heap where
  /-- the 64-bit word stored at each address -/
  mem : Nat → Nat
  /-- address of the first byte of the heap region -/
  lo : Nat
  /-- address of the first byte after the heap; `mem_heap_hi() = brk - 1` -/
  brk : Nat
  /-- highest value `brk` may take -/
  maxAddr : Nat
  /-- the array of the 15 free-list heads (`static char* array[15]`) -/
  array : Nat → Nat
  /-- the global `heapStart` -/
  heapStart : Nat

/-- Computations of `mm.c`: they read and update the global state and either
return a value or fault. -/
abbrev M := StateT Heap (Except Fault)

/-- Truncation to `unsigned int`. -/
def u32 (n : Nat) : Nat := n % 2 ^ 32

/-- Truncation to a 64-bit word. -/
def u64 (n : Nat) : Nat := n % 2 ^ 64

/-- The constant `arrayLength`. -/
def arrayLength : Nat := 15

/-- The enumeration `Status`. -/
inductive Status where
  | FREE
  | ALLOCATED
  deriving DecidableEq, Repr

/-- An address the code may dereference as a `uintptr_t`. -/
def validAddr (h : Heap) (a : Nat) : Bool :=
  decide (h.lo ≤ a) && decide (a + 8 ≤ h.brk) && decide (a % 8 = 0)

/-- Read of `*(uintptr_t*)a`. -/
def load (a : Nat) : M Nat := fun h =>
  if validAddr h a then .ok (h.mem a, h) else .error .segv

/-- Write `*(uintptr_t*)a = v`. -/
def store (a v : Nat) : M Unit := fun h =>
  if validAddr h a then
    .ok ((), { h with mem := fun x => if x = a then u64 v else h.mem x })
  else .error .segv

/-- Read of `array[i]`. -/
def getHead (i : Nat) : M Nat := fun h => .ok (h.array i, h)

/-- Assignment `array[i] = p`. -/
def setHead (i p : Nat) : M Unit := fun h =>
  .ok ((), { h with array := fun j => if j = i then p else h.array j })

/-- Modelled from the spec: `current_high_water_mark()` of the heap-growth
service (`mem_heap_hi` of `memlib`, not part of the sources): the address of
the last valid byte of the heap. -/
def mem_heap_hi : M Nat := fun h => .ok (u64 (h.brk + (2 ^ 64 - 1)), h)

/-- Modelled from the spec: `grow(byte_count)` of the heap-growth service
(`mem_sbrk` of `memlib`, not part of the sources): extends the heap by exactly
`incr` bytes and returns the start of the new region, or `none` (the failure
sentinel) when the resource is exhausted. -/
def mem_sbrk (incr : Nat) : M (Option Nat) := fun h =>
  if h.brk + incr ≤ h.maxAddr then .ok (some h.brk, { h with brk := h.brk + incr })
  else .ok (none, h)

/-- The function `roundUp`. -/
def roundUp (size : Nat) : Nat :=
  if size % 16 = 0 then u32 size
  else u32 (u64 (size - size % 16 + 16))

/-- The chain of comparisons of `getIndex`, after its assertion. -/
def getIndexOf (size : Nat) : Nat :=
  if size = 32 then 0
  else if size ≤ 64 then 1
  else if size ≤ 128 then 2
  else if size ≤ 256 then 3
  else if size ≤ 512 then 4
  else if size ≤ 1024 then 5
  else if size ≤ 2048 then 6
  else if size ≤ 4096 then 7
  else if size ≤ 8192 then 8
  else if size ≤ 16384 then 9
  else if size ≤ 32768 then 10
  else if size ≤ 65536 then 11
  else if size ≤ 131072 then 12
  else if size ≤ 262144 then 13
  else 14

/-- The function `getIndex`: `assert(size >= 32)`, then the class of `size`. -/
def getIndex (size : Nat) : M Nat :=
  if size < 32 then throw .assertion else pure (getIndexOf size)

/-- The function `getSize`: the word at `bp` without its lowest bit, as an
`unsigned int`. -/
def getSize (bp : Nat) : M Nat := do
  let w ← load bp
  pure (u32 (w - w % 2))

/-- The function `getAlloc`. -/
def getAlloc (bp : Nat) : M Status := do
  let w ← load bp
  pure (if w % 2 = 0 then .FREE else .ALLOCATED)

/-- The function `setSizeAlloc`: header at `bp`, footer at `bp + size - 8`. -/
def setSizeAlloc (bp size : Nat) (alloc : Status) : M Unit := do
  let lastHeader := bp + size - 8
  match alloc with
  | .ALLOCATED =>
    store bp (size ||| 1)
    store lastHeader (size ||| 1)
  | .FREE =>
    store bp (size - size % 2)
    store lastHeader (size - size % 2)

/-- The function `getPrev`. -/
def getPrev (bp : Nat) : M Nat := load (bp + 8)

/-- The function `setPrev`. -/
def setPrev (bp prev : Nat) : M Unit := store (bp + 8) prev

/-- The function `getNext`: the link is the word at `bp + (size - 16)`, the
subtraction being one of `unsigned int`. -/
def getNext (bp : Nat) : M Nat := do
  let size ← getSize bp
  load (bp + u32 (size + 2 ^ 32 - 16))

/-- The function `setNext`. -/
def setNext (bp next : Nat) : M Unit := do
  let size ← getSize bp
  store (bp + u32 (size + 2 ^ 32 - 16)) next

/-- The function `removeFromList`. -/
def removeFromList (bp : Nat) : M Unit := do
  let size ← getSize bp
  let index ← getIndex size
  let nextPtr ← getNext bp
  let prevPtr ← getPrev bp
  if prevPtr = 0 then setHead index nextPtr else setNext prevPtr nextPtr
  if nextPtr ≠ 0 then setPrev nextPtr prevPtr
  setNext bp 0
  setPrev bp 0

/-- The loop of `mm_init`: grow by 8 bytes until the end of the heap is
8 modulo 16.  Two rounds are all a terminating run can take. -/
def mm_initLoop : Nat → M Nat
  | 0 => throw .diverge
  | fuel + 1 => do
    let hi ← mem_heap_hi
    let nextHeapSpot := u64 (hi + 1)
    if nextHeapSpot % 16 ≠ 8 then
      let _ ← mem_sbrk 8
      mm_initLoop fuel
    else pure nextHeapSpot

/-- The function `mm_init`. -/
def mm_init : M Int := do
  modify fun h => { h with array := fun j => if j < arrayLength then 0 else h.array j }
  let nextHeapSpot ← mm_initLoop 3
  modify fun h => { h with heapStart := nextHeapSpot }
  pure 0

/-- The function `coalesce`. -/
def coalesce (bp : Nat) : M Nat := do
  let size ← getSize bp
  let prevFooter := bp - 8
  let nextHeader := bp + size
  let hi ← mem_heap_hi
  let nextAlloc ← if hi = u64 (nextHeader + (2 ^ 64 - 1)) then pure Status.ALLOCATED
    else getAlloc nextHeader
  let hs := (← get).heapStart
  let prevAlloc ← if hs = bp then pure Status.ALLOCATED else getAlloc prevFooter
  match prevAlloc, nextAlloc with
  | .ALLOCATED, .ALLOCATED => pure bp
  | .FREE, .ALLOCATED =>
    let prevSize ← getSize prevFooter
    let totalSize := u32 (prevSize + size)
    let prevHeader := bp - prevSize
    removeFromList prevHeader
    setSizeAlloc prevHeader totalSize .FREE
    pure prevHeader
  | .ALLOCATED, .FREE =>
    let nextSize ← getSize nextHeader
    let totalSize := u32 (nextSize + size)
    removeFromList nextHeader
    setSizeAlloc bp totalSize .FREE
    pure bp
  | .FREE, .FREE =>
    let prevSize ← getSize prevFooter
    let nextSize ← getSize nextHeader
    let totalSize := u32 (prevSize + size + nextSize)
    let prevHeader := bp - prevSize
    removeFromList prevHeader
    removeFromList nextHeader
    setSizeAlloc prevHeader totalSize .FREE
    pure prevHeader

/-- The loop of `extend_heap`: formats the blocks `i, i+1, ..., numBlocks-1`
of the batch (`left` of them), and returns the final `prevPtr`. -/
def extendLoop (numBlocks blockSize : Nat) : Nat → Nat → Nat → Nat → M Nat
  | 0, _, _, prevPtr => pure prevPtr
  | left + 1, i, iter, prevPtr => do
    setSizeAlloc iter blockSize .FREE
    setPrev iter prevPtr
    let nextPtr := if numBlocks - 1 = i then 0 else iter + blockSize
    setNext iter nextPtr
    extendLoop numBlocks blockSize left (i + 1) (iter + blockSize) iter

/-- The function `extend_heap`; the result 0 is `NULL`. -/
def extend_heap (index : Nat) : M Nat := do
  let numBlocks := if index < 3 then 16 else 1
  let blockSize := u32 (1 <<< (index + 5))
  match ← mem_sbrk (u32 (numBlocks * blockSize)) with
  | none => pure 0
  | some bp =>
    setHead index bp
    extendLoop numBlocks blockSize numBlocks 0 bp 0

/-- The loop of `find_fit`.  It only reads, so a run that takes more rounds
than the heap has words has met some block twice and never ends. -/
def findLoop (totalSize : Nat) : Nat → Nat → M Nat
  | 0, _ => throw .diverge
  | fuel + 1, iter =>
    if iter = 0 then pure iter
    else do
      let sz ← getSize iter
      if totalSize > sz then
        let nxt ← getNext iter
        findLoop totalSize fuel nxt
      else pure iter

/-- The number of rounds after which a read-only walk over heap blocks must
have repeated a block. -/
def walkFuel (h : Heap) : Nat := (h.brk - h.lo) / 8 + 2

/-- The function `find_fit`. -/
def find_fit (totalSize arrayIndex : Nat) : M Nat := do
  let iter ← getHead arrayIndex
  findLoop totalSize (walkFuel (← get)) iter

/-- The part of `mm_free` after `coalesce`: push the block on the list of its
class and mark it free. -/
def freeInsert (blockPointer : Nat) : M Unit := do
  let blockSize ← getSize blockPointer
  let arrayIndex ← getIndex blockSize
  let oldHead ← getHead arrayIndex
  setPrev blockPointer 0
  setHead arrayIndex blockPointer
  setNext blockPointer oldHead
  if oldHead ≠ 0 then setPrev oldHead blockPointer
  setSizeAlloc blockPointer blockSize .FREE

/-- The function `mm_free`. -/
def mm_free (bp : Nat) : M Unit :=
  if bp = 0 then pure ()
  else do
    let blockPointer ← coalesce (bp - 8)
    freeInsert blockPointer

/-- The function `place`. -/
def place (bp totalSizeNeeded : Nat) (_arrayIndex : Nat) : M Nat := do
  let blockSize ← getSize bp
  removeFromList bp
  if u32 (totalSizeNeeded + 32) ≤ blockSize then
    let extraSize := u32 (blockSize + 2 ^ 32 - totalSizeNeeded)
    let blockSize := totalSizeNeeded
    let toFree := bp + blockSize
    setSizeAlloc toFree extraSize .ALLOCATED
    setSizeAlloc bp blockSize .ALLOCATED
    setNext bp 0
    setPrev bp 0
    setNext toFree 0
    setPrev toFree 0
    mm_free (toFree + 8)
  else
    setSizeAlloc bp blockSize .ALLOCATED
    setNext bp 0
    setPrev bp 0
  pure (bp + 8)

/-- The loop `for(; arrayIndex < arrayLength; arrayIndex++)` of `mm_malloc`,
with `left = arrayLength - arrayIndex` rounds to go; `none` when the loop ends
without a `return`. -/
def mallocScan (totalSize : Nat) : Nat → Nat → M (Option Nat)
  | 0, _ => pure none
  | left + 1, arrayIndex => do
    if (← getHead arrayIndex) = 0 then mallocScan totalSize left (arrayIndex + 1)
    else
      let bp ← find_fit totalSize arrayIndex
      if bp ≠ 0 then
        let p ← place bp totalSize arrayIndex
        pure (some p)
      else mallocScan totalSize left (arrayIndex + 1)

/-- The function `mm_malloc`; the result 0 is `NULL`. -/
def mm_malloc (size : Nat) : M Nat :=
  if size = 0 then pure 0
  else do
    let roundedSize := roundUp size
    let totalSize := u32 (roundedSize + 16)
    let arrayIndex ← getIndex totalSize
    match ← mallocScan totalSize (arrayLength - arrayIndex) arrayIndex with
    | some p => pure p
    | none =>
      let arrayIndex ← getIndex totalSize
      let oldBeginning ← getHead arrayIndex
      let newEnd ← extend_heap arrayIndex
      if newEnd = 0 then pure 0
      else do
        setNext newEnd oldBeginning
        if oldBeginning ≠ 0 then setPrev oldBeginning newEnd
        let bp ← find_fit totalSize arrayIndex
        if bp ≠ 0 then place bp totalSize arrayIndex
        else throw .assertion

/-- Reads the `k` words at `src, src + 8, ...`. -/
def loadWords (src : Nat) : Nat → M (List Nat)
  | 0 => pure []
  | k + 1 => do
    let w ← load src
    let ws ← loadWords (src + 8) k
    pure (w :: ws)

/-- Writes the words of the list at `dst, dst + 8, ...`. -/
def storeWords (dst : Nat) : List Nat → M Unit
  | [] => pure ()
  | w :: ws => do
    store dst w
    storeWords (dst + 8) ws

/-- The library function `memmove(dst, src, n)` on word-aligned operands: the
source is read as a whole before anything is written; when `n` is not a
multiple of 8 the last word keeps its upper `8 - n % 8` bytes (the machine is
little-endian). -/
def memmove (dst src n : Nat) : M Unit := do
  let ws ← loadWords src (n / 8)
  let tailSrc ← if n % 8 = 0 then pure 0 else load (src + 8 * (n / 8))
  storeWords dst ws
  if n % 8 ≠ 0 then
    let d ← load (dst + 8 * (n / 8))
    let k := 256 ^ (n % 8)
    store (dst + 8 * (n / 8)) (d / k * k + tailSrc % k)

/-- The library function `memcpy`; on regions that do not overlap it is
`memmove`. -/
def memcpy (dst src n : Nat) : M Unit := memmove dst src n

/-- The function `mm_realloc`; the result 0 is `NULL`. -/
def mm_realloc (ptr size : Nat) : M Nat :=
  if size = 0 then do
    mm_free ptr
    pure 0
  else if ptr = 0 then mm_malloc size
  else do
    let blockHeader := ptr - 8
    let blockSize ← getSize blockHeader
    let oldDataSize := u32 (blockSize + 2 ^ 32 - 16)
    let newDataSize := u32 size
    if newDataSize = oldDataSize then pure ptr
    else if newDataSize < oldDataSize then
      if oldDataSize - newDataSize ≥ 32 then pure ptr
      else pure ptr
    else do
      let biggestBlock ← coalesce blockHeader
      let newSize ← getSize biggestBlock
      setSizeAlloc biggestBlock newSize .ALLOCATED
      if u32 (newSize + 2 ^ 32 - 16) ≥ newDataSize then
        memmove (biggestBlock + 8) ptr oldDataSize
        pure (biggestBlock + 8)
      else do
        let newBlock ← mm_malloc newDataSize
        if newBlock = 0 then pure 0
        else do
          memcpy newBlock ptr oldDataSize
          mm_free (biggestBlock + 8)
          pure newBlock

/-- First loop of `mm_check` on one list: walk forward while the block has a
successor; `none` stands for `return 0`, `some p` for the block the loop
stops at. -/
def checkForward : Nat → Nat → M (Option Nat)
  | 0, _ => throw .diverge
  | fuel + 1, pBlock =>
    if pBlock = 0 then pure (some pBlock)
    else do
      let nxt ← getNext pBlock
      if nxt = 0 then pure (some pBlock)
      else if (← getAlloc pBlock) = .ALLOCATED then pure none
      else checkForward fuel (← getNext pBlock)

/-- Second loop of `mm_check` on one list: walk backward until the first
block is met or the links end. -/
def checkBackward (saveFirstBlock : Nat) : Nat → Nat → M Nat
  | 0, _ => throw .diverge
  | fuel + 1, pBlock =>
    if pBlock ≠ 0 ∧ pBlock ≠ saveFirstBlock then do
      checkBackward saveFirstBlock fuel (← getPrev pBlock)
    else pure pBlock

/-- The loop of `mm_check` over the lists `i, i + 1, ...` (`left` of them);
`false` stands for `return 0`. -/
def checkLists : Nat → Nat → M Bool
  | 0, _ => pure true
  | left + 1, i => do
    let saveFirstBlock ← getHead i
    let fuel := walkFuel (← get)
    match ← checkForward fuel saveFirstBlock with
    | none => pure false
    | some pBlock =>
      let pBlock ← checkBackward saveFirstBlock fuel pBlock
      if pBlock ≠ saveFirstBlock then pure false
      else checkLists left (i + 1)

/-- The search `while( pFreeListIter && pFreeListIter != pBlock )` of
`mm_check`. -/
def checkMember (pBlock : Nat) : Nat → Nat → M Nat
  | 0, _ => throw .diverge
  | fuel + 1, pFreeListIter =>
    if pFreeListIter ≠ 0 ∧ pFreeListIter ≠ pBlock then do
      checkMember pBlock fuel (← getNext pFreeListIter)
    else pure pFreeListIter

/-- The heap scan of `mm_check`; the result is the value returned.  The scan
only reads, and it returns once the counter of free blocks reaches 2, so a run
of more than three times the number of heap words never ends. -/
def checkScan (heapHigh : Nat) : Nat → Nat → Nat → M Int
  | 0, _, _ => throw .diverge
  | fuel + 1, pBlock, consecutiveFreeBlocks =>
    if heapHigh ≠ u64 (pBlock + (2 ^ 64 - 1)) then do
      let isFree := (← getAlloc pBlock) = .FREE
      let consecutiveFreeBlocks :=
        if isFree then u32 (consecutiveFreeBlocks + 1) else consecutiveFreeBlocks
      let found ← if isFree then do
          let index ← getIndex (← getSize pBlock)
          let pFreeListIter ← checkMember pBlock (walkFuel (← get)) (← getHead index)
          pure (decide (pFreeListIter = pBlock))
        else pure true
      if found = false then pure 0
      else if consecutiveFreeBlocks = 2 then pure 0
      else if pBlock < (← get).heapStart ∨ pBlock > heapHigh then pure 0
      else do
        let size ← getSize pBlock
        if size ≠ (← getSize (pBlock + size - 8)) then pure 0
        else if (← getAlloc pBlock) ≠ (← getAlloc (pBlock + size - 8)) then pure 0
        else checkScan heapHigh fuel (← getNext pBlock) consecutiveFreeBlocks
    else pure 1

/-- The function `mm_check`: nonzero when the heap is found consistent. -/
def mm_check : M Int := do
  let heapHigh ← mem_heap_hi
  if (← checkLists arrayLength 0) = false then pure 0
  else checkScan heapHigh (3 * walkFuel (← get)) (← get).heapStart 0

/-- What the caller does: the three public operations, and a store of one
word into a region the allocator has handed out. -/
inductive Call where
  | malloc (size : Nat)
  | free (ptr : Nat)
  | realloc (ptr size : Nat)
  | write (ptr off val : Nat)
  deriving DecidableEq, Repr

/-- Why a run of calls stops early. -/
inductive Stop where
  | fault (f : Fault)
  | misuse
  deriving DecidableEq, Repr

/-- The allocator together with what its caller holds: the live pointers,
each with the number of bytes that was asked for, and the results of the calls
so far, newest first. -/
structure Client where
  heap : Heap
  live : List (Nat × Nat)
  results : List Nat

/-- Runs a computation of `mm.c` for the caller. -/
def perform {α : Type} (m : M α) (h : Heap) : Except Stop (α × Heap) :=
  match m h with
  | .ok r => .ok r
  | .error f => .error (.fault f)

/-- The pointer is one the caller holds. -/
def isLive (live : List (Nat × Nat)) (p : Nat) : Bool := live.any fun e => e.1 == p

/-- The live pointers without `p`. -/
def release (live : List (Nat × Nat)) (p : Nat) : List (Nat × Nat) :=
  live.filter fun e => e.1 != p

/-- One step of the caller. -/
def Client.call (c : Client) : Call → Except Stop Client
  | .malloc n =>
    if n < 2 ^ 64 then do
      let (p, h) ← perform (mm_malloc n) c.heap
      pure { heap := h, live := if p = 0 then c.live else (p, n) :: c.live,
             results := p :: c.results }
    else .error .misuse
  | .free p =>
    if p = 0 ∨ isLive c.live p then do
      let (_, h) ← perform (mm_free p) c.heap
      pure { heap := h, live := release c.live p, results := c.results }
    else .error .misuse
  | .realloc p n =>
    if (p = 0 ∨ isLive c.live p) ∧ n < 2 ^ 64 then do
      let (q, h) ← perform (mm_realloc p n) c.heap
      let live := if n = 0 then release c.live p
        else if q = 0 then c.live
        else (q, n) :: release c.live p
      pure { heap := h, live := live, results := q :: c.results }
    else .error .misuse
  | .write p off val =>
    if c.live.any (fun e => e.1 == p && decide (off + 8 ≤ e.2)) ∧ off % 8 = 0 ∧ val < 2 ^ 64 then do
      let (_, h) ← perform (store (p + off) val) c.heap
      pure { c with heap := h }
    else .error .misuse

/-- A run of calls. -/
def Client.run (c : Client) : List Call → Except Stop Client
  | [] => pure c
  | x :: xs => do
    let c ← c.call x
    c.run xs

/-- The empty heap at address `lo` that may grow up to `maxAddr`. -/
def emptyHeap (lo maxAddr : Nat) : Heap :=
  { mem := fun _ => 0, lo := lo, brk := lo, maxAddr := maxAddr, array := fun _ => 0, heapStart := 0 }

/-- The caller after `mm_init` on the empty heap, followed by the calls. -/
def session (lo maxAddr : Nat) (calls : List Call) : Except Stop Client := do
  let (_, h) ← perform mm_init (emptyHeap lo maxAddr)
  Client.run { heap := h, live := [], results := [] } calls

/-- The usable capacity at a payload pointer: the size encoded in the header
before it, minus 16. -/
def capacity (h : Heap) (p : Nat) : Nat := u32 (h.mem (p - 8) - h.mem (p - 8) % 2) - 16

/-- What is seen of the caller at the end of a run, when the run completes. -/
def observe {α : Type} (r : Except Stop Client) (f : Client → α) : Option α :=
  match r with
  | .ok c => some (f c)
  | .error _ => none

/-- The result of `mm_check` called at the end of a session. -/
def verdict (lo maxAddr : Nat) (calls : List Call) : Except Stop Int := do
  let c ← session lo maxAddr calls
  let (v, _) ← perform mm_check c.heap
  pure v

/-- The first blocks met by stepping from `p` by encoded block sizes, each
with its address, its header word and its footer word. -/
def heapBlocks (h : Heap) : Nat → Nat → List (Nat × Nat × Nat)
  | 0, _ => []
  | fuel + 1, p =>
    if p < h.brk then
      let size := u32 (h.mem p - h.mem p % 2)
      (p, h.mem p, h.mem (p + size - 8)) :: heapBlocks h fuel (p + size)
    else []

/-- The heads of the 15 free lists. -/
def heads (h : Heap) : List Nat := (List.range arrayLength).map h.array

/-- The members of the free list that starts at `p`, following the forward
links, at most `fuel` of them. -/
def listMembers (h : Heap) : Nat → Nat → List Nat
  | 0, _ => []
  | fuel + 1, p =>
    if p = 0 then []
    else
      let size := u32 (h.mem p - h.mem p % 2)
      p :: listMembers h fuel (h.mem (p + u32 (size + 2 ^ 32 - 16)))

/-- The members of each of the 15 free lists. -/
def buckets (h : Heap) : List (List Nat) :=
  (List.range arrayLength).map fun i => listMembers h 32 (h.array i)

/-- The words of the payload at `p`, `k` of them. -/
def payloadWords (h : Heap) (p k : Nat) : List Nat :=
  (List.range k).map fun i => h.mem (p + 8 * i)

deriving instance DecidableEq for Except

/-- The calls that bring the allocator into the state in which a live pointer
lies inside a merged block: `a`, `b`, `d` are allocated side by side, `a` is
freed, and growing `b` fails in the growth service after `b` has been merged
with `a`. -/
def mergedThenFailed (stored : Nat) : List Call :=
  [.malloc 16, .malloc 16, .malloc 16, .free 4112, .write 4144 8 stored, .realloc 4144 1000]

/-- A heap reached by `mm_init` and one `mm_malloc(100)`. -/
def sampleHeap : Heap :=
  match session 4096 1000000 [.malloc 100] with
  | .ok c => c.heap
  | .error _ => emptyHeap 4096 4096


/-- Why a run stopped, when it did not complete. -/
def stopped (r : Except Stop Client) : Option Stop :=
  match r with
  | .ok _ => none
  | .error e => some e

/-- A heap that cannot grow any more: `mm_init` and one `mm_malloc(16)` in a
region that holds exactly one batch of 16 blocks of 32 bytes. -/
def fullHeap : Heap :=
  match session 4096 4616 [.malloc 16] with
  | .ok c => c.heap
  | .error _ => emptyHeap 4096 4096


/-! ## Well-formed heaps -/

/-- The heap after the write of the word `v` at the address `a`. -/
def Heap.write (h : Heap) (a v : Nat) : Heap :=
  { h with mem := fun x => if x = a then u64 v else h.mem x }

/-- The heap after the assignment `array[i] = p`. -/
def Heap.setArr (h : Heap) (i p : Nat) : Heap :=
  { h with array := fun j => if j = i then p else h.array j }

/-- A free list as the code walks it: `nodes` are the blocks (address of the
header, size) from `head` on, each with its back link at `address + 8` and its
forward link at `address + size - 16`; `prev` is what the back link of the
first node holds, and the forward link of the last node is `NULL`. -/
def Chain (h : Heap) : Nat → Nat → List (Nat × Nat) → Prop
  | _, head, [] => head = 0
  | prev, head, x :: rest =>
    head = x.1 ∧ x.1 ≠ 0 ∧ h.mem (x.1 + 8) = prev ∧
      Chain h x.1 (h.mem (x.1 + x.2 - 16)) rest

/-- The blocks `bl` (address of the header, size) tile the heap from
`heapStart` to the high-water mark: they lie inside, do not overlap, each one
starts at `heapStart` or where another one ends and ends at the end of the
heap or where another one starts; each has a size that is a multiple of 16
and at least 32, a header word that is the size (free) or the size plus 1
(allocated), and a footer word equal to the header word.  The heap is smaller
than 4 GiB, so that sizes are values of `unsigned int`. -/
structure Tiled (h : Heap) (bl : List (Nat × Nat)) : Prop where
  lo_le : h.lo ≤ h.heapStart
  hs_pos : 0 < h.heapStart
  hs_le : h.heapStart ≤ h.brk
  small : h.brk + 32 < h.heapStart + 2 ^ 32
  brk_lt : h.brk < 2 ^ 64
  first : h.heapStart = h.brk ∨ ∃ b ∈ bl, b.1 = h.heapStart
  inside : ∀ b ∈ bl, h.heapStart ≤ b.1 ∧ b.1 + b.2 ≤ h.brk ∧ b.1 % 8 = 0
  disj : ∀ b ∈ bl, ∀ c ∈ bl, b = c ∨ b.1 + b.2 ≤ c.1 ∨ c.1 + c.2 ≤ b.1
  before : ∀ b ∈ bl, b.1 = h.heapStart ∨ ∃ c ∈ bl, c.1 + c.2 = b.1
  after : ∀ b ∈ bl, b.1 + b.2 = h.brk ∨ ∃ c ∈ bl, c.1 = b.1 + b.2
  tagged : ∀ b ∈ bl, 32 ≤ b.2 ∧ b.2 % 16 = 0 ∧ (h.mem b.1 = b.2 ∨ h.mem b.1 = b.2 + 1) ∧
    h.mem (b.1 + b.2 - 8) = h.mem b.1

/-- The free lists `bk 0 .. bk 14` are what the array of list heads and the
links in the heap describe: each list is a chain from its head, its members
are blocks of the heap whose header says free and whose size is of the class
of the list, no block occurs twice, and every block whose header says free is
a member of the list of its class, except for the blocks at the addresses in
`loose`, which are members of no list. -/
structure Listed (h : Heap) (bl : List (Nat × Nat)) (bk : Nat → List (Nat × Nat))
    (loose : List Nat) : Prop where
  chains : ∀ i, i < arrayLength → Chain h 0 (h.array i) (bk i)
  members : ∀ i, i < arrayLength → ∀ x ∈ bk i, x ∈ bl ∧ h.mem x.1 = x.2 ∧ getIndexOf x.2 = i
  nodup : ∀ i, i < arrayLength → (bk i).Nodup
  registered : ∀ b ∈ bl, h.mem b.1 = b.2 → b.1 ∈ loose ∨ b ∈ bk (getIndexOf b.2)
  loose_out : ∀ i, i < arrayLength → ∀ x ∈ bk i, x.1 ∉ loose

/-- A well-formed heap with its blocks and its free lists. -/
def WF (h : Heap) (bl : List (Nat × Nat)) (bk : Nat → List (Nat × Nat))
    (loose : List Nat) : Prop :=
  Tiled h bl ∧ Listed h bl bk loose



/-- The number `ps` is the size of the free block that ends at the address
`a`, or 0 when there is none: `a` is the start of the heap, or the block that
ends at `a` is allocated. -/
def FreeBefore (h : Heap) (bl : List (Nat × Nat)) (a ps : Nat) : Prop :=
  (ps = 0 ∧ (a = h.heapStart ∨ ∃ c ∈ bl, c.1 + c.2 = a ∧ h.mem c.1 = c.2 + 1)) ∨
  (ps ≤ a ∧ (a - ps, ps) ∈ bl ∧ h.mem (a - ps) = ps)

/-- The number `ns` is the size of the free block that starts at the address
`e`, or 0 when there is none: `e` is the end of the heap, or the block that
starts at `e` is allocated. -/
def FreeAfter (h : Heap) (bl : List (Nat × Nat)) (e ns : Nat) : Prop :=
  (ns = 0 ∧ (e = h.brk ∨ ∃ c ∈ bl, c.1 = e ∧ h.mem c.1 = c.2 + 1)) ∨
  ((e, ns) ∈ bl ∧ h.mem e = ns)


/-- The `n` blocks of size `s` that lie side by side from the address `a`. -/
def batchFrom (a s : Nat) : Nat → List (Nat × Nat)
  | 0 => []
  | n + 1 => (a, s) :: batchFrom (a + s) s n

/-- The lists of a heap whose free blocks all are in the list `i0`. -/
def classOnly (i0 : Nat) (free : List (Nat × Nat)) : Nat → List (Nat × Nat) :=
  fun i => if i = i0 then free else []

/-- The links of a list can be checked by following them. -/
instance Chain.dec (h : Heap) : (nodes : List (Nat × Nat)) → (prev head : Nat) →
    Decidable (Chain h prev head nodes)
  | [], _, head => inferInstanceAs (Decidable (head = 0))
  | x :: rest, prev, head =>
    have := Chain.dec h rest x.1 (h.mem (x.1 + x.2 - 16))
    inferInstanceAs (Decidable (head = x.1 ∧ x.1 ≠ 0 ∧ h.mem (x.1 + 8) = prev ∧
      Chain h x.1 (h.mem (x.1 + x.2 - 16)) rest))

/-- The heap after `mm_init` and two calls `mm_malloc(10)`: a batch of 16
blocks of 32 bytes, the first two allocated and side by side. -/
def twoBlocks : Heap :=
  match session 4096 1000000 [.malloc 10, .malloc 10] with
  | .ok c => c.heap
  | .error _ => emptyHeap 4096 4096

/-- The calls after which list 1 runs in a circle: `a`, `b`, `d` are allocated
side by side, `a` is freed, the caller keeps the number 4168 in the last word
of `b = 4144` and in the last word of `d = 4176`, and growing `b` fails twice
in the growth service. -/
def selfLinked : List Call :=
  [.malloc 16, .malloc 16, .malloc 16, .free 4112, .write 4144 8 4168, .write 4176 8 4168,
   .realloc 4144 1000, .realloc 4144 1000]

/-- The heap after a reallocation that failed in the growth service, with the
number 4200 in the last word of `b = 4144`, and `mm_free(b)`: the free block at
4200, of 32 bytes, is the head of list 0 and its back link is 4104. -/
def staleLink : Heap :=
  match session 4096 4616 (mergedThenFailed 4200 ++ [.free 4144]) with
  | .ok c => c.heap
  | .error _ => emptyHeap 4096 4096

/-- The result of `place(bp, t)`, the header word of `bp` after it and the
members of the 15 lists after it. -/
def afterPlace (h : Heap) (bp t idx : Nat) : Option (Nat × Nat × List (List Nat)) :=
  match place bp t idx h with
  | .ok (r, h') => some (r, h'.mem bp, buckets h')
  | .error _ => none

/-! ## Theorems -/

set_option maxRecDepth 1000000 in
/-- Claim C1, at the request `2^32 + 1` on the freshly initialised heap:
`mm_malloc` returns the pointer 4112 and the block behind it has a usable
capacity of 16 bytes, far less than the request, because `roundUp` truncates
the size to `unsigned int`. -/
theorem mm_malloc_truncates_request :
    observe (session 4096 1000000 [.malloc 4294967297])
      (fun c => (c.results, c.live, c.results.map (capacity c.heap)))
      = some ([4112], [(4112, 4294967297)], [16]) := by
  decide!

set_option maxRecDepth 1000000 in
/-- Claim C2, after a reallocation that failed in the growth service: the
caller keeps the integer 48 in the first word of `d = 4176` and the pointer `d`
in the last word of `b = 4144`; `mm_realloc(b, 1000)` fails after merging `b`
with its free predecessor, `mm_free(b)` then takes the last word of `b` for a
list link, and the second `mm_malloc(32)` returns 4184, inside the region of
the live pointer 4176. -/
theorem live_regions_overlap :
    observe (session 4096 4616
        [.malloc 16, .malloc 16, .malloc 16, .free 4112, .write 4176 0 48,
         .write 4144 8 4176, .realloc 4144 1000, .free 4144, .malloc 32, .malloc 32])
      (fun c => (c.results, c.live, c.live.map fun e => capacity c.heap e.1))
      = some ([4184, 4112, 0, 4176, 4144, 4112],
              [(4184, 32), (4112, 32), (4176, 16)], [32, 48, 16]) := by
  decide!

set_option maxRecDepth 1000000 in
/-- Claim C3, after a reallocation that failed in the growth service: the live
pointer 4144 has capacity 16 and holds the words 0 and 4160; `mm_realloc(4144,
40)` returns 4112, where the two words are 0 and 0. -/
theorem mm_realloc_loses_payload :
    observe (session 4096 4616 (mergedThenFailed 4160))
      (fun c => (c.live, capacity c.heap 4144, payloadWords c.heap 4144 2))
      = some ([(4176, 16), (4144, 16)], 16, [0, 4160]) ∧
    observe (session 4096 4616 (mergedThenFailed 4160 ++ [.realloc 4144 40]))
      (fun c => (c.results.head?, c.live, payloadWords c.heap 4112 2))
      = some (some 4112, [(4112, 40), (4176, 16)], [0, 0]) := by
  decide!

set_option maxRecDepth 1000000 in
/-- Claim C4: after `mm_init` and one `mm_malloc(10)` the scan of `mm_check`
follows the list link of the allocated block to address 0 and faults; after
two allocations and the release of the first, `mm_check` returns 0. -/
theorem mm_check_rejects_reachable_heap :
    verdict 4096 1000000 [.malloc 10] = .error (.fault .segv) ∧
    verdict 4096 1000000 [.malloc 10, .malloc 10, .free 4112] = .ok 0 := by
  decide!

set_option maxRecDepth 1000000 in
/-- Claim C5: after `mm_init` and `mm_malloc(10)` the blocks at 4136 and 4168
are physical neighbours and both free; after the pointer is freed again the
merged block at 4104 is followed by the free blocks at 4168 and 4200. -/
theorem adjacent_free_blocks_after_growth :
    observe (session 4096 1000000 [.malloc 10])
      (fun c => (c.results, heapBlocks c.heap 3 c.heap.heapStart))
      = some ([4112], [(4104, 33, 33), (4136, 32, 32), (4168, 32, 32)]) ∧
    observe (session 4096 1000000 [.malloc 10, .free 4112])
      (fun c => heapBlocks c.heap 3 c.heap.heapStart)
      = some [(4104, 64, 64), (4168, 32, 32), (4200, 32, 32)] := by
  decide!

set_option maxRecDepth 1000000 in
/-- Claim C6, after a reallocation that failed in the growth service: once
the pointer 4144 is freed, the only member of any list is the block at 4104,
although the blocks at 4200 and 4232 are free blocks of size 32. -/
theorem free_blocks_dropped_from_list :
    observe (session 4096 4616
        [.malloc 16, .malloc 16, .free 4112, .realloc 4144 1000, .free 4144])
      (fun c => (c.results, c.live.length, buckets c.heap))
      = some ([0, 4144, 4112], 0, [[], [], [4104], [], [], [], [], [], [], [], [], [], [], [], []]) ∧
    observe (session 4096 4616
        [.malloc 16, .malloc 16, .free 4112, .realloc 4144 1000, .free 4144])
      (fun c => heapBlocks c.heap 3 c.heap.heapStart)
      = some [(4104, 96, 96), (4200, 32, 32), (4232, 32, 32)] := by
  decide!

set_option maxRecDepth 1000000 in
/-- Claim C7, after a reallocation that failed in the growth service: the
caller keeps the end address of its buffer, 4160, in the last word of `b =
4144`; once `b` is freed, the second block of the heap, which belongs to the
live pointer 4176, has the header word 4104 and no matching footer. -/
theorem header_overwritten_by_free :
    observe (session 4096 4616 (mergedThenFailed 4160 ++ [.free 4144]))
      (fun c => (c.live, heapBlocks c.heap 2 c.heap.heapStart, c.heap.mem 4192))
      = some ([(4176, 16)], [(4104, 64, 64), (4168, 4104, 0)], 33) := by
  decide!

/-- Claim C8: in every state `mm_malloc(0)` returns `NULL` and `mm_free(NULL)`
returns, and both leave the whole state (list heads, heap words, extent of the
heap) as it was. -/
theorem zero_size_and_null_are_no_ops (h : Heap) :
    mm_malloc 0 h = .ok (0, h) ∧ mm_free 0 h = .ok ((), h) :=
  ⟨rfl, rfl⟩

/-- Claim C9: for `n > 0`, `mm_realloc(NULL, n)` is `mm_malloc(n)`, result and
state; for every pointer `p`, `mm_realloc(p, 0)` ends as `mm_free(p)` does and
returns `NULL`. -/
theorem mm_realloc_null_and_zero (h : Heap) (p n : Nat) (hn : 0 < n) :
    mm_realloc 0 n h = mm_malloc n h ∧
    mm_realloc p 0 h = Except.map (fun r => (0, r.2)) (mm_free p h) := by
  constructor
  · have hn0 : n ≠ 0 := Nat.pos_iff_ne_zero.mp hn
    simp [mm_realloc, hn0]
  · simp only [mm_realloc, if_true]
    show (mm_free p >>= fun _ => pure 0) h = _
    simp only [bind, StateT.bind, pure, StateT.pure, Except.bind, Except.map, Except.pure]

set_option maxRecDepth 1000000 in
/-- The theorem for C9 at the pointer 4112 of `sampleHeap` and the size 5. -/
theorem mm_realloc_null_and_zero_witness :
    0 < 5 ∧ (mm_realloc 0 5 sampleHeap = mm_malloc 5 sampleHeap ∧
      mm_realloc 4112 0 sampleHeap
        = Except.map (fun r => (0, r.2)) (mm_free 4112 sampleHeap)) :=
  ⟨by decide, mm_realloc_null_and_zero sampleHeap 4112 5 (by decide)⟩

/-- Claim C10: when the header before `p` can be read and `0 < n ≤ c`, with `c`
the usable capacity at `p`, `mm_realloc(p, n)` returns `p` and leaves the whole
state as it was. -/
theorem mm_realloc_within_capacity (h : Heap) (p n : Nat) (hp : 8 ≤ p)
    (hv : validAddr h (p - 8) = true) (hn : 0 < n) (hc : n ≤ capacity h p) :
    mm_realloc p n h = .ok (p, h) := by
  have hn0 : n ≠ 0 := Nat.pos_iff_ne_zero.mp hn
  have hp0 : p ≠ 0 := by omega
  unfold capacity at hc
  set B := u32 (h.mem (p - 8) - h.mem (p - 8) % 2) with hB
  have hBlt : B < 2 ^ 32 := Nat.mod_lt _ (by norm_num)
  have hB16 : 16 + n ≤ B := by omega
  have hold : u32 (B + 2 ^ 32 - 16) = B - 16 := by
    unfold u32
    have hsplit : B + 2 ^ 32 - 16 = (B - 16) + 2 ^ 32 := by omega
    rw [hsplit, Nat.add_mod_right, Nat.mod_eq_of_lt (by omega)]
  have hnew : u32 n = n := Nat.mod_eq_of_lt (by omega)
  have hsize : getSize (p - 8) h = .ok (B, h) := by
    simp [getSize, load, hv, bind, StateT.bind, Except.bind, pure, StateT.pure,
      Except.pure, hB]
  simp only [mm_realloc, hn0, hp0, if_false]
  show (getSize (p - 8) >>= _) h = _
  simp only [bind, StateT.bind, hsize, Except.bind, hold, hnew]
  by_cases he : n = B - 16
  · simp [he, pure, StateT.pure, Except.pure]
  · have hlt : n < B - 16 := by omega
    simp [he, hlt, pure, StateT.pure, Except.pure]

set_option maxRecDepth 1000000 in
/-- The theorem for C10 at the pointer 4112 of `sampleHeap`, whose block has
size 128 and capacity 112, and the new size 50. -/
theorem mm_realloc_within_capacity_witness :
    8 ≤ 4112 ∧ validAddr sampleHeap (4112 - 8) = true ∧ 0 < 50 ∧
      50 ≤ capacity sampleHeap 4112 ∧
      mm_realloc 4112 50 sampleHeap = .ok (4112, sampleHeap) :=
  ⟨by decide, by decide!, by decide, by decide!,
    mm_realloc_within_capacity sampleHeap 4112 50 (by decide) (by decide!) (by decide)
      (by decide!)⟩


/-! ### Reads leave the state as it is -/

theorem run_bind {α β : Type} (m : M α) (f : α → M β) (h : Heap) :
    (m >>= f) h = match m h with
      | .ok (a, h') => f a h'
      | .error e => .error e := by
  show StateT.bind m f h = _
  unfold StateT.bind
  show Except.bind (m h) _ = _
  cases hm : m h with
  | error e => rfl
  | ok r => cases r; rfl

theorem run_pure {α : Type} (a : α) (h : Heap) : (pure a : M α) h = .ok (a, h) := rfl

theorem run_throw {α : Type} (e : Fault) (h : Heap) : (throw e : M α) h = .error e := rfl

theorem load_eq (a : Nat) (h : Heap) :
    load a h = if validAddr h a then .ok (h.mem a, h) else .error .segv := rfl

theorem load_state {a r : Nat} {h h' : Heap} (e : load a h = .ok (r, h')) :
    h' = h ∧ r = h.mem a := by
  rw [load_eq] at e
  split at e
  · injection e with e; injection e with e1 e2; exact ⟨e2.symm, e1.symm⟩
  · cases e

theorem getSize_state {a r : Nat} {h h' : Heap} (e : getSize a h = .ok (r, h')) : h' = h := by
  unfold getSize at e
  rw [run_bind] at e
  cases hl : load a h with
  | error f => rw [hl] at e; cases e
  | ok p =>
    obtain ⟨w, h1⟩ := p
    rw [hl] at e
    have := (load_state hl).1
    subst this
    simp only [run_pure] at e
    injection e with e; injection e with _ e2; exact e2.symm

theorem getNext_state {a r : Nat} {h h' : Heap} (e : getNext a h = .ok (r, h')) : h' = h := by
  unfold getNext at e
  rw [run_bind] at e
  cases hl : getSize a h with
  | error f => rw [hl] at e; cases e
  | ok p =>
    obtain ⟨w, h1⟩ := p
    rw [hl] at e
    have := getSize_state hl
    subst this
    exact (load_state e).1

theorem findLoop_state (t : Nat) : ∀ (fuel it r : Nat) (h h' : Heap),
    findLoop t fuel it h = .ok (r, h') → h' = h := by
  intro fuel
  induction fuel with
  | zero => intro it r h h' e; cases e
  | succ n ih =>
    intro it r h h' e
    unfold findLoop at e
    split at e
    · simp only [run_pure] at e
      injection e with e; injection e with _ e2; exact e2.symm
    · rw [run_bind] at e
      cases hl : getSize it h with
      | error f => rw [hl] at e; cases e
      | ok p =>
        obtain ⟨sz, h1⟩ := p
        rw [hl] at e
        have := getSize_state hl
        subst this
        simp only at e
        split at e
        · rw [run_bind] at e
          cases hn : getNext it h1 with
          | error f => rw [hn] at e; cases e
          | ok q =>
            obtain ⟨nx, h2⟩ := q
            rw [hn] at e
            have := getNext_state hn
            subst this
            exact ih _ _ _ _ e
        · simp only [run_pure] at e
          injection e with e; injection e with _ e2; exact e2.symm

theorem find_fit_state {t i r : Nat} {h h' : Heap} (e : find_fit t i h = .ok (r, h')) :
    h' = h := by
  unfold find_fit at e
  rw [run_bind] at e
  simp only [getHead] at e
  rw [run_bind] at e
  exact findLoop_state _ _ _ _ _ _ e

theorem find_fit_null {t i : Nat} {h : Heap}
    (e : Except.map Prod.fst (find_fit t i h) = .ok 0) : find_fit t i h = .ok (0, h) := by
  cases hf : find_fit t i h with
  | error f => rw [hf] at e; cases e
  | ok p =>
    obtain ⟨r, h'⟩ := p
    rw [hf] at e
    have := find_fit_state hf
    subst this
    simp only [Except.map] at e
    injection e with e
    change r = 0 at e
    rw [e]

theorem mallocScan_none (t : Nat) (h : Heap) : ∀ (left idx : Nat),
    (∀ i, idx ≤ i → i < idx + left → Except.map Prod.fst (find_fit t i h) = .ok 0) →
    mallocScan t left idx h = .ok (none, h) := by
  intro left
  induction left with
  | zero => intro idx _; rfl
  | succ n ih =>
    intro idx hall
    have hrest : mallocScan t n (idx + 1) h = .ok (none, h) :=
      ih (idx + 1) (fun i h1 h2 => hall i (by omega) (by omega))
    have hf := find_fit_null (hall idx (Nat.le_refl _) (by omega))
    unfold mallocScan
    simp only [run_bind, getHead]
    split
    · exact hrest
    · rw [run_bind, hf]
      simp only [ne_eq, not_true_eq_false, if_false]
      exact hrest

/-! ### The classes of `getIndex` -/

/-- Case analysis along the comparisons of `getIndex`. -/
theorem getIndexOf_cases (P : Nat → Prop) (size : Nat)
    (h0 : size = 32 → P 0) (h1 : size ≠ 32 → size ≤ 64 → P 1)
    (h2 : 64 < size → size ≤ 128 → P 2) (h3 : 128 < size → size ≤ 256 → P 3)
    (h4 : 256 < size → size ≤ 512 → P 4) (h5 : 512 < size → size ≤ 1024 → P 5)
    (h6 : 1024 < size → size ≤ 2048 → P 6) (h7 : 2048 < size → size ≤ 4096 → P 7)
    (h8 : 4096 < size → size ≤ 8192 → P 8) (h9 : 8192 < size → size ≤ 16384 → P 9)
    (h10 : 16384 < size → size ≤ 32768 → P 10) (h11 : 32768 < size → size ≤ 65536 → P 11)
    (h12 : 65536 < size → size ≤ 131072 → P 12) (h13 : 131072 < size → size ≤ 262144 → P 13)
    (h14 : 262144 < size → P 14) : P (getIndexOf size) := by
  unfold getIndexOf
  by_cases c0 : size = 32
  · rw [if_pos c0]; exact h0 c0
  rw [if_neg c0]
  by_cases c1 : size ≤ 64
  · rw [if_pos c1]; exact h1 c0 c1
  rw [if_neg c1]
  by_cases c2 : size ≤ 128
  · rw [if_pos c2]; exact h2 (by omega) c2
  rw [if_neg c2]
  by_cases c3 : size ≤ 256
  · rw [if_pos c3]; exact h3 (by omega) c3
  rw [if_neg c3]
  by_cases c4 : size ≤ 512
  · rw [if_pos c4]; exact h4 (by omega) c4
  rw [if_neg c4]
  by_cases c5 : size ≤ 1024
  · rw [if_pos c5]; exact h5 (by omega) c5
  rw [if_neg c5]
  by_cases c6 : size ≤ 2048
  · rw [if_pos c6]; exact h6 (by omega) c6
  rw [if_neg c6]
  by_cases c7 : size ≤ 4096
  · rw [if_pos c7]; exact h7 (by omega) c7
  rw [if_neg c7]
  by_cases c8 : size ≤ 8192
  · rw [if_pos c8]; exact h8 (by omega) c8
  rw [if_neg c8]
  by_cases c9 : size ≤ 16384
  · rw [if_pos c9]; exact h9 (by omega) c9
  rw [if_neg c9]
  by_cases c10 : size ≤ 32768
  · rw [if_pos c10]; exact h10 (by omega) c10
  rw [if_neg c10]
  by_cases c11 : size ≤ 65536
  · rw [if_pos c11]; exact h11 (by omega) c11
  rw [if_neg c11]
  by_cases c12 : size ≤ 131072
  · rw [if_pos c12]; exact h12 (by omega) c12
  rw [if_neg c12]
  by_cases c13 : size ≤ 262144
  · rw [if_pos c13]; exact h13 (by omega) c13
  rw [if_neg c13]
  exact h14 (by omega)

theorem getIndexOf_lt (size : Nat) : getIndexOf size < 15 := by
  apply getIndexOf_cases (fun g => g < 15) <;> intros <;> omega

/-! ### Claims C11 to C20 -/

/-- The out-of-memory path of `mm_malloc`: when the request has a class, the
scan of `find_fit` ends without a fit in every list from that class upward,
and the growth service refuses the bytes that `extend_heap` asks for,
`mm_malloc` returns `NULL` and leaves the whole state as it was. -/
theorem mm_malloc_out_of_memory (h : Heap) (s idx : Nat) (hs : 0 < s)
    (hidx : getIndex (u32 (roundUp s + 16)) h = .ok (idx, h))
    (hnofit : ∀ i, idx ≤ i → i < arrayLength →
      Except.map Prod.fst (find_fit (u32 (roundUp s + 16)) i h) = .ok 0)
    (hgrow : Except.map Prod.fst
      (mem_sbrk (u32 ((if idx < 3 then 16 else 1) * u32 (1 <<< (idx + 5)))) h) = .ok none) :
    mm_malloc s h = .ok (0, h) := by
  have hs0 : s ≠ 0 := Nat.pos_iff_ne_zero.mp hs
  have hscan : mallocScan (u32 (roundUp s + 16)) (arrayLength - idx) idx h = .ok (none, h) := by
    apply mallocScan_none
    intro i h1 h2
    exact hnofit i h1 (by omega)
  have hsbrk : mem_sbrk (u32 ((if idx < 3 then 16 else 1) * u32 (1 <<< (idx + 5)))) h
      = .ok (none, h) := by
    unfold mem_sbrk at hgrow ⊢
    by_cases hc : h.brk + u32 ((if idx < 3 then 16 else 1) * u32 (1 <<< (idx + 5))) ≤ h.maxAddr
    · rw [if_pos hc] at hgrow
      simp [Except.map] at hgrow
    · rw [if_neg hc]
  unfold mm_malloc
  simp only [hs0, if_false, run_bind, hidx, hscan, getHead, extend_heap, hsbrk, run_pure,
    if_true]

set_option maxRecDepth 1000000 in
/-- The out-of-memory path at `fullHeap` and the request of 40 bytes: class 1,
lists 1 to 14 empty, and no room for the 1024 bytes of a batch. -/
theorem mm_malloc_out_of_memory_witness :
    0 < 40 ∧ getIndex (u32 (roundUp 40 + 16)) fullHeap = .ok (1, fullHeap) ∧
      (∀ i, 1 ≤ i → i < arrayLength →
        Except.map Prod.fst (find_fit (u32 (roundUp 40 + 16)) i fullHeap) = .ok 0) ∧
      Except.map Prod.fst
        (mem_sbrk (u32 ((if 1 < 3 then 16 else 1) * u32 (1 <<< (1 + 5)))) fullHeap) = .ok none ∧
      mm_malloc 40 fullHeap = .ok (0, fullHeap) :=
  ⟨by decide, rfl, by decide!, by decide!,
    mm_malloc_out_of_memory fullHeap 40 1 (by decide) rfl (by decide!) (by decide!)⟩

set_option maxRecDepth 1000000 in
/-- Claim C11, at two reachable states in which no list holds a fit and the
growth service refuses every request, the heap ending at its limit 4616.
After `mm_init` and `mm_malloc(16)` list 0 holds 15 blocks of 32 bytes and the
other lists are empty: `mm_malloc(40)` returns `NULL` and leaves the lists as
they were, but `mm_malloc(2^32 - 1)` stops at `assert(size >= 32)` of
`getIndex`, the rounded size `2^32` being truncated to 0.  After the calls of
`selfLinked` the head of list 1 is the block at 4168, whose header gives 32
bytes and whose forward link, the word at 4184, is 4168 itself, and the lists
2 to 14 are empty: `mm_malloc(40)`, which needs 64 bytes, never leaves the
loop of `find_fit`. -/
theorem mm_malloc_aborts_out_of_memory :
    observe (session 4096 4616 [.malloc 16])
      (fun c => (c.heap.brk, c.heap.maxAddr, (buckets c.heap).map List.length))
      = some (4616, 4616, [15, 0, 0, 0, 0, 0, 0, 0, 0, 0, 0, 0, 0, 0, 0]) ∧
    observe (session 4096 4616 [.malloc 16, .malloc 40])
      (fun c => (c.results, (buckets c.heap).map List.length))
      = some ([0, 4112], [15, 0, 0, 0, 0, 0, 0, 0, 0, 0, 0, 0, 0, 0, 0]) ∧
    stopped (session 4096 4616 [.malloc 16, .malloc 4294967295]) = some (.fault .assertion) ∧
    observe (session 4096 4616 selfLinked)
      (fun c => (c.live, c.heap.brk, c.heap.maxAddr, c.heap.mem 4168, c.heap.mem 4184))
      = some ([(4176, 16), (4144, 16)], 4616, 4616, 33, 4168) ∧
    observe (session 4096 4616 selfLinked) (fun c => (heads c.heap).drop 1)
      = some [4168, 0, 0, 0, 0, 0, 0, 0, 0, 0, 0, 0, 0, 0] ∧
    stopped (session 4096 4616 (selfLinked ++ [.malloc 40])) = some (.fault .diverge) := by
  refine ⟨?_, ?_, ?_, ?_, ?_, ?_⟩
  all_goals decide!

set_option maxRecDepth 1000000 in
/-- Claim C12, at the request of 600000 bytes on the freshly initialised heap
with room to grow: no list holds a fit, `extend_heap(14)` succeeds with one
block of 524288 bytes, the retried `find_fit` returns `NULL`, and `mm_malloc`
stops at `assert(0)`. -/
theorem mm_malloc_reaches_assert :
    stopped (session 4096 100000000 [.malloc 600000]) = some (.fault .assertion) := by
  decide!

set_option maxRecDepth 1000000 in
/-- Claim C13, after a reallocation that failed in the growth service: the
caller keeps the number 4200 in the last word of `b = 4144`; after
`mm_free(b)`, `mm_malloc(16)` returns 4208 and `mm_free(4208)` leaves the
free block at 4200, of size 64, at the head of list 0 and of list 1. -/
theorem freed_block_in_two_lists :
    observe (session 4096 4616 (mergedThenFailed 4200 ++ [.free 4144, .malloc 16, .free 4208]))
      (fun c => (c.results, (buckets c.heap).take 3))
      = some ([4208, 0, 4176, 4144, 4112],
          [[4200, 4104, 4264, 4296, 4328, 4360, 4392, 4424, 4456, 4488, 4520, 4552, 4584],
           [4200, 4104, 4264, 4296, 4328, 4360, 4392, 4424, 4456, 4488, 4520, 4552, 4584],
           []]) ∧
    observe (session 4096 4616 (mergedThenFailed 4200 ++ [.free 4144, .malloc 16, .free 4208]))
      (fun c => heapBlocks c.heap 3 c.heap.heapStart)
      = some [(4104, 64, 64), (4168, 33, 33), (4200, 64, 64)] := by
  decide!

set_option maxRecDepth 1000000 in
/-- Claim C16, at the new size `2^32 + 5` for the pointer 4112 of capacity
1008 whose block is the whole heap: `mm_realloc` takes the size for 5, and
returns the pointer 4112 itself without a fresh block; at the new size 2000
it returns the fresh pointer 5136 and the old block is in list 5. -/
theorem mm_realloc_truncates_request :
    observe (session 4096 100000000 [.malloc 1000, .realloc 4112 4294967301])
      (fun c => (c.results, heapBlocks c.heap 2 c.heap.heapStart))
      = some ([4112, 4112], [(4104, 1025, 1025)]) ∧
    observe (session 4096 100000000 [.malloc 1000, .realloc 4112 2000])
      (fun c => (c.results, heapBlocks c.heap 3 c.heap.heapStart))
      = some ([5136, 4112], [(4104, 1024, 1024), (5128, 2017, 2017), (7144, 32, 32)]) ∧
    observe (session 4096 100000000 [.malloc 1000, .realloc 4112 2000])
      (fun c => (buckets c.heap).take 6)
      = some [[7144], [], [], [], [], [4104]] := by
  decide!

/-- Claim C17 fails as stated at the size 524304, a multiple of 16 above
`2^19` that `getIndex` maps to list 14. -/
theorem getIndex_above_last_class :
    Except.map Prod.fst (getIndex 524304 (emptyHeap 0 0)) = .ok 14 ∧
      32 ≤ 524304 ∧ 524304 % 16 = 0 ∧ ¬ (524304 ≤ 2 ^ 19) := by
  decide

/-- Claim C17 as amended: for a size that is a multiple of 16 and at least 32,
`getIndex` returns 0
exactly for 32, `i` from 1 to 13 exactly for the sizes in `(2^(i+4), 2^(i+5)]`,
and 14 exactly for the sizes above `2^18`. -/
theorem getIndex_classes (h : Heap) (size : Nat) (h32 : 32 ≤ size) (_h16 : size % 16 = 0) :
    ∃ i, getIndex size h = .ok (i, h) ∧ (i = 0 ↔ size = 32) ∧
      (∀ k, 1 ≤ k → k ≤ 13 → (i = k ↔ 2 ^ (k + 4) < size ∧ size ≤ 2 ^ (k + 5))) ∧
      (i = 14 ↔ 2 ^ 18 < size) := by
  refine ⟨getIndexOf size, ?_, ?_, ?_, ?_⟩
  · unfold getIndex
    rw [if_neg (by omega)]
    rfl
  · apply getIndexOf_cases (fun g => g = 0 ↔ size = 32) <;> intros <;> omega
  · intro k hk1 hk13
    interval_cases k <;>
      (apply getIndexOf_cases (fun g => g = _ ↔ _ < size ∧ size ≤ _) <;> intros <;> omega)
  · apply getIndexOf_cases (fun g => g = 14 ↔ 2 ^ 18 < size) <;> intros <;> omega

/-- The theorem for C17 at the size 48. -/
theorem getIndex_classes_witness :
    32 ≤ 48 ∧ 48 % 16 = 0 ∧
      ∃ i, getIndex 48 (emptyHeap 0 0) = .ok (i, emptyHeap 0 0) ∧ (i = 0 ↔ 48 = 32) ∧
        (∀ k, 1 ≤ k → k ≤ 13 → (i = k ↔ 2 ^ (k + 4) < 48 ∧ 48 ≤ 2 ^ (k + 5))) ∧
        (i = 14 ↔ 2 ^ 18 < 48) :=
  ⟨by decide, by decide, getIndex_classes (emptyHeap 0 0) 48 (by decide) (by decide)⟩

set_option maxRecDepth 1000000 in
/-- Claim C19, after `mm_init`, `mm_malloc(16)` and the caller keeping the end
address of the heap, 4616, in the last word of its block: `mm_check` returns 1
although the blocks at 4136 and 4168 are physical neighbours and both free;
its scan went from the first block straight to the end of the heap. -/
theorem mm_check_passes_unscanned_heap :
    verdict 4096 100000000 [.malloc 16, .write 4112 8 4616] = .ok 1 ∧
    observe (session 4096 100000000 [.malloc 16, .write 4112 8 4616])
      (fun c => (c.heap.brk, heapBlocks c.heap 3 c.heap.heapStart))
      = some (4616, [(4104, 33, 33), (4136, 32, 32), (4168, 32, 32)]) := by
  decide!



/-! ### Primitive steps -/

theorem validAddr_iff (h : Heap) (a : Nat) :
    validAddr h a = true ↔ h.lo ≤ a ∧ a + 8 ≤ h.brk ∧ a % 8 = 0 := by
  simp [validAddr, and_assoc]

theorem load_ok {h : Heap} {a : Nat} (hv : validAddr h a = true) :
    load a h = .ok (h.mem a, h) := by
  rw [load_eq, if_pos hv]

theorem store_ok {h : Heap} {a : Nat} (v : Nat) (hv : validAddr h a = true) :
    store a v h = .ok ((), h.write a v) := by
  unfold store Heap.write
  rw [if_pos hv]

theorem write_mem (h : Heap) (a v x : Nat) :
    (h.write a v).mem x = if x = a then u64 v else h.mem x := rfl

theorem write_mem_ne {h : Heap} {a v x : Nat} (hx : x ≠ a) : (h.write a v).mem x = h.mem x := by
  rw [write_mem, if_neg hx]

theorem write_mem_eq {h : Heap} {a v : Nat} (hv : v < 2 ^ 64) : (h.write a v).mem a = v := by
  rw [write_mem, if_pos rfl]
  exact Nat.mod_eq_of_lt hv

theorem validAddr_write (h : Heap) (a v x : Nat) : validAddr (h.write a v) x = validAddr h x := rfl

theorem validAddr_setArr (h : Heap) (i p x : Nat) : validAddr (h.setArr i p) x = validAddr h x := rfl

theorem u32_sub16 {s : Nat} (h16 : 16 ≤ s) (hlt : s < 2 ^ 32) : u32 (s + 2 ^ 32 - 16) = s - 16 := by
  unfold u32
  have hsplit : s + 2 ^ 32 - 16 = (s - 16) + 2 ^ 32 := by omega
  rw [hsplit, Nat.add_mod_right, Nat.mod_eq_of_lt (by omega)]

theorem u32_header {w s : Nat} (hs : s % 2 = 0) (hlt : s < 2 ^ 32) (hw : w = s ∨ w = s + 1) :
    u32 (w - w % 2) = s := by
  unfold u32
  rcases hw with rfl | rfl
  · rw [hs, Nat.sub_zero, Nat.mod_eq_of_lt hlt]
  · have : (s + 1) % 2 = 1 := by omega
    rw [this, Nat.add_sub_cancel, Nat.mod_eq_of_lt hlt]

theorem getSize_ok {h : Heap} {a s : Nat} (hv : validAddr h a = true) (hs : s % 2 = 0)
    (hlt : s < 2 ^ 32) (hw : h.mem a = s ∨ h.mem a = s + 1) : getSize a h = .ok (s, h) := by
  unfold getSize
  rw [run_bind, load_ok hv]
  simp only [run_pure, u32_header hs hlt hw]

theorem getAlloc_ok {h : Heap} {a : Nat} (hv : validAddr h a = true) :
    getAlloc a h = .ok (if h.mem a % 2 = 0 then Status.FREE else Status.ALLOCATED, h) := by
  unfold getAlloc
  rw [run_bind, load_ok hv]
  rfl

theorem getNext_ok {h : Heap} {a s : Nat} (hv : validAddr h a = true) (hs : s % 2 = 0)
    (h16 : 16 ≤ s) (hlt : s < 2 ^ 32) (hw : h.mem a = s ∨ h.mem a = s + 1)
    (hv2 : validAddr h (a + s - 16) = true) : getNext a h = .ok (h.mem (a + s - 16), h) := by
  unfold getNext
  rw [run_bind, getSize_ok hv hs hlt hw]
  simp only [u32_sub16 h16 hlt]
  have : a + (s - 16) = a + s - 16 := by omega
  rw [this, load_ok hv2]

theorem setNext_ok {h : Heap} {a s : Nat} (v : Nat) (hv : validAddr h a = true) (hs : s % 2 = 0)
    (h16 : 16 ≤ s) (hlt : s < 2 ^ 32) (hw : h.mem a = s ∨ h.mem a = s + 1)
    (hv2 : validAddr h (a + s - 16) = true) :
    setNext a v h = .ok ((), h.write (a + s - 16) v) := by
  unfold setNext
  rw [run_bind, getSize_ok hv hs hlt hw]
  simp only [u32_sub16 h16 hlt]
  have : a + (s - 16) = a + s - 16 := by omega
  rw [this, store_ok v hv2]

theorem setSizeAlloc_free {h : Heap} {a s : Nat} (hs : s % 2 = 0) (hv : validAddr h a = true)
    (hv2 : validAddr h (a + s - 8) = true) :
    setSizeAlloc a s .FREE h = .ok ((), (h.write a s).write (a + s - 8) s) := by
  unfold setSizeAlloc
  simp only [run_bind, hs, Nat.sub_zero, store_ok _ hv]
  rw [store_ok s (by rw [validAddr_write]; exact hv2)]

theorem or_one_even {s : Nat} (hs : s % 2 = 0) : s ||| 1 = s + 1 := by
  have h1 : 2 ^ 1 * (s / 2) = s := by omega
  have h2 := Nat.mul_add_lt_is_or (i := 1) (b := 1) (by decide) (s / 2)
  rw [h1] at h2
  exact h2.symm

theorem setSizeAlloc_alloc {h : Heap} {a s : Nat} (hs : s % 2 = 0) (hv : validAddr h a = true)
    (hv2 : validAddr h (a + s - 8) = true) :
    setSizeAlloc a s .ALLOCATED h = .ok ((), (h.write a (s + 1)).write (a + s - 8) (s + 1)) := by
  unfold setSizeAlloc
  simp only [run_bind, or_one_even hs, store_ok _ hv]
  rw [store_ok (s + 1) (by rw [validAddr_write]; exact hv2)]



/-! ### Geometry of a tiled heap -/

theorem Tiled.facts {h : Heap} {bl : List (Nat × Nat)} (t : Tiled h bl) {b : Nat × Nat}
    (hb : b ∈ bl) :
    32 ≤ b.2 ∧ b.2 % 16 = 0 ∧ b.2 < 2 ^ 32 ∧ h.lo ≤ b.1 ∧ h.heapStart ≤ b.1 ∧
      b.1 + b.2 ≤ h.brk ∧ b.1 % 8 = 0 ∧ 0 < b.1 ∧ b.1 + b.2 < 2 ^ 64 := by
  have h1 := t.inside b hb
  have h2 := t.tagged b hb
  have h3 := t.small
  have h4 := t.lo_le
  have h5 := t.hs_pos
  have h6 := t.brk_lt
  omega

theorem Tiled.addr_inj {h : Heap} {bl : List (Nat × Nat)} (t : Tiled h bl) {b c : Nat × Nat}
    (hb : b ∈ bl) (hc : c ∈ bl) (e : b.1 = c.1) : b = c := by
  have f1 := t.facts hb
  have f2 := t.facts hc
  rcases t.disj b hb c hc with h1 | h1 | h1
  · exact h1
  · omega
  · omega

theorem Tiled.valid {h : Heap} {bl : List (Nat × Nat)} (t : Tiled h bl) {b : Nat × Nat}
    (hb : b ∈ bl) {a : Nat} (h1 : b.1 ≤ a) (h2 : a + 8 ≤ b.1 + b.2) (h3 : a % 8 = 0) :
    validAddr h a = true := by
  have f := t.facts hb
  rw [validAddr_iff]
  omega

theorem Tiled.header {h : Heap} {bl : List (Nat × Nat)} (t : Tiled h bl) {b : Nat × Nat}
    (hb : b ∈ bl) : h.mem b.1 = b.2 ∨ h.mem b.1 = b.2 + 1 := (t.tagged b hb).2.2.1

theorem Tiled.getSize {h : Heap} {bl : List (Nat × Nat)} (t : Tiled h bl) {b : Nat × Nat}
    (hb : b ∈ bl) : getSize b.1 h = .ok (b.2, h) := by
  have f := t.facts hb
  exact getSize_ok (t.valid hb (Nat.le_refl _) (by omega) (by omega)) (by omega) (by omega)
    (t.header hb)

theorem Tiled.getNext {h : Heap} {bl : List (Nat × Nat)} (t : Tiled h bl) {b : Nat × Nat}
    (hb : b ∈ bl) : getNext b.1 h = .ok (h.mem (b.1 + b.2 - 16), h) := by
  have f := t.facts hb
  exact getNext_ok (t.valid hb (Nat.le_refl _) (by omega) (by omega)) (by omega) (by omega)
    (by omega) (t.header hb) (t.valid hb (by omega) (by omega) (by omega))

theorem Tiled.setNext {h : Heap} {bl : List (Nat × Nat)} (t : Tiled h bl) {b : Nat × Nat}
    (hb : b ∈ bl) (v : Nat) : setNext b.1 v h = .ok ((), h.write (b.1 + b.2 - 16) v) := by
  have f := t.facts hb
  exact setNext_ok v (t.valid hb (Nat.le_refl _) (by omega) (by omega)) (by omega) (by omega)
    (by omega) (t.header hb) (t.valid hb (by omega) (by omega) (by omega))

theorem Tiled.getPrev {h : Heap} {bl : List (Nat × Nat)} (t : Tiled h bl) {b : Nat × Nat}
    (hb : b ∈ bl) : getPrev b.1 h = .ok (h.mem (b.1 + 8), h) := by
  have f := t.facts hb
  exact load_ok (t.valid hb (by omega) (by omega) (by omega))

theorem Tiled.setPrev {h : Heap} {bl : List (Nat × Nat)} (t : Tiled h bl) {b : Nat × Nat}
    (hb : b ∈ bl) (v : Nat) : setPrev b.1 v h = .ok ((), h.write (b.1 + 8) v) := by
  have f := t.facts hb
  exact store_ok v (t.valid hb (by omega) (by omega) (by omega))

/-- A word strictly between the header and the footer of a block is neither
the header nor the footer of any block. -/
theorem Tiled.inner_ne {h : Heap} {bl : List (Nat × Nat)} (t : Tiled h bl) {b c : Nat × Nat}
    (hb : b ∈ bl) (hc : c ∈ bl) {w : Nat} (h1 : b.1 < w) (h2 : w + 8 < b.1 + b.2) :
    w ≠ c.1 ∧ w ≠ c.1 + c.2 - 8 := by
  have f1 := t.facts hb
  have f2 := t.facts hc
  rcases t.disj b hb c hc with h3 | h3 | h3
  · subst h3; omega
  · omega
  · omega

/-! ### States that agree on what well-formedness reads -/

theorem Tiled.same_tags {h h' : Heap} {bl : List (Nat × Nat)} (t : Tiled h bl)
    (e1 : h'.lo = h.lo) (e2 : h'.brk = h.brk) (e3 : h'.heapStart = h.heapStart)
    (hm : ∀ b ∈ bl, h'.mem b.1 = h.mem b.1 ∧ h'.mem (b.1 + b.2 - 8) = h.mem (b.1 + b.2 - 8)) :
    Tiled h' bl where
  lo_le := by rw [e1, e3]; exact t.lo_le
  hs_pos := by rw [e3]; exact t.hs_pos
  hs_le := by rw [e2, e3]; exact t.hs_le
  small := by rw [e2, e3]; exact t.small
  brk_lt := by rw [e2]; exact t.brk_lt
  first := by rw [e2, e3]; exact t.first
  inside := by rw [e2, e3]; exact t.inside
  disj := t.disj
  before := by rw [e3]; exact t.before
  after := by rw [e2]; exact t.after
  tagged := by
    intro b hb
    rw [(hm b hb).1, (hm b hb).2]
    exact t.tagged b hb

theorem Chain.same_links {h h' : Heap} : ∀ {nodes : List (Nat × Nat)} {prev head : Nat},
    (∀ x ∈ nodes, h'.mem (x.1 + 8) = h.mem (x.1 + 8) ∧
      h'.mem (x.1 + x.2 - 16) = h.mem (x.1 + x.2 - 16)) →
    Chain h prev head nodes → Chain h' prev head nodes := by
  intro nodes
  induction nodes with
  | nil => intro prev head _ c; exact c
  | cons x rest ih =>
    intro prev head hm c
    obtain ⟨c1, c2, c3, c4⟩ := c
    have hx := hm x (List.mem_cons_self _ _)
    refine ⟨c1, c2, by rw [hx.1]; exact c3, ?_⟩
    rw [hx.2]
    exact ih (fun y hy => hm y (List.mem_cons_of_mem _ hy)) c4

theorem Listed.same_words {h h' : Heap} {bl : List (Nat × Nat)} {bk : Nat → List (Nat × Nat)}
    {L : List Nat} (l : Listed h bl bk L) (e1 : h'.array = h.array)
    (hm : ∀ b ∈ bl, h'.mem b.1 = h.mem b.1)
    (hs : ∀ i, i < arrayLength → ∀ x ∈ bk i, h'.mem (x.1 + 8) = h.mem (x.1 + 8) ∧
      h'.mem (x.1 + x.2 - 16) = h.mem (x.1 + x.2 - 16)) :
    Listed h' bl bk L where
  chains := by
    intro i hi
    rw [e1]
    exact Chain.same_links (hs i hi) (l.chains i hi)
  members := by
    intro i hi x hx
    have m := l.members i hi x hx
    exact ⟨m.1, by rw [hm x m.1]; exact m.2.1, m.2.2⟩
  nodup := l.nodup
  registered := by
    intro b hb hf
    rw [hm b hb] at hf
    exact l.registered b hb hf
  loose_out := l.loose_out

/-- A write strictly inside a block that is a member of no list leaves the
heap well formed. -/
theorem WF.write_inner {h : Heap} {bl : List (Nat × Nat)} {bk : Nat → List (Nat × Nat)}
    {L : List Nat} (wf : WF h bl bk L) {b : Nat × Nat} (hb : b ∈ bl)
    (hout : ∀ i, i < arrayLength → b ∉ bk i) {w : Nat} (v : Nat)
    (h1 : b.1 < w) (h2 : w + 8 < b.1 + b.2) : WF (h.write w v) bl bk L := by
  obtain ⟨t, l⟩ := wf
  have hne : ∀ c ∈ bl, w ≠ c.1 ∧ w ≠ c.1 + c.2 - 8 := fun c hc => t.inner_ne hb hc h1 h2
  refine ⟨t.same_tags rfl rfl rfl ?_, l.same_words rfl ?_ ?_⟩
  · intro c hc
    have := hne c hc
    exact ⟨write_mem_ne (Ne.symm this.1), write_mem_ne (Ne.symm this.2)⟩
  · intro c hc
    exact write_mem_ne (Ne.symm (hne c hc).1)
  · intro i hi x hx
    have hxb := (l.members i hi x hx).1
    have f1 := t.facts hb
    have f2 := t.facts hxb
    have hxne : b ≠ x := fun e => hout i hi (e ▸ hx)
    rcases t.disj b hb x hxb with h3 | h3 | h3
    · exact absurd h3 hxne
    · exact ⟨write_mem_ne (by omega), write_mem_ne (by omega)⟩
    · exact ⟨write_mem_ne (by omega), write_mem_ne (by omega)⟩



/-! ### Chains -/

theorem Chain.ne_zero {h : Heap} : ∀ {nodes : List (Nat × Nat)} {prev head : Nat},
    Chain h prev head nodes → ∀ y ∈ nodes, y.1 ≠ 0 := by
  intro nodes
  induction nodes with
  | nil => intro _ _ _ y hy; cases hy
  | cons x rest ih =>
    intro prev head c y hy
    obtain ⟨_, c2, _, c4⟩ := c
    rcases List.mem_cons.mp hy with e | e
    · rw [e]; exact c2
    · exact ih c4 y e

/-- The part of a chain after the node `P`. -/
theorem Chain.after_node {h : Heap} {P : Nat × Nat} {t : List (Nat × Nat)} :
    ∀ {xs : List (Nat × Nat)} {prev head : Nat}, Chain h prev head (xs ++ P :: t) →
      Chain h P.1 (h.mem (P.1 + P.2 - 16)) t := by
  intro xs
  induction xs with
  | nil => intro prev head c; exact c.2.2.2
  | cons x rest ih => intro prev head c; exact ih c.2.2.2

/-- The back link of the node `P` of a chain, when `P` is not the first. -/
theorem Chain.back_of {h : Heap} {P Q : Nat × Nat} {t : List (Nat × Nat)} :
    ∀ {xs : List (Nat × Nat)} {prev head : Nat}, Chain h prev head (xs ++ Q :: P :: t) →
      h.mem (P.1 + 8) = Q.1 ∧ h.mem (Q.1 + Q.2 - 16) = P.1 := by
  intro xs prev head c
  have c' := Chain.after_node c
  exact ⟨c'.2.2.1, c'.1⟩

/-- A chain whose part after the node `P` is replaced. -/
theorem Chain.replace_after {h h' : Heap} {P : Nat × Nat} {t t' : List (Nat × Nat)} :
    ∀ {xs : List (Nat × Nat)} {prev head : Nat}, Chain h prev head (xs ++ P :: t) →
      (∀ y ∈ xs, h'.mem (y.1 + 8) = h.mem (y.1 + 8) ∧
        h'.mem (y.1 + y.2 - 16) = h.mem (y.1 + y.2 - 16)) →
      h'.mem (P.1 + 8) = h.mem (P.1 + 8) →
      Chain h' P.1 (h'.mem (P.1 + P.2 - 16)) t' →
      Chain h' prev head (xs ++ P :: t') := by
  intro xs
  induction xs with
  | nil =>
    intro prev head c _ hP ct
    exact ⟨c.1, c.2.1, by rw [hP]; exact c.2.2.1, ct⟩
  | cons x rest ih =>
    intro prev head c hm hP ct
    have hx := hm x (List.mem_cons_self _ _)
    refine ⟨c.1, c.2.1, by rw [hx.1]; exact c.2.2.1, ?_⟩
    rw [hx.2]
    exact ih c.2.2.2 (fun y hy => hm y (List.mem_cons_of_mem _ hy)) hP ct

/-- The head of a list of nodes, `NULL` for the empty list. -/
theorem Chain.relink {h h' : Heap} {ys : List (Nat × Nat)} {prev prev' head : Nat}
    (c : Chain h prev head ys)
    (hback : ∀ q rest, ys = q :: rest → h'.mem (q.1 + 8) = prev' ∧
      h'.mem (q.1 + q.2 - 16) = h.mem (q.1 + q.2 - 16) ∧
      ∀ y ∈ rest, h'.mem (y.1 + 8) = h.mem (y.1 + 8) ∧
        h'.mem (y.1 + y.2 - 16) = h.mem (y.1 + y.2 - 16)) :
    Chain h' prev' head ys := by
  cases ys with
  | nil => exact c
  | cons q rest =>
    obtain ⟨h1, h2, h3⟩ := hback q rest rfl
    refine ⟨c.1, c.2.1, h1, ?_⟩
    rw [h2]
    exact Chain.same_links h3 c.2.2.2

/-! ### Slots of distinct blocks -/

theorem Tiled.slots {h : Heap} {bl : List (Nat × Nat)} (t : Tiled h bl) {b c : Nat × Nat}
    (hb : b ∈ bl) (hc : c ∈ bl) :
    b.1 + 8 ≠ c.1 + c.2 - 16 ∧ (b ≠ c → b.1 + 8 ≠ c.1 + 8 ∧
      b.1 + b.2 - 16 ≠ c.1 + c.2 - 16) := by
  have f1 := t.facts hb
  have f2 := t.facts hc
  rcases t.disj b hb c hc with h3 | h3 | h3
  · subst h3
    exact ⟨by omega, fun e => absurd rfl e⟩
  · exact ⟨by omega, fun _ => ⟨by omega, by omega⟩⟩
  · exact ⟨by omega, fun _ => ⟨by omega, by omega⟩⟩



/-! ### Removal of a node from its list -/

theorem Listed.same_node {h : Heap} {bl : List (Nat × Nat)} {bk : Nat → List (Nat × Nat)}
    {L : List Nat} (t : Tiled h bl) (l : Listed h bl bk L) {i j : Nat} (hi : i < arrayLength)
    (hj : j < arrayLength) {x y : Nat × Nat} (hx : x ∈ bk i) (hy : y ∈ bk j)
    (e : y.1 = x.1) : y = x ∧ j = i := by
  have mx := l.members i hi x hx
  have my := l.members j hj y hy
  have := t.addr_inj my.1 mx.1 e
  subst this
  exact ⟨rfl, by rw [← my.2.2, ← mx.2.2]⟩

/-- The state after `removeFromList` in terms of what it reads: the list
heads, the tags of all blocks, and the links of the remaining nodes. -/
theorem WF.unlink_state {h h' : Heap} {bl : List (Nat × Nat)} {bk : Nat → List (Nat × Nat)}
    {L : List Nat} (wf : WF h bl bk L) {i : Nat} (hi : i < arrayLength) {x : Nat × Nat}
    {xs ys : List (Nat × Nat)} (e : bk i = xs ++ x :: ys) {p n : Nat}
    (hp : p = h.mem (x.1 + 8)) (hn : n = h.mem (x.1 + x.2 - 16))
    (g1 : h'.lo = h.lo) (g2 : h'.brk = h.brk) (g3 : h'.heapStart = h.heapStart)
    (ha : ∀ j, h'.array j = if j = i ∧ p = 0 then n else h.array j)
    (ht : ∀ c ∈ bl, h'.mem c.1 = h.mem c.1 ∧ h'.mem (c.1 + c.2 - 8) = h.mem (c.1 + c.2 - 8))
    (hs : ∀ j, j < arrayLength → ∀ y ∈ bk j, y ≠ x →
      h'.mem (y.1 + 8) = (if y.1 = n then p else h.mem (y.1 + 8)) ∧
      h'.mem (y.1 + y.2 - 16) = (if y.1 = p then n else h.mem (y.1 + y.2 - 16))) :
    WF h' bl (Function.update bk i (xs ++ ys)) (x.1 :: L) := by
  obtain ⟨t, l⟩ := wf
  have hx : x ∈ bk i := by rw [e]; simp
  have nd := l.nodup i hi
  rw [e] at nd
  have c := l.chains i hi
  rw [e] at c
  have hnz : ∀ y ∈ xs ++ x :: ys, y.1 ≠ 0 := Chain.ne_zero c
  -- nodes of the list other than `x`
  have hsub : ∀ y ∈ xs ++ ys, y ∈ bk i ∧ y ≠ x := by
    intro y hy
    rw [e]
    have nd' := List.nodup_append.mp nd
    have ndx := List.nodup_cons.mp nd'.2.1
    rcases List.mem_append.mp hy with h1 | h1
    · refine ⟨by simp [h1], fun e2 => ?_⟩
      subst e2
      exact nd'.2.2 h1 (List.mem_cons_self _ _)
    · refine ⟨by simp [h1], fun e2 => ?_⟩
      subst e2
      exact ndx.1 h1
  have haddr : ∀ y ∈ xs ++ ys, ∀ z ∈ xs ++ x :: ys, y.1 = z.1 → y = z := by
    intro y hy z hz e2
    have hz' : z ∈ bk i := by rw [e]; exact hz
    exact (Listed.same_node t l hi hi hz' (hsub y hy).1 e2).1
  have hchain : Chain h' 0 (h'.array i) (xs ++ ys) := by
    have cx := Chain.after_node c
    rw [← hn] at cx
    rcases List.eq_nil_or_concat xs with hxs | ⟨xs', P, hxs⟩
    · -- `x` is the first node
      subst hxs
      have hp0 : p = 0 := by rw [hp]; exact c.2.2.1
      rw [ha i, if_pos ⟨rfl, hp0⟩]
      rw [List.nil_append] at *
      apply Chain.relink cx
      intro q rest eq
      subst eq
      have hq := hs i hi q (hsub q (List.mem_cons_self _ _)).1 (hsub q (List.mem_cons_self _ _)).2
      have hqn : q.1 = n := cx.1.symm
      have hq0 : q.1 ≠ p := by rw [hp0]; exact cx.2.1
      rw [if_pos hqn, if_neg hq0] at hq
      refine ⟨by rw [hq.1, hp0], hq.2, ?_⟩
      intro y hy
      have hyy := hsub y (List.mem_cons_of_mem _ hy)
      have hy2 := hs i hi y hyy.1 hyy.2
      have ndq := (List.nodup_cons.mp (List.nodup_cons.mp nd).2).1
      have hyn : y.1 ≠ n := by
        intro e2
        have := haddr y (List.mem_cons_of_mem _ hy) q (by simp) (e2.trans hqn.symm)
        subst this
        exact ndq hy
      have hy0 : y.1 ≠ p := by rw [hp0]; exact hnz y (by simp [hy])
      rw [if_neg hyn, if_neg hy0] at hy2
      exact hy2
    · -- `x` comes after the node `P`
      rw [List.concat_eq_append] at hxs
      subst hxs
      have c' : Chain h 0 (h.array i) (xs' ++ P :: x :: ys) := by
        simpa [List.append_assoc] using c
      have nd2 : (xs' ++ P :: x :: ys).Nodup := by simpa [List.append_assoc] using nd
      have hlink := Chain.back_of c'
      have hpP : p = P.1 := by rw [hp]; exact hlink.1
      have hPne : P.1 ≠ 0 := hnz P (by simp)
      have hp0 : ¬ (i = i ∧ p = 0) := by rw [hpP]; exact fun e2 => hPne e2.2
      rw [ha i, if_neg hp0]
      have hgoal : Chain h' 0 (h.array i) (xs' ++ P :: ys) := by
        have hPin : P ∈ (xs' ++ [P]) ++ ys := by simp
        have hPs := hs i hi P (hsub P hPin).1 (hsub P hPin).2
        have hPn : P.1 ≠ n := by
          intro e2
          cases ys with
          | nil => exact hPne (e2.trans cx)
          | cons q rest =>
            have hqn : q.1 = n := cx.1.symm
            have := haddr P hPin q (by simp) (e2.trans hqn.symm)
            subst this
            have := List.nodup_append.mp nd2
            have := (List.nodup_cons.mp this.2.1).1
            simp at this
        rw [if_neg hPn, if_pos hpP.symm] at hPs
        apply Chain.replace_after c'
        · intro y hy
          have hyin : y ∈ (xs' ++ [P]) ++ ys := by simp [hy]
          have hy2 := hs i hi y (hsub y hyin).1 (hsub y hyin).2
          have hyP : y.1 ≠ p := by
            intro e2
            have := haddr y hyin P (by simp) (e2.trans hpP)
            subst this
            exact (List.nodup_append.mp nd2).2.2 hy (List.mem_cons_self _ _)
          have hyn : y.1 ≠ n := by
            intro e2
            cases ys with
            | nil => exact hnz y (by simp [hy]) (e2.trans cx)
            | cons q rest =>
              have hqn : q.1 = n := cx.1.symm
              have := haddr y hyin q (by simp) (e2.trans hqn.symm)
              subst this
              exact (List.nodup_append.mp nd2).2.2 hy (by simp)
          rw [if_neg hyn, if_neg hyP] at hy2
          exact hy2
        · exact hPs.1
        · rw [hPs.2]
          apply Chain.relink cx
          intro q rest eq
          subst eq
          have hqin : q ∈ (xs' ++ [P]) ++ q :: rest := by simp
          have hq := hs i hi q (hsub q hqin).1 (hsub q hqin).2
          have hqn : q.1 = n := cx.1.symm
          have hqP : q.1 ≠ p := by
            intro e2
            have := haddr q hqin P (by simp) (e2.trans hpP)
            subst this
            have := (List.nodup_cons.mp (List.nodup_append.mp nd2).2.1).1
            simp at this
          rw [if_pos hqn, if_neg hqP] at hq
          refine ⟨by rw [hq.1, hpP], hq.2, ?_⟩
          intro y hy
          have hyin : y ∈ (xs' ++ [P]) ++ q :: rest := by simp [hy]
          have hy2 := hs i hi y (hsub y hyin).1 (hsub y hyin).2
          have ndq : q ∉ rest := by
            have h1 := (List.nodup_append.mp nd2).2.1
            have h2 := (List.nodup_cons.mp h1).2
            have h3 := (List.nodup_cons.mp h2).2
            exact (List.nodup_cons.mp h3).1
          have hyn : y.1 ≠ n := by
            intro e2
            have := haddr y hyin q (by simp) (e2.trans hqn.symm)
            subst this
            exact ndq hy
          have hyP : y.1 ≠ p := by
            intro e2
            have := haddr y hyin P (by simp) (e2.trans hpP)
            subst this
            have h1 := (List.nodup_append.mp nd2).2.1
            have h2 := (List.nodup_cons.mp h1).1
            simp [hy] at h2
          rw [if_neg hyn, if_neg hyP] at hy2
          exact hy2
      simpa [List.append_assoc] using hgoal
  refine ⟨t.same_tags g1 g2 g3 ht, ?_⟩
  constructor
  · -- chains
    intro j hj
    by_cases hji : j = i
    · subst hji
      rw [Function.update_same]
      exact hchain
    · rw [Function.update_noteq hji, ha j, if_neg (fun e2 => hji e2.1)]
      apply Chain.same_links _ (l.chains j hj)
      intro y hy
      have hyx : y ≠ x := fun e2 => hji (Listed.same_node t l hi hj hx hy (by rw [e2])).2
      have hy2 := hs j hj y hy hyx
      have hyn : y.1 ≠ n := by
        intro e2
        have cx := Chain.after_node c
        rw [← hn] at cx
        cases ys with
        | nil => exact (Chain.ne_zero (l.chains j hj) y hy) (e2.trans cx)
        | cons q rest =>
          have hq : q ∈ bk i := by rw [e]; simp
          exact hji (Listed.same_node t l hi hj hq hy (e2.trans cx.1)).2
      have hyp : y.1 ≠ p := by
        intro e2
        rcases List.eq_nil_or_concat xs with hxs | ⟨xs', P, hxs⟩
        · subst hxs
          exact (Chain.ne_zero (l.chains j hj) y hy) (e2.trans (hp.trans c.2.2.1))
        · rw [List.concat_eq_append] at hxs
          subst hxs
          have c' : Chain h 0 (h.array i) (xs' ++ P :: x :: ys) := by
            simpa [List.append_assoc] using c
          have hP : P ∈ bk i := by rw [e]; simp
          have := (Chain.back_of c').1
          exact hji (Listed.same_node t l hi hj hP hy (e2.trans (hp.trans this))).2
      rw [if_neg hyn, if_neg hyp] at hy2
      exact hy2
  · -- members
    intro j hj y hy
    have hyb : y ∈ bk j := by
      by_cases hji : j = i
      · subst hji
        rw [Function.update_same] at hy
        exact (hsub y hy).1
      · rwa [Function.update_noteq hji] at hy
    have m := l.members j hj y hyb
    exact ⟨m.1, by rw [(ht y m.1).1]; exact m.2.1, m.2.2⟩
  · -- nodup
    intro j hj
    by_cases hji : j = i
    · subst hji
      rw [Function.update_same]
      have nd' := List.nodup_append.mp nd
      exact List.nodup_append.mpr ⟨nd'.1, (List.nodup_cons.mp nd'.2.1).2,
        fun a ha hb => nd'.2.2 ha (List.mem_cons_of_mem _ hb)⟩
    · rw [Function.update_noteq hji]
      exact l.nodup j hj
  · -- registered
    intro b hb hf
    rw [(ht b hb).1] at hf
    by_cases hbx : b = x
    · left; rw [hbx]; exact List.mem_cons_self _ _
    · rcases l.registered b hb hf with h1 | h1
      · left; exact List.mem_cons_of_mem _ h1
      · right
        by_cases hji : getIndexOf b.2 = i
        · rw [hji, Function.update_same]
          rw [hji, e] at h1
          rcases List.mem_append.mp h1 with h2 | h2
          · exact List.mem_append_left _ h2
          · rcases List.mem_cons.mp h2 with h3 | h3
            · exact absurd h3 hbx
            · exact List.mem_append_right _ h3
        · rwa [Function.update_noteq hji]
  · -- loose_out
    intro j hj y hy hL
    have hyb : y ∈ bk j ∧ y ≠ x := by
      by_cases hji : j = i
      · subst hji
        rw [Function.update_same] at hy
        exact hsub y hy
      · rw [Function.update_noteq hji] at hy
        exact ⟨hy, fun e2 => hji (Listed.same_node t l hi hj hx hy (by rw [e2])).2⟩
    rcases List.mem_cons.mp hL with h1 | h1
    · exact hyb.2 (Listed.same_node t l hi hj hx hyb.1 h1).1
    · exact l.loose_out j hj y hyb.1 h1



theorem getIndex_ok {s : Nat} (h : Heap) (h32 : 32 ≤ s) : getIndex s h = .ok (getIndexOf s, h) := by
  unfold getIndex
  rw [if_neg (by omega)]
  rfl

theorem setHead_ok (h : Heap) (i p : Nat) : setHead i p h = .ok ((), h.setArr i p) := rfl

/-- The function `removeFromList` on a member of a list of a well-formed heap: the node
leaves its list and becomes loose, no tag changes, and only link words of
list members are written. -/
theorem WF.unlink {h : Heap} {bl : List (Nat × Nat)} {bk : Nat → List (Nat × Nat)}
    {L : List Nat} (wf : WF h bl bk L) {i : Nat} (hi : i < arrayLength) {x : Nat × Nat}
    (hx : x ∈ bk i) :
    ∃ h' bk', removeFromList x.1 h = .ok ((), h') ∧ WF h' bl bk' (x.1 :: L) ∧
      (∀ j, j < arrayLength → ∀ y, y ∈ bk' j ↔ (y ∈ bk j ∧ y ≠ x)) ∧
      h'.lo = h.lo ∧ h'.brk = h.brk ∧ h'.heapStart = h.heapStart ∧ h'.maxAddr = h.maxAddr ∧
      (∀ w, (∀ j, j < arrayLength → ∀ y ∈ bk j, w ≠ y.1 + 8 ∧ w ≠ y.1 + y.2 - 16) →
        h'.mem w = h.mem w) := by
  have wf0 := wf
  obtain ⟨t, l⟩ := wf
  obtain ⟨xs, ys, e⟩ := List.append_of_mem hx
  have mx := l.members i hi x hx
  have fx := t.facts mx.1
  have nd := l.nodup i hi
  rw [e] at nd
  have c := l.chains i hi
  rw [e] at c
  have cx := Chain.after_node c
  -- the neighbours in the list
  have hP : h.mem (x.1 + 8) = 0 ∨ ∃ P ∈ bk i, P ≠ x ∧ h.mem (x.1 + 8) = P.1 := by
    rcases List.eq_nil_or_concat xs with hxs | ⟨xs', P, hxs⟩
    · left; subst hxs; exact c.2.2.1
    · right
      rw [List.concat_eq_append] at hxs
      subst hxs
      have c' : Chain h 0 (h.array i) (xs' ++ P :: x :: ys) := by
        simpa [List.append_assoc] using c
      refine ⟨P, by rw [e]; simp, ?_, (Chain.back_of c').1⟩
      intro e2
      subst e2
      have := (List.nodup_append.mp nd).2.2 (by simp : P ∈ xs' ++ [P]) (List.mem_cons_self _ _)
      exact this
  have hQ : h.mem (x.1 + x.2 - 16) = 0 ∨
      ∃ Q ∈ bk i, Q ≠ x ∧ h.mem (x.1 + x.2 - 16) = Q.1 := by
    cases ys with
    | nil => left; exact cx
    | cons q rest =>
      right
      refine ⟨q, by rw [e]; simp, ?_, cx.1⟩
      intro e2
      subst e2
      have := (List.nodup_cons.mp (List.nodup_append.mp nd).2.1).1
      simp at this
  have hnz : ∀ j, j < arrayLength → ∀ y ∈ bk j, y.1 ≠ 0 := fun j hj =>
    Chain.ne_zero (l.chains j hj)
  -- step 1
  have step1 : ∃ h1, (if h.mem (x.1 + 8) = 0 then setHead i (h.mem (x.1 + x.2 - 16))
        else setNext (h.mem (x.1 + 8)) (h.mem (x.1 + x.2 - 16))) h = .ok ((), h1) ∧
      h1.lo = h.lo ∧ h1.brk = h.brk ∧ h1.heapStart = h.heapStart ∧ h1.maxAddr = h.maxAddr ∧
      (∀ j, h1.array j = if j = i ∧ h.mem (x.1 + 8) = 0
        then h.mem (x.1 + x.2 - 16) else h.array j) ∧
      (∀ w, h1.mem w = if ∃ P ∈ bk i, P ≠ x ∧ h.mem (x.1 + 8) = P.1 ∧ w = P.1 + P.2 - 16
        then u64 (h.mem (x.1 + x.2 - 16)) else h.mem w) := by
    rcases hP with hp0 | ⟨P, hPi, hPx, hPe⟩
    · refine ⟨h.setArr i (h.mem (x.1 + x.2 - 16)), by rw [if_pos hp0, setHead_ok],
        rfl, rfl, rfl, rfl, ?_, ?_⟩
      · intro j
        show (if j = i then _ else _) = _
        by_cases hji : j = i
        · rw [if_pos hji, if_pos ⟨hji, hp0⟩]
        · rw [if_neg hji, if_neg (fun e2 => hji e2.1)]
      · intro w
        rw [if_neg]
        · rfl
        · rintro ⟨P, hPi, _, hPe, _⟩
          exact hnz i hi P hPi (hPe.symm.trans hp0)
    · have hPb := (l.members i hi P hPi).1
      have hne : h.mem (x.1 + 8) ≠ 0 := by rw [hPe]; exact hnz i hi P hPi
      refine ⟨h.write (P.1 + P.2 - 16) (h.mem (x.1 + x.2 - 16)),
        by rw [if_neg hne, hPe, t.setNext hPb], rfl, rfl, rfl, rfl, ?_, ?_⟩
      · intro j
        rw [if_neg (fun e2 => hne e2.2)]
        rfl
      · intro w
        rw [write_mem]
        by_cases hw : w = P.1 + P.2 - 16
        · rw [if_pos hw, if_pos ⟨P, hPi, hPx, hPe, hw⟩]
        · rw [if_neg hw, if_neg]
          rintro ⟨P', hPi', _, hPe', hw'⟩
          have := (Listed.same_node t l hi hi hPi hPi' (hPe'.symm.trans hPe)).1
          subst this
          exact hw hw'
  obtain ⟨h1, r1, g1a, g1b, g1c, g1d, a1, m1⟩ := step1
  -- step 2
  have step2 : ∃ h2, (if h.mem (x.1 + x.2 - 16) ≠ 0
        then setPrev (h.mem (x.1 + x.2 - 16)) (h.mem (x.1 + 8)) else pure ()) h1 = .ok ((), h2) ∧
      h2.lo = h.lo ∧ h2.brk = h.brk ∧ h2.heapStart = h.heapStart ∧ h2.maxAddr = h.maxAddr ∧
      h2.array = h1.array ∧
      (∀ w, h2.mem w = if ∃ Q ∈ bk i, Q ≠ x ∧ h.mem (x.1 + x.2 - 16) = Q.1 ∧ w = Q.1 + 8
        then u64 (h.mem (x.1 + 8)) else h1.mem w) := by
    rcases hQ with hn0 | ⟨Q, hQi, hQx, hQe⟩
    · refine ⟨h1, by rw [if_neg (by rw [hn0]; exact fun e2 => e2 rfl)]; rfl,
        g1a, g1b, g1c, g1d, rfl, ?_⟩
      intro w
      rw [if_neg]
      rintro ⟨Q, hQi, _, hQe, _⟩
      exact hnz i hi Q hQi (hQe.symm.trans hn0)
    · have hQb := (l.members i hi Q hQi).1
      have fQ := t.facts hQb
      have hne : h.mem (x.1 + x.2 - 16) ≠ 0 := by rw [hQe]; exact hnz i hi Q hQi
      have hv : validAddr h1 (Q.1 + 8) = true := by
        rw [validAddr_iff, g1a, g1b]
        omega
      refine ⟨h1.write (Q.1 + 8) (h.mem (x.1 + 8)), ?_, g1a, g1b, g1c, g1d, rfl, ?_⟩
      · rw [if_pos hne, hQe]
        exact store_ok _ hv
      · intro w
        rw [write_mem]
        by_cases hw : w = Q.1 + 8
        · rw [if_pos hw, if_pos ⟨Q, hQi, hQx, hQe, hw⟩]
        · rw [if_neg hw, if_neg]
          rintro ⟨Q', hQi', _, hQe', hw'⟩
          have := (Listed.same_node t l hi hi hQi hQi' (hQe'.symm.trans hQe)).1
          subst this
          exact hw hw'
  obtain ⟨h2, r2, g2a, g2b, g2c, g2d, a2, m2⟩ := step2
  -- words that the first two steps leave alone
  have keep : ∀ w, (∀ y ∈ bk i, y ≠ x → w ≠ y.1 + 8 ∧ w ≠ y.1 + y.2 - 16) →
      h2.mem w = h.mem w := by
    intro w hw
    rw [m2 w, if_neg, m1 w, if_neg]
    · rintro ⟨P, hPi, hPx, _, e2⟩
      exact (hw P hPi hPx).2 e2
    · rintro ⟨Q, hQi, hQx, _, e2⟩
      exact (hw Q hQi hQx).1 e2
  have tags2 : ∀ b ∈ bl, h2.mem b.1 = h.mem b.1 ∧
      h2.mem (b.1 + b.2 - 8) = h.mem (b.1 + b.2 - 8) := by
    intro b hb
    have fb := t.facts hb
    constructor
    · apply keep
      intro y hy _
      have fy := t.facts (l.members i hi y hy).1
      have := t.inner_ne (l.members i hi y hy).1 hb (w := y.1 + 8) (by omega) (by omega)
      have := t.inner_ne (l.members i hi y hy).1 hb (w := y.1 + y.2 - 16) (by omega) (by omega)
      omega
    · apply keep
      intro y hy _
      have fy := t.facts (l.members i hi y hy).1
      have := t.inner_ne (l.members i hi y hy).1 hb (w := y.1 + 8) (by omega) (by omega)
      have := t.inner_ne (l.members i hi y hy).1 hb (w := y.1 + y.2 - 16) (by omega) (by omega)
      omega
  have t2 : Tiled h2 bl := t.same_tags g2a g2b g2c tags2
  -- steps 3 and 4
  have r3 : setNext x.1 0 h2 = .ok ((), h2.write (x.1 + x.2 - 16) 0) := t2.setNext mx.1 0
  have hv4 : validAddr (h2.write (x.1 + x.2 - 16) 0) (x.1 + 8) = true := by
    rw [validAddr_write, validAddr_iff, g2a, g2b]
    omega
  have r4 : setPrev x.1 0 (h2.write (x.1 + x.2 - 16) 0)
      = .ok ((), (h2.write (x.1 + x.2 - 16) 0).write (x.1 + 8) 0) := store_ok 0 hv4
  have hrun : removeFromList x.1 h
      = .ok ((), (h2.write (x.1 + x.2 - 16) 0).write (x.1 + 8) 0) := by
    unfold removeFromList
    rw [run_bind, t.getSize mx.1]
    simp only []
    rw [run_bind, getIndex_ok h (by omega)]
    simp only []
    rw [run_bind, t.getNext mx.1]
    simp only []
    rw [run_bind, t.getPrev mx.1]
    simp only []
    rw [mx.2.2]
    by_cases hp0 : h.mem (x.1 + 8) = 0
    · rw [if_pos hp0] at r1 ⊢
      rw [run_bind, r1]
      simp only []
      by_cases hn0 : h.mem (x.1 + x.2 - 16) ≠ 0
      · rw [if_pos hn0] at r2 ⊢
        rw [run_bind, r2]
        simp only []
        rw [run_bind, r3]
        exact r4
      · rw [if_neg hn0] at r2 ⊢
        rw [run_bind, r2]
        simp only []
        rw [run_bind, r3]
        exact r4
    · rw [if_neg hp0] at r1 ⊢
      rw [run_bind, r1]
      simp only []
      by_cases hn0 : h.mem (x.1 + x.2 - 16) ≠ 0
      · rw [if_pos hn0] at r2 ⊢
        rw [run_bind, r2]
        simp only []
        rw [run_bind, r3]
        exact r4
      · rw [if_neg hn0] at r2 ⊢
        rw [run_bind, r2]
        simp only []
        rw [run_bind, r3]
        exact r4
  -- the final state
  have mfin : ∀ w, w ≠ x.1 + 8 → w ≠ x.1 + x.2 - 16 →
      ((h2.write (x.1 + x.2 - 16) 0).write (x.1 + 8) 0).mem w = h2.mem w := by
    intro w h1' h2'
    rw [write_mem_ne h1', write_mem_ne h2']
  have lt64 : ∀ y ∈ bk i, u64 y.1 = y.1 := by
    intro y hy
    have fy := t.facts (l.members i hi y hy).1
    exact Nat.mod_eq_of_lt (by omega)
  refine ⟨_, Function.update bk i (xs ++ ys), hrun, ?_, ?_, g2a, g2b, g2c, g2d, ?_⟩
  · have ga : ((h2.write (x.1 + x.2 - 16) 0).write (x.1 + 8) 0).lo = h.lo := g2a
    have gb : ((h2.write (x.1 + x.2 - 16) 0).write (x.1 + 8) 0).brk = h.brk := g2b
    have gc : ((h2.write (x.1 + x.2 - 16) 0).write (x.1 + 8) 0).heapStart = h.heapStart := g2c
    apply wf0.unlink_state hi e rfl rfl ga gb gc
    · intro j
      show h2.array j = _
      rw [a2, a1 j]
    · intro b hb
      have fb := t.facts hb
      have i1 := t.inner_ne mx.1 hb (w := x.1 + 8) (by omega) (by omega)
      have i2 := t.inner_ne mx.1 hb (w := x.1 + x.2 - 16) (by omega) (by omega)
      rw [mfin _ (by omega) (by omega), mfin _ (by omega) (by omega)]
      exact tags2 b hb
    · intro j hj y hy hyx
      have hyb := (l.members j hj y hy).1
      have fy := t.facts hyb
      have s1 := t.slots hyb mx.1
      have s2 := t.slots mx.1 hyb
      have s3 := s1.2 hyx
      rw [mfin _ (by omega) (by omega), mfin _ (by omega) (by omega)]
      constructor
      · -- back link of `y`
        rw [m2, m1]
        by_cases hyn : y.1 = h.mem (x.1 + x.2 - 16)
        · have hji : j = i := by
            rcases hQ with hn0 | ⟨Q, hQi, _, hQe⟩
            · exact absurd (hyn.trans hn0) (hnz j hj y hy)
            · exact (Listed.same_node t l hi hj hQi hy (hyn.trans hQe)).2
          subst hji
          rw [if_pos ⟨y, hy, hyx, hyn.symm, rfl⟩, if_pos hyn]
          rcases hP with hp0 | ⟨P, hPi, _, hPe⟩
          · rw [hp0]; rfl
          · rw [hPe]; exact lt64 P hPi
        · rw [if_neg, if_neg, if_neg hyn]
          · rintro ⟨P, hPi, _, _, e2⟩
            exact (t.slots hyb (l.members i hi P hPi).1).1 e2
          · rintro ⟨Q, hQi, _, hQe, e2⟩
            have : y.1 = Q.1 := by omega
            exact hyn (this.trans hQe.symm)
      · -- forward link of `y`
        rw [m2, m1]
        by_cases hyp : y.1 = h.mem (x.1 + 8)
        · have hji : j = i := by
            rcases hP with hp0 | ⟨P, hPi, _, hPe⟩
            · exact absurd (hyp.trans hp0) (hnz j hj y hy)
            · exact (Listed.same_node t l hi hj hPi hy (hyp.trans hPe)).2
          subst hji
          rw [if_neg, if_pos ⟨y, hy, hyx, hyp.symm, rfl⟩, if_pos hyp]
          · rcases hQ with hn0 | ⟨Q, hQi, _, hQe⟩
            · rw [hn0]; rfl
            · rw [hQe]; exact lt64 Q hQi
          · rintro ⟨Q, hQi, _, _, e2⟩
            exact (t.slots (l.members j hj Q hQi).1 hyb).1 e2.symm
        · rw [if_neg, if_neg, if_neg hyp]
          · rintro ⟨P, hPi, _, hPe, e2⟩
            by_cases hyP : y = P
            · subst hyP; exact hyp hPe.symm
            · exact ((t.slots hyb (l.members i hi P hPi).1).2 hyP).2 e2
          · rintro ⟨Q, hQi, _, _, e2⟩
            exact (t.slots (l.members i hi Q hQi).1 hyb).1 e2.symm
  · intro j hj y
    by_cases hji : j = i
    · subst hji
      rw [Function.update_same, e]
      have nd' := List.nodup_append.mp nd
      have ndx := List.nodup_cons.mp nd'.2.1
      simp only [List.mem_append, List.mem_cons]
      constructor
      · rintro (h1' | h1')
        · exact ⟨Or.inl h1', fun e2 => nd'.2.2 (e2 ▸ h1') (List.mem_cons_self _ _)⟩
        · exact ⟨Or.inr (Or.inr h1'), fun e2 => ndx.1 (e2 ▸ h1')⟩
      · rintro ⟨h1' | h1' | h1', h2'⟩
        · exact Or.inl h1'
        · exact absurd h1' h2'
        · exact Or.inr h1'
    · rw [Function.update_noteq hji]
      exact ⟨fun h1' => ⟨h1', fun e2 => hji (Listed.same_node t l hi hj hx h1' (by rw [e2])).2⟩,
        fun h1' => h1'.1⟩
  · intro w hw
    have hwx := hw i hi x hx
    rw [mfin w hwx.1 hwx.2]
    exact keep w (fun y hy _ => hw i hi y hy)


/-! ### Writing the tags of a region made of whole blocks -/

/-- The blocks of `bl` outside the region `[a, a + s)`, with the region as
one block in front. -/
theorem WF.retag {h : Heap} {bl : List (Nat × Nat)} {bk : Nat → List (Nat × Nat)}
    {L : List Nat} (wf : WF h bl bk L) {a s v : Nat} (hv : v = s ∨ v = s + 1)
    (h32 : 32 ≤ s) (h16 : s % 16 = 0)
    (hfirst : ∃ c ∈ bl, c.1 = a) (hlast : ∃ c ∈ bl, c.1 + c.2 = a + s)
    (hreg : ∀ c ∈ bl, (a ≤ c.1 ∧ c.1 + c.2 ≤ a + s) ∨ c.1 + c.2 ≤ a ∨ a + s ≤ c.1)
    (hout : ∀ c ∈ bl, a ≤ c.1 → c.1 + c.2 ≤ a + s → ∀ i, i < arrayLength → c ∉ bk i)
    (hL : v = s → a ∈ L) :
    WF ((h.write a v).write (a + s - 8) v)
      ((a, s) :: bl.filter (fun c => decide (c.1 + c.2 ≤ a ∨ a + s ≤ c.1))) bk L := by
  obtain ⟨t, l⟩ := wf
  obtain ⟨cf, hcf, ecf⟩ := hfirst
  obtain ⟨cl, hcl, ecl⟩ := hlast
  have ff := t.facts hcf
  have fl := t.facts hcl
  have hsm := t.small
  have hv64 : u64 v = v := Nat.mod_eq_of_lt (by omega)
  have memf : ∀ c, c ∈ bl.filter (fun c => decide (c.1 + c.2 ≤ a ∨ a + s ≤ c.1)) ↔
      c ∈ bl ∧ (c.1 + c.2 ≤ a ∨ a + s ≤ c.1) := by
    intro c
    rw [List.mem_filter, decide_eq_true_iff]
  -- words of blocks outside the region are not written
  have keep : ∀ c ∈ bl, (c.1 + c.2 ≤ a ∨ a + s ≤ c.1) → ∀ w, c.1 ≤ w → w < c.1 + c.2 →
      ((h.write a v).write (a + s - 8) v).mem w = h.mem w := by
    intro c hc ho w h1 h2
    have fc := t.facts hc
    rw [write_mem_ne (by omega), write_mem_ne (by omega)]
  have hnew1 : ((h.write a v).write (a + s - 8) v).mem a = v := by
    rw [write_mem_ne (by omega), write_mem, if_pos rfl, hv64]
  have hnew2 : ((h.write a v).write (a + s - 8) v).mem (a + s - 8) = v := by
    rw [write_mem, if_pos rfl, hv64]
  constructor
  · constructor
    · exact t.lo_le
    · exact t.hs_pos
    · exact t.hs_le
    · exact t.small
    · exact t.brk_lt
    · -- first
      rcases t.first with h1 | ⟨b, hb, eb⟩
      · left; exact h1
      · right
        rcases hreg b hb with h2 | h2
        · exact ⟨(a, s), List.mem_cons_self _ _, by
            have fb := t.facts hb
            show a = h.heapStart
            omega⟩
        · exact ⟨b, List.mem_cons_of_mem _ ((memf b).mpr ⟨hb, h2⟩), eb⟩
    · -- inside
      intro b hb
      rcases List.mem_cons.mp hb with e | hb'
      · subst e
        show h.heapStart ≤ a ∧ a + s ≤ h.brk ∧ a % 8 = 0
        omega
      · exact t.inside b ((memf b).mp hb').1
    · -- disj
      intro b hb c hc
      rcases List.mem_cons.mp hb with e | hb'
      · rcases List.mem_cons.mp hc with e2 | hc'
        · left; rw [e, e2]
        · subst e
          right
          have := ((memf c).mp hc').2
          show a + s ≤ c.1 ∨ c.1 + c.2 ≤ a
          omega
      · rcases List.mem_cons.mp hc with e2 | hc'
        · subst e2
          right
          have := ((memf b).mp hb').2
          show b.1 + b.2 ≤ a ∨ a + s ≤ b.1
          omega
        · exact t.disj b ((memf b).mp hb').1 c ((memf c).mp hc').1
    · -- before
      intro b hb
      rcases List.mem_cons.mp hb with e | hb'
      · subst e
        rcases t.before cf hcf with h1 | ⟨d, hd, ed⟩
        · left; show a = h.heapStart; omega
        · right
          exact ⟨d, List.mem_cons_of_mem _ ((memf d).mpr ⟨hd, Or.inl (by omega)⟩), by
            show d.1 + d.2 = a
            omega⟩
      · have hb2 := (memf b).mp hb'
        rcases t.before b hb2.1 with h1 | ⟨d, hd, ed⟩
        · left; exact h1
        · right
          have fd := t.facts hd
          rcases hreg d hd with h2 | h2
          · exact ⟨(a, s), List.mem_cons_self _ _, by
              have := hb2.2
              show a + s = b.1
              omega⟩
          · exact ⟨d, List.mem_cons_of_mem _ ((memf d).mpr ⟨hd, h2⟩), ed⟩
    · -- after
      intro b hb
      rcases List.mem_cons.mp hb with e | hb'
      · subst e
        rcases t.after cl hcl with h1 | ⟨d, hd, ed⟩
        · left; show a + s = h.brk; omega
        · right
          exact ⟨d, List.mem_cons_of_mem _ ((memf d).mpr ⟨hd, Or.inr (by omega)⟩), by
            show d.1 = a + s
            omega⟩
      · have hb2 := (memf b).mp hb'
        rcases t.after b hb2.1 with h1 | ⟨d, hd, ed⟩
        · left; exact h1
        · right
          have fd := t.facts hd
          have fb := t.facts hb2.1
          rcases hreg d hd with h2 | h2
          · exact ⟨(a, s), List.mem_cons_self _ _, by
              have := hb2.2
              show a = b.1 + b.2
              omega⟩
          · exact ⟨d, List.mem_cons_of_mem _ ((memf d).mpr ⟨hd, h2⟩), ed⟩
    · -- tagged
      intro b hb
      rcases List.mem_cons.mp hb with e | hb'
      · subst e
        show 32 ≤ s ∧ s % 16 = 0 ∧ (_ = s ∨ _ = s + 1) ∧ _ = _
        rw [hnew1, hnew2]
        exact ⟨h32, h16, hv, rfl⟩
      · have hb2 := (memf b).mp hb'
        have fb := t.facts hb2.1
        rw [keep b hb2.1 hb2.2 _ (Nat.le_refl _) (by omega),
          keep b hb2.1 hb2.2 _ (by omega) (by omega)]
        exact t.tagged b hb2.1
  · have outside : ∀ i, i < arrayLength → ∀ x ∈ bk i, x ∈ bl ∧ (x.1 + x.2 ≤ a ∨ a + s ≤ x.1) := by
      intro i hi x hx
      have hxb := (l.members i hi x hx).1
      refine ⟨hxb, ?_⟩
      rcases hreg x hxb with h2 | h2
      · exact absurd hx (hout x hxb h2.1 h2.2 i hi)
      · exact h2
    constructor
    · intro i hi
      apply Chain.same_links _ (l.chains i hi)
      intro x hx
      have ho := outside i hi x hx
      have fx := t.facts ho.1
      exact ⟨keep x ho.1 ho.2 _ (by omega) (by omega), keep x ho.1 ho.2 _ (by omega) (by omega)⟩
    · intro i hi x hx
      have ho := outside i hi x hx
      have fx := t.facts ho.1
      have m := l.members i hi x hx
      exact ⟨List.mem_cons_of_mem _ ((memf x).mpr ho),
        by rw [keep x ho.1 ho.2 _ (Nat.le_refl _) (by omega)]; exact m.2.1, m.2.2⟩
    · exact l.nodup
    · intro b hb hf
      rcases List.mem_cons.mp hb with e | hb'
      · subst e
        left
        rw [hnew1] at hf
        exact hL hf
      · have hb2 := (memf b).mp hb'
        have fb := t.facts hb2.1
        rw [keep b hb2.1 hb2.2 _ (Nat.le_refl _) (by omega)] at hf
        exact l.registered b hb2.1 hf
    · exact l.loose_out


theorem hi_eq {x : Nat} (h0 : 0 < x) (h64 : x < 2 ^ 64) : u64 (x + (2 ^ 64 - 1)) = x - 1 := by
  unfold u64
  have : x + (2 ^ 64 - 1) = (x - 1) + 2 ^ 64 := by omega
  rw [this, Nat.add_mod_right, Nat.mod_eq_of_lt (by omega)]

theorem mem_heap_hi_ok (h : Heap) : mem_heap_hi h = .ok (u64 (h.brk + (2 ^ 64 - 1)), h) := rfl

/-- The test of `coalesce` on the next block. -/
theorem Tiled.nextAlloc {h : Heap} {bl : List (Nat × Nat)} (t : Tiled h bl) {b : Nat × Nat}
    (hb : b ∈ bl) {ns : Nat} (hn : FreeAfter h bl (b.1 + b.2) ns) :
    (if u64 (h.brk + (2 ^ 64 - 1)) = u64 (b.1 + b.2 + (2 ^ 64 - 1)) then
        (pure Status.ALLOCATED : M Status) else getAlloc (b.1 + b.2)) h
      = .ok (if ns = 0 then Status.ALLOCATED else Status.FREE, h) := by
  have fb := t.facts hb
  have hbrk := t.brk_lt
  have hhs := t.hs_pos
  have hle := t.hs_le
  rw [hi_eq (by omega) hbrk, hi_eq (by omega) (by omega)]
  rcases hn with ⟨hns, h1 | ⟨c, hc, ec, hf⟩⟩ | ⟨hc, hf⟩
  · rw [if_pos (by omega), if_pos hns]; rfl
  · have fc := t.facts hc
    rw [if_neg (by omega), if_pos hns, ← ec,
      getAlloc_ok (t.valid hc (Nat.le_refl _) (by omega) (by omega)), hf,
      if_neg (by omega)]
  · have fc := t.facts hc
    have h1 : (b.1 + b.2, ns).1 = b.1 + b.2 := rfl
    have h2 : (b.1 + b.2, ns).2 = ns := rfl
    rw [if_neg (by omega), if_neg (by omega),
      getAlloc_ok (t.valid hc (Nat.le_refl _) (by omega) (by omega)), hf,
      if_pos (by omega)]

/-- The test of `coalesce` on the previous block. -/
theorem Tiled.prevAlloc {h : Heap} {bl : List (Nat × Nat)} (t : Tiled h bl) {b : Nat × Nat}
    (hb : b ∈ bl) {ps : Nat} (hp : FreeBefore h bl b.1 ps) :
    (if h.heapStart = b.1 then (pure Status.ALLOCATED : M Status) else getAlloc (b.1 - 8)) h
      = .ok (if ps = 0 then Status.ALLOCATED else Status.FREE, h) := by
  have fb := t.facts hb
  rcases hp with ⟨hps, h1 | ⟨c, hc, ec, hf⟩⟩ | ⟨hle, hc, hf⟩
  · rw [if_pos h1.symm, if_pos hps]; rfl
  · have fc := t.facts hc
    have hft := (t.tagged c hc).2.2.2
    have e8 : b.1 - 8 = c.1 + c.2 - 8 := by omega
    rw [if_neg (by omega), if_pos hps, e8,
      getAlloc_ok (t.valid hc (by omega) (by omega) (by omega)), hft, hf,
      if_neg (by omega)]
  · have fc := t.facts hc
    have hft := (t.tagged _ hc).2.2.2
    have h1 : (b.1 - ps, ps).1 = b.1 - ps := rfl
    have h2 : (b.1 - ps, ps).2 = ps := rfl
    have e8 : b.1 - 8 = (b.1 - ps, ps).1 + (b.1 - ps, ps).2 - 8 := by omega
    rw [if_neg (by omega), if_neg (by omega), e8,
      getAlloc_ok (t.valid hc (by omega) (by omega) (by omega)), hft, h1, hf,
      if_pos (by omega)]

/-- Every block of a tiled heap has a free block before it or none, and a free
block after it or none. -/
theorem Tiled.neighbours {h : Heap} {bl : List (Nat × Nat)} (t : Tiled h bl) {b : Nat × Nat}
    (hb : b ∈ bl) : (∃ ps, FreeBefore h bl b.1 ps) ∧ ∃ ns, FreeAfter h bl (b.1 + b.2) ns := by
  constructor
  · rcases t.before b hb with h1 | ⟨c, hc, ec⟩
    · exact ⟨0, Or.inl ⟨rfl, Or.inl h1⟩⟩
    · have fc := t.facts hc
      rcases t.header hc with hf | hf
      · refine ⟨c.2, Or.inr ⟨by omega, ?_, ?_⟩⟩
        · have : b.1 - c.2 = c.1 := by omega
          rw [this]; exact hc
        · have : b.1 - c.2 = c.1 := by omega
          rw [this]; exact hf
      · exact ⟨0, Or.inl ⟨rfl, Or.inr ⟨c, hc, ec, hf⟩⟩⟩
  · rcases t.after b hb with h1 | ⟨c, hc, ec⟩
    · exact ⟨0, Or.inl ⟨rfl, Or.inl h1⟩⟩
    · rcases t.header hc with hf | hf
      · refine ⟨c.2, Or.inr ⟨?_, ?_⟩⟩
        · rw [← ec]; exact hc
        · rw [← ec]; exact hf
      · exact ⟨0, Or.inl ⟨rfl, Or.inr ⟨c, hc, ec, hf⟩⟩⟩

theorem u32_id {n : Nat} (hn : n < 2 ^ 32) : u32 n = n := Nat.mod_eq_of_lt hn


theorem ite_bind_run {α β : Type} (c : Prop) [Decidable c] (A B : M α) (f : α → M β)
    (h : Heap) {v : α} {h1 : Heap} (e : (if c then A else B) h = .ok (v, h1)) :
    (if c then A >>= f else B >>= f) h = f v h1 := by
  by_cases hc : c
  · rw [if_pos hc] at e ⊢
    rw [run_bind, e]
  · rw [if_neg hc] at e ⊢
    rw [run_bind, e]

theorem get_bind_run {β : Type} (f : Heap → M β) (h : Heap) :
    ((get : M Heap) >>= f) h = f h h := rfl

/-- The list of loose addresses can be replaced by one that still names every
loose block. -/
theorem WF.shrink {h : Heap} {bl : List (Nat × Nat)} {bk : Nat → List (Nat × Nat)}
    {L L' : List Nat} (wf : WF h bl bk L) (h1 : ∀ z ∈ L', z ∈ L)
    (h2 : ∀ c ∈ bl, h.mem c.1 = c.2 → c.1 ∈ L → c.1 ∈ L') : WF h bl bk L' := by
  obtain ⟨t, l⟩ := wf
  refine ⟨t, l.chains, l.members, l.nodup, ?_, ?_⟩
  · intro c hc hf
    rcases l.registered c hc hf with h3 | h3
    · exact Or.inl (h2 c hc hf h3)
    · exact Or.inr h3
  · intro i hi x hx hL
    exact l.loose_out i hi x hx (h1 _ hL)

/-- The tags of `coalesce`: the block `b`, the free block of size `ps` before it
and the free block of size `ns` after it, all loose, become one loose block. -/
theorem WF.merge {h : Heap} {bl : List (Nat × Nat)} {bk : Nat → List (Nat × Nat)}
    {L : List Nat} (wf : WF h bl bk L) {b : Nat × Nat} (hb : b ∈ bl) {ps ns : Nat}
    (hp : ps = 0 ∨ (ps ≤ b.1 ∧ (b.1 - ps, ps) ∈ bl))
    (hn : ns = 0 ∨ (b.1 + b.2, ns) ∈ bl)
    (hL : ∀ z, z ∈ L ↔ (z = b.1 ∨ (ps ≠ 0 ∧ z = b.1 - ps) ∨ (ns ≠ 0 ∧ z = b.1 + b.2))) :
    WF ((h.write (b.1 - ps) (ps + b.2 + ns)).write (b.1 - ps + (ps + b.2 + ns) - 8)
        (ps + b.2 + ns))
      ((b.1 - ps, ps + b.2 + ns) :: bl.filter (fun c =>
        decide (c.1 + c.2 ≤ b.1 - ps ∨ b.1 - ps + (ps + b.2 + ns) ≤ c.1))) bk [b.1 - ps] := by
  have t := wf.1
  have l := wf.2
  have fb := t.facts hb
  -- the three blocks of the region
  have hpf : ps = 0 ∨ (ps ≤ b.1 ∧ (b.1 - ps, ps) ∈ bl ∧ 32 ≤ ps ∧ ps % 16 = 0 ∧
      h.heapStart ≤ b.1 - ps) := by
    rcases hp with h1 | ⟨h1, h2⟩
    · exact Or.inl h1
    · have f := t.facts h2
      exact Or.inr ⟨h1, h2, f.1, f.2.1, f.2.2.2.2.1⟩
  have hnf : ns = 0 ∨ ((b.1 + b.2, ns) ∈ bl ∧ 32 ≤ ns ∧ ns % 16 = 0 ∧
      b.1 + b.2 + ns ≤ h.brk) := by
    rcases hn with h1 | h2
    · exact Or.inl h1
    · have f := t.facts h2
      exact Or.inr ⟨h2, f.1, f.2.1, f.2.2.2.2.2.1⟩
  have inreg : ∀ c ∈ bl, (c = b ∨ (ps ≠ 0 ∧ c = (b.1 - ps, ps)) ∨ (ns ≠ 0 ∧ c = (b.1 + b.2, ns))) ∨
      (c.1 + c.2 ≤ b.1 - ps ∨ b.1 - ps + (ps + b.2 + ns) ≤ c.1) := by
    intro c hc
    have fc := t.facts hc
    have d1 := t.disj c hc b hb
    rcases d1 with d1 | d1
    · exact Or.inl (Or.inl d1)
    rcases hpf with hp0 | ⟨hp1, hp2, hp3, hp4, hp5⟩
    · rcases hnf with hn0 | ⟨hn1, hn2, hn3, hn4⟩
      · right; omega
      · rcases t.disj c hc _ hn1 with d2 | d2
        · exact Or.inl (Or.inr (Or.inr ⟨by omega, d2⟩))
        · right
          have e1 : (b.1 + b.2, ns).1 = b.1 + b.2 := rfl
          have e2 : (b.1 + b.2, ns).2 = ns := rfl
          omega
    · rcases t.disj c hc _ hp2 with d3 | d3
      · exact Or.inl (Or.inr (Or.inl ⟨by omega, d3⟩))
      · have e3 : (b.1 - ps, ps).1 = b.1 - ps := rfl
        have e4 : (b.1 - ps, ps).2 = ps := rfl
        rcases hnf with hn0 | ⟨hn1, hn2, hn3, hn4⟩
        · right; omega
        · rcases t.disj c hc _ hn1 with d2 | d2
          · exact Or.inl (Or.inr (Or.inr ⟨by omega, d2⟩))
          · right
            have e1 : (b.1 + b.2, ns).1 = b.1 + b.2 := rfl
            have e2 : (b.1 + b.2, ns).2 = ns := rfl
            omega
  have hLout : ∀ c ∈ bl, c.1 ∈ L → ∀ i, i < arrayLength → c ∉ bk i :=
    fun c _ hcL i hi hx => l.loose_out i hi c hx hcL
  have key := wf.retag (a := b.1 - ps) (s := ps + b.2 + ns) (v := ps + b.2 + ns) (Or.inl rfl)
    (by omega) (by
      rcases hpf with hp0 | ⟨_, _, _, hp4, _⟩ <;> rcases hnf with hn0 | ⟨_, _, hn3, _⟩ <;> omega)
    (by
      rcases hpf with hp0 | ⟨hp1, hp2, _⟩
      · exact ⟨b, hb, by omega⟩
      · exact ⟨_, hp2, rfl⟩)
    (by
      rcases hnf with hn0 | ⟨hn1, _⟩
      · exact ⟨b, hb, by
          rcases hpf with hp0 | ⟨hp1, _⟩ <;> omega⟩
      · exact ⟨_, hn1, by
          show b.1 + b.2 + ns = _
          rcases hpf with hp0 | ⟨hp1, _⟩ <;> omega⟩)
    (by
      intro c hc
      have fc := t.facts hc
      rcases inreg c hc with (h1 | ⟨_, h1⟩ | ⟨_, h1⟩) | h1
      · left; subst h1
        rcases hpf with hp0 | ⟨hp1, _⟩ <;> omega
      · left; subst h1
        show b.1 - ps ≤ b.1 - ps ∧ b.1 - ps + ps ≤ _
        omega
      · left; subst h1
        show b.1 - ps ≤ b.1 + b.2 ∧ b.1 + b.2 + ns ≤ _
        rcases hpf with hp0 | ⟨hp1, _⟩ <;> omega
      · right; exact h1)
    (by
      intro c hc h1 h2
      have fc := t.facts hc
      rcases inreg c hc with (h3 | ⟨h0, h3⟩ | ⟨h0, h3⟩) | h3
      · subst h3; exact hLout c hc ((hL _).mpr (Or.inl rfl))
      · subst h3; exact hLout _ hc ((hL _).mpr (Or.inr (Or.inl ⟨h0, rfl⟩)))
      · subst h3; exact hLout _ hc ((hL _).mpr (Or.inr (Or.inr ⟨h0, rfl⟩)))
      · omega)
    (by
      intro _
      rcases hpf with hp0 | ⟨hp1, _⟩
      · exact (hL _).mpr (Or.inl (by omega))
      · exact (hL _).mpr (Or.inr (Or.inl ⟨by omega, rfl⟩)))
  apply key.shrink
  · intro z hz
    rw [List.mem_singleton] at hz
    subst hz
    rcases hpf with hp0 | ⟨hp1, _⟩
    · exact (hL _).mpr (Or.inl (by omega))
    · exact (hL _).mpr (Or.inr (Or.inl ⟨by omega, rfl⟩))
  · intro c hc _ hcL
    rw [List.mem_singleton]
    rcases List.mem_cons.mp hc with e | hc'
    · rw [e]
    · rw [List.mem_filter, decide_eq_true_iff] at hc'
      have fc := t.facts hc'.1
      have := hc'.2
      rcases (hL _).mp hcL with h1 | ⟨h0, h1⟩ | ⟨h0, h1⟩
      · omega
      · omega
      · rcases hnf with hn0 | ⟨_, hn2, _⟩
        · exact absurd hn0 h0
        · omega


/-- The last step of `coalesce` when it merges: `setSizeAlloc` on the region
of the loose blocks. -/
theorem WF.merge_ok {h : Heap} {bl : List (Nat × Nat)} {bk : Nat → List (Nat × Nat)}
    {L : List Nat} (wf : WF h bl bk L) {b : Nat × Nat} (hb : b ∈ bl) {p n : Nat}
    (hp : p = 0 ∨ (p ≤ b.1 ∧ (b.1 - p, p) ∈ bl))
    (hn : n = 0 ∨ (b.1 + b.2, n) ∈ bl)
    (hL : ∀ z, z ∈ L ↔ (z = b.1 ∨ (p ≠ 0 ∧ z = b.1 - p) ∨ (n ≠ 0 ∧ z = b.1 + b.2))) :
    ∃ h' bl', setSizeAlloc (b.1 - p) (p + b.2 + n) .FREE h = .ok ((), h') ∧
      WF h' bl' bk [b.1 - p] ∧
      (∀ c, c ∈ bl' ↔ (c = (b.1 - p, p + b.2 + n) ∨
        (c ∈ bl ∧ (c.1 + c.2 ≤ b.1 - p ∨ b.1 + b.2 + n ≤ c.1)))) ∧
      h'.lo = h.lo ∧ h'.brk = h.brk ∧ h'.heapStart = h.heapStart ∧ h'.maxAddr = h.maxAddr ∧
      h'.array = h.array ∧
      h'.mem (b.1 - p) = p + b.2 + n ∧
      (∀ w, w ≠ b.1 - p → w ≠ b.1 + b.2 + n - 8 → h'.mem w = h.mem w) ∧
      u32 (p + b.2 + n) = p + b.2 + n := by
  have t := wf.1
  have fb := t.facts hb
  have hsm := t.small
  have wfm := wf.merge hb hp hn hL
  have hpf : p = 0 ∨ (p ≤ b.1 ∧ 32 ≤ p ∧ p % 16 = 0 ∧ h.heapStart ≤ b.1 - p) := by
    rcases hp with h1 | ⟨h1, h2⟩
    · exact Or.inl h1
    · have f := t.facts h2
      exact Or.inr ⟨h1, f.1, f.2.1, f.2.2.2.2.1⟩
  have hnf : n = 0 ∨ (32 ≤ n ∧ n % 16 = 0 ∧ b.1 + b.2 + n ≤ h.brk) := by
    rcases hn with h1 | h2
    · exact Or.inl h1
    · have f := t.facts h2
      exact Or.inr ⟨f.1, f.2.1, f.2.2.2.2.2.1⟩
  have hlo := t.lo_le
  have hle : p ≤ b.1 := by
    rcases hpf with h1 | h1 <;> omega
  have hend : b.1 - p + (p + b.2 + n) = b.1 + b.2 + n := by omega
  have hT : p + b.2 + n < 2 ^ 32 ∧ (p + b.2 + n) % 2 = 0 ∧ 32 ≤ p + b.2 + n ∧
      h.lo ≤ b.1 - p ∧ b.1 + b.2 + n ≤ h.brk ∧ (b.1 - p) % 8 = 0 ∧
      (b.1 + b.2 + n) % 8 = 0 := by
    rcases hpf with h1 | h1 <;> rcases hnf with h2 | h2 <;> omega
  have hv1 : validAddr h (b.1 - p) = true := by
    rw [validAddr_iff]; omega
  have hv2 : validAddr h (b.1 - p + (p + b.2 + n) - 8) = true := by
    rw [validAddr_iff]; omega
  refine ⟨_, _, setSizeAlloc_free (by omega) hv1 hv2, wfm, ?_, rfl, rfl, rfl, rfl, rfl, ?_, ?_,
    u32_id (by omega)⟩
  · intro c
    rw [List.mem_cons, List.mem_filter, decide_eq_true_iff, hend]
  · rw [write_mem_ne (by omega), write_mem, if_pos rfl]
    exact Nat.mod_eq_of_lt (by omega)
  · intro w h3 h4
    rw [write_mem_ne (by omega), write_mem_ne (by omega)]


/-! ### `coalesce` on a well-formed heap -/


/-- The reads of `coalesce`: what remains is the choice among its four cases. -/
theorem coalesce_reads {h : Heap} {bl : List (Nat × Nat)} (t : Tiled h bl) {b : Nat × Nat}
    (hb : b ∈ bl) {ps ns : Nat} (hp : FreeBefore h bl b.1 ps)
    (hn : FreeAfter h bl (b.1 + b.2) ns) :
    coalesce b.1 h = (match (if ps = 0 then Status.ALLOCATED else Status.FREE),
        (if ns = 0 then Status.ALLOCATED else Status.FREE) with
      | .ALLOCATED, .ALLOCATED => pure b.1
      | .FREE, .ALLOCATED => do
        let prevSize ← getSize (b.1 - 8)
        removeFromList (b.1 - prevSize)
        setSizeAlloc (b.1 - prevSize) (u32 (prevSize + b.2)) .FREE
        pure (b.1 - prevSize)
      | .ALLOCATED, .FREE => do
        let nextSize ← getSize (b.1 + b.2)
        removeFromList (b.1 + b.2)
        setSizeAlloc b.1 (u32 (nextSize + b.2)) .FREE
        pure b.1
      | .FREE, .FREE => do
        let prevSize ← getSize (b.1 - 8)
        let nextSize ← getSize (b.1 + b.2)
        removeFromList (b.1 - prevSize)
        removeFromList (b.1 + b.2)
        setSizeAlloc (b.1 - prevSize) (u32 (prevSize + b.2 + nextSize)) .FREE
        pure (b.1 - prevSize) : M Nat) h := by
    unfold coalesce
    rw [run_bind, t.getSize hb]
    simp only []
    rw [run_bind, mem_heap_hi_ok]
    simp only []
    rw [ite_bind_run _ _ _ _ _ (t.nextAlloc hb hn)]
    rw [get_bind_run]
    rw [ite_bind_run _ _ _ _ _ (t.prevAlloc hb hp)]
    try rfl

theorem coalesce_run_none {h : Heap} {bl : List (Nat × Nat)} (t : Tiled h bl) {b : Nat × Nat}
    (hb : b ∈ bl) {ps ns : Nat} (hp : FreeBefore h bl b.1 ps)
    (hn : FreeAfter h bl (b.1 + b.2) ns) (hp0 : ps = 0) (hn0 : ns = 0) :
    coalesce b.1 h = .ok (b.1, h) := by
  rw [coalesce_reads t hb hp hn, if_pos hp0, if_pos hn0]
  rfl

theorem coalesce_run_next {h h1 h2 : Heap} {bl : List (Nat × Nat)} (t : Tiled h bl)
    {b : Nat × Nat} (hb : b ∈ bl) {ps ns : Nat} (hp : FreeBefore h bl b.1 ps)
    (hn : FreeAfter h bl (b.1 + b.2) ns) (hp0 : ps = 0) (hn0 : ns ≠ 0)
    (r0 : getSize (b.1 + b.2) h = .ok (ns, h))
    (r1 : removeFromList (b.1 + b.2) h = .ok ((), h1))
    (r2 : setSizeAlloc b.1 (u32 (ns + b.2)) .FREE h1 = .ok ((), h2)) :
    coalesce b.1 h = .ok (b.1, h2) := by
  rw [coalesce_reads t hb hp hn, if_pos hp0, if_neg hn0]
  simp only []
  rw [run_bind, r0]
  simp only []
  rw [run_bind, r1]
  simp only []
  rw [run_bind, r2]
  rfl

theorem coalesce_run_prev {h h1 h2 : Heap} {bl : List (Nat × Nat)} (t : Tiled h bl)
    {b : Nat × Nat} (hb : b ∈ bl) {ps ns : Nat} (hp : FreeBefore h bl b.1 ps)
    (hn : FreeAfter h bl (b.1 + b.2) ns) (hp0 : ps ≠ 0) (hn0 : ns = 0)
    (r0 : getSize (b.1 - 8) h = .ok (ps, h))
    (r1 : removeFromList (b.1 - ps) h = .ok ((), h1))
    (r2 : setSizeAlloc (b.1 - ps) (u32 (ps + b.2)) .FREE h1 = .ok ((), h2)) :
    coalesce b.1 h = .ok (b.1 - ps, h2) := by
  rw [coalesce_reads t hb hp hn, if_neg hp0, if_pos hn0]
  simp only []
  rw [run_bind, r0]
  simp only []
  rw [run_bind, r1]
  simp only []
  rw [run_bind, r2]
  rfl

theorem coalesce_run_both {h h1 h2 h3 : Heap} {bl : List (Nat × Nat)} (t : Tiled h bl)
    {b : Nat × Nat} (hb : b ∈ bl) {ps ns : Nat} (hp : FreeBefore h bl b.1 ps)
    (hn : FreeAfter h bl (b.1 + b.2) ns) (hp0 : ps ≠ 0) (hn0 : ns ≠ 0)
    (r0 : getSize (b.1 - 8) h = .ok (ps, h))
    (r0n : getSize (b.1 + b.2) h = .ok (ns, h))
    (r1 : removeFromList (b.1 - ps) h = .ok ((), h1))
    (r2 : removeFromList (b.1 + b.2) h1 = .ok ((), h2))
    (r3 : setSizeAlloc (b.1 - ps) (u32 (ps + b.2 + ns)) .FREE h2 = .ok ((), h3)) :
    coalesce b.1 h = .ok (b.1 - ps, h3) := by
  rw [coalesce_reads t hb hp hn, if_neg hp0, if_neg hn0]
  simp only []
  rw [run_bind, r0]
  simp only []
  rw [run_bind, r0n]
  simp only []
  rw [run_bind, r1]
  simp only []
  rw [run_bind, r2]
  simp only []
  rw [run_bind, r3]
  rfl


/-- The function `coalesce` on a loose block `b` of a well-formed heap, where `ps` and `ns`
are the sizes of the free blocks before and after `b` (0 for none): the result
is the block at `b - ps` of size `ps + b.size + ns`, loose; the lists keep
exactly their members outside that block; the tags of the other blocks and
the words that are not links of list members are as before. -/
theorem WF.coalesce_ok {h : Heap} {bl : List (Nat × Nat)} {bk : Nat → List (Nat × Nat)}
    {b : Nat × Nat} (wf : WF h bl bk [b.1]) (hb : b ∈ bl) {ps ns : Nat}
    (hp : FreeBefore h bl b.1 ps) (hn : FreeAfter h bl (b.1 + b.2) ns) :
    ∃ h' bl' bk', coalesce b.1 h = .ok (b.1 - ps, h') ∧
      WF h' bl' bk' [b.1 - ps] ∧
      (∀ c, c ∈ bl' ↔ (c = (b.1 - ps, ps + b.2 + ns) ∨
        (c ∈ bl ∧ (c.1 + c.2 ≤ b.1 - ps ∨ b.1 + b.2 + ns ≤ c.1)))) ∧
      (∀ i, i < arrayLength → ∀ y, y ∈ bk' i ↔
        (y ∈ bk i ∧ (y.1 + y.2 ≤ b.1 - ps ∨ b.1 + b.2 + ns ≤ y.1))) ∧
      h'.lo = h.lo ∧ h'.brk = h.brk ∧ h'.heapStart = h.heapStart ∧ h'.maxAddr = h.maxAddr ∧
      (ps = 0 → ns = 0 → h' = h) ∧
      (¬ (ps = 0 ∧ ns = 0) → h'.mem (b.1 - ps) = ps + b.2 + ns) ∧
      (∀ w, (∀ i, i < arrayLength → ∀ y ∈ bk i, w ≠ y.1 + 8 ∧ w ≠ y.1 + y.2 - 16) →
        w ≠ b.1 - ps → w ≠ b.1 + b.2 + ns - 8 → h'.mem w = h.mem w) := by
  have t := wf.1
  have l := wf.2
  have fb := t.facts hb
  have hsm := t.small
  have beta : b = (b.1, b.2) := rfl
  -- members of the lists are blocks other than `b`
  have hmem : ∀ i, i < arrayLength → ∀ y ∈ bk i, y ∈ bl ∧ y ≠ b := by
    intro i hi y hy
    refine ⟨(l.members i hi y hy).1, fun e => ?_⟩
    subst e
    exact l.loose_out i hi y hy (List.mem_singleton.mpr rfl)
  -- the free block before `b`, when there is one
  have hpc : ps = 0 ∨ (ps ≠ 0 ∧ ps ≤ b.1 ∧ (b.1 - ps, ps) ∈ bl ∧ h.mem (b.1 - ps) = ps ∧
      (b.1 - ps, ps) ∈ bk (getIndexOf ps) ∧ getSize (b.1 - 8) h = .ok (ps, h)) := by
    rcases hp with ⟨h1, _⟩ | ⟨h1, h2, h3⟩
    · exact Or.inl h1
    · right
      have fc := t.facts h2
      have e1 : (b.1 - ps, ps).1 = b.1 - ps := rfl
      have e2 : (b.1 - ps, ps).2 = ps := rfl
      refine ⟨by omega, h1, h2, h3, ?_, ?_⟩
      · rcases l.registered _ h2 h3 with h4 | h4
        · rw [List.mem_singleton] at h4
          omega
        · exact h4
      · have hft := (t.tagged _ h2).2.2.2
        rw [e1, e2, h3] at hft
        have e8 : b.1 - ps + ps - 8 = b.1 - 8 := by omega
        rw [e8] at hft
        exact getSize_ok (t.valid h2 (by omega) (by omega) (by omega)) (by omega) (by omega)
          (Or.inl hft)
  have hnc : ns = 0 ∨ (ns ≠ 0 ∧ (b.1 + b.2, ns) ∈ bl ∧ h.mem (b.1 + b.2) = ns ∧
      (b.1 + b.2, ns) ∈ bk (getIndexOf ns)) := by
    rcases hn with ⟨h1, _⟩ | ⟨h2, h3⟩
    · exact Or.inl h1
    · right
      have fc := t.facts h2
      have e1 : (b.1 + b.2, ns).1 = b.1 + b.2 := rfl
      have e2 : (b.1 + b.2, ns).2 = ns := rfl
      refine ⟨by omega, h2, h3, ?_⟩
      rcases l.registered _ h2 h3 with h4 | h4
      · rw [List.mem_singleton] at h4
        omega
      · exact h4
  have hne : (b.1 + b.2, ns) ≠ (b.1 - ps, ps) := by
    intro e
    have := congrArg Prod.fst e
    simp only at this
    omega
  -- members of the lists outside the merged block
  have houtside : ∀ i, i < arrayLength → ∀ y ∈ bk i,
      ((ps = 0 ∨ y ≠ (b.1 - ps, ps)) ∧ (ns = 0 ∨ y ≠ (b.1 + b.2, ns))) ↔
      (y.1 + y.2 ≤ b.1 - ps ∨ b.1 + b.2 + ns ≤ y.1) := by
    intro i hi y hy
    have hy' := hmem i hi y hy
    have fy := t.facts hy'.1
    have d1 := t.disj y hy'.1 b hb
    constructor
    · rintro ⟨h1, h2⟩
      rcases d1 with d1 | d1
      · exact absurd d1 hy'.2
      rcases hpc with hp0 | ⟨_, hp1, hp2, _⟩
      · rcases hnc with hn0 | ⟨_, hn1, _⟩
        · omega
        · rcases t.disj y hy'.1 _ hn1 with d2 | d2
          · rcases h2 with h2 | h2
            · omega
            · exact absurd d2 h2
          · have e1 : (b.1 + b.2, ns).1 = b.1 + b.2 := rfl
            have e2 : (b.1 + b.2, ns).2 = ns := rfl
            omega
      · have e3 : (b.1 - ps, ps).1 = b.1 - ps := rfl
        have e4 : (b.1 - ps, ps).2 = ps := rfl
        rcases t.disj y hy'.1 _ hp2 with d3 | d3
        · rcases h1 with h1 | h1
          · omega
          · exact absurd d3 h1
        · rcases hnc with hn0 | ⟨_, hn1, _⟩
          · omega
          · rcases t.disj y hy'.1 _ hn1 with d2 | d2
            · rcases h2 with h2 | h2
              · omega
              · exact absurd d2 h2
            · have e1 : (b.1 + b.2, ns).1 = b.1 + b.2 := rfl
              have e2 : (b.1 + b.2, ns).2 = ns := rfl
              omega
    · intro ho
      constructor
      · by_cases hp0 : ps = 0
        · exact Or.inl hp0
        · right
          intro e
          subst e
          have e3 : (b.1 - ps, ps).1 = b.1 - ps := rfl
          have e4 : (b.1 - ps, ps).2 = ps := rfl
          omega
      · by_cases hn0 : ns = 0
        · exact Or.inl hn0
        · right
          intro e
          subst e
          have e1 : (b.1 + b.2, ns).1 = b.1 + b.2 := rfl
          have e2 : (b.1 + b.2, ns).2 = ns := rfl
          omega
  have hLiff : ∀ (u v : Nat), ∀ z, z ∈ [u, v] ↔ (z = u ∨ z = v) := by
    intro u v z
    simp only [List.mem_cons, List.mem_singleton, List.not_mem_nil, or_false]
  rcases hpc with hp0 | ⟨hp0, hp1, hp2, hp3, hp4, hp5⟩
  · rcases hnc with hn0 | ⟨hn0, hn1, hn2, hn3⟩
    · -- no free neighbour
      have e0 : b.1 - ps = b.1 := by rw [hp0]; rfl
      have eb : (b.1 - ps, ps + b.2 + ns) = b := by
        rw [hp0, hn0]
        exact Prod.ext rfl (by show 0 + b.2 + 0 = b.2; rw [Nat.zero_add, Nat.add_zero])
      have hr : coalesce b.1 h = .ok (b.1 - ps, h) := by
        rw [e0]
        exact coalesce_run_none t hb hp hn hp0 hn0
      refine ⟨h, bl, bk, hr, by rw [e0]; exact wf, ?_, ?_, rfl, rfl, rfl, rfl,
        fun _ _ => rfl, fun e => absurd ⟨hp0, hn0⟩ e, fun _ _ _ _ => rfl⟩
      · intro c
        rw [eb]
        constructor
        · intro hc
          rcases t.disj c hc b hb with d1 | d1
          · exact Or.inl d1
          · refine Or.inr ⟨hc, ?_⟩
            rw [e0, hn0, Nat.add_zero]
            exact d1
        · rintro (h1 | h1)
          · rw [h1]; exact hb
          · exact h1.1
      · intro i hi y
        constructor
        · intro hy
          exact ⟨hy, (houtside i hi y hy).mp ⟨Or.inl hp0, Or.inl hn0⟩⟩
        · exact fun hy => hy.1
    · -- only the next block is free
      have e0 : b.1 - ps = b.1 := by rw [hp0]; rfl
      obtain ⟨h1, bk1, r1, wf1, m1, g1a, g1b, g1c, g1d, fr1⟩ := wf.unlink (getIndexOf_lt ns) hn3
      obtain ⟨h2, bl2, r2, wf2, ml, g2a, g2b, g2c, g2d, _, hd, fr2, eT⟩ :=
        wf1.merge_ok (b := b) (p := ps) (n := ns) hb (Or.inl hp0) (Or.inr hn1) (by
          intro z
          rw [hLiff]
          constructor
          · rintro (h2 | h2)
            · exact Or.inr (Or.inr ⟨hn0, h2⟩)
            · exact Or.inl h2
          · rintro (h2 | ⟨h0, _⟩ | ⟨_, h2⟩)
            · exact Or.inr h2
            · exact absurd hp0 h0
            · exact Or.inl h2)
      have hr : coalesce b.1 h = .ok (b.1 - ps, h2) := by
        have e3 : ns + b.2 = ps + b.2 + ns := by
          rw [hp0, Nat.zero_add, Nat.add_comm]
        rw [← eT, ← e3, e0] at r2
        rw [e0]
        exact coalesce_run_next t hb hp hn hp0 hn0 (t.getSize hn1) r1 r2
      refine ⟨h2, bl2, bk1, hr, wf2, ml, ?_, g2a.trans g1a, g2b.trans g1b, g2c.trans g1c,
        g2d.trans g1d, fun _ e => absurd e hn0, fun _ => hd, ?_⟩
      · intro i hi' y
        rw [m1 i hi' y]
        constructor
        · rintro ⟨hy, hyn⟩
          exact ⟨hy, (houtside i hi' y hy).mp ⟨Or.inl hp0, Or.inr hyn⟩⟩
        · rintro ⟨hy, ho⟩
          rcases ((houtside i hi' y hy).mpr ho).2 with h3 | h3
          · exact absurd h3 hn0
          · exact ⟨hy, h3⟩
      · intro w hw h3 h4
        rw [fr2 w h3 h4]
        exact fr1 w hw
  · obtain ⟨h1, bk1, r1, wf1, m1, g1a, g1b, g1c, g1d, fr1⟩ := wf.unlink (getIndexOf_lt ps) hp4
    rcases hnc with hn0 | ⟨hn0, hn1, hn2, hn3⟩
    · -- only the previous block is free
      obtain ⟨h2, bl2, r2, wf2, ml, g2a, g2b, g2c, g2d, _, hd, fr2, eT⟩ :=
        wf1.merge_ok (b := b) (p := ps) (n := ns) hb (Or.inr ⟨hp1, hp2⟩) (Or.inl hn0) (by
          intro z
          rw [hLiff]
          constructor
          · rintro (h2 | h2)
            · exact Or.inr (Or.inl ⟨hp0, h2⟩)
            · exact Or.inl h2
          · rintro (h2 | ⟨_, h2⟩ | ⟨h0, _⟩)
            · exact Or.inr h2
            · exact Or.inl h2
            · exact absurd hn0 h0)
      have hr : coalesce b.1 h = .ok (b.1 - ps, h2) := by
        have e3 : ps + b.2 = ps + b.2 + ns := by
          rw [hn0, Nat.add_zero]
        rw [← eT, ← e3] at r2
        exact coalesce_run_prev t hb hp hn hp0 hn0 hp5 r1 r2
      refine ⟨h2, bl2, bk1, hr, wf2, ml, ?_, g2a.trans g1a, g2b.trans g1b, g2c.trans g1c,
        g2d.trans g1d, fun e _ => absurd e hp0, fun _ => hd, ?_⟩
      · intro i hi' y
        rw [m1 i hi' y]
        constructor
        · rintro ⟨hy, hyn⟩
          exact ⟨hy, (houtside i hi' y hy).mp ⟨Or.inr hyn, Or.inl hn0⟩⟩
        · rintro ⟨hy, ho⟩
          rcases ((houtside i hi' y hy).mpr ho).1 with h3 | h3
          · exact absurd h3 hp0
          · exact ⟨hy, h3⟩
      · intro w hw h3 h4
        rw [fr2 w h3 h4]
        exact fr1 w hw
    · -- both neighbours are free
      have hn3' : (b.1 + b.2, ns) ∈ bk1 (getIndexOf ns) := by
        rw [m1 _ (getIndexOf_lt ns)]
        exact ⟨hn3, hne⟩
      obtain ⟨h2, bk2, r2, wf2, m2, g2a, g2b, g2c, g2d, fr2⟩ :=
        wf1.unlink (getIndexOf_lt ns) hn3'
      obtain ⟨h3, bl3, r3, wf3, ml, g3a, g3b, g3c, g3d, _, hd, fr3, eT⟩ :=
        wf2.merge_ok (b := b) (p := ps) (n := ns) hb (Or.inr ⟨hp1, hp2⟩) (Or.inr hn1) (by
          intro z
          simp only [List.mem_cons, List.mem_singleton, List.not_mem_nil, or_false]
          constructor
          · rintro (h2 | h2 | h2)
            · exact Or.inr (Or.inr ⟨hn0, h2⟩)
            · exact Or.inr (Or.inl ⟨hp0, h2⟩)
            · exact Or.inl h2
          · rintro (h2 | ⟨_, h2⟩ | ⟨_, h2⟩)
            · exact Or.inr (Or.inr h2)
            · exact Or.inr (Or.inl h2)
            · exact Or.inl h2)
      have hr : coalesce b.1 h = .ok (b.1 - ps, h3) := by
        rw [← eT] at r3
        exact coalesce_run_both t hb hp hn hp0 hn0 hp5 (t.getSize hn1) r1 r2 r3
      refine ⟨h3, bl3, bk2, hr, wf3, ml, ?_, (g3a.trans g2a).trans g1a, (g3b.trans g2b).trans g1b,
        (g3c.trans g2c).trans g1c, (g3d.trans g2d).trans g1d, fun e _ => absurd e hp0,
        fun _ => hd, ?_⟩
      · intro i hi' y
        rw [m2 i hi' y, m1 i hi' y]
        constructor
        · rintro ⟨⟨hy, hyp⟩, hyn⟩
          exact ⟨hy, (houtside i hi' y hy).mp ⟨Or.inr hyp, Or.inr hyn⟩⟩
        · rintro ⟨hy, ho⟩
          have := (houtside i hi' y hy).mpr ho
          rcases this.1 with h3 | h3
          · exact absurd h3 hp0
          · rcases this.2 with h4 | h4
            · exact absurd h4 hn0
            · exact ⟨⟨hy, h3⟩, h4⟩
      · intro w hw h3' h4
        rw [fr3 w h3' h4, fr2 w (fun i hi' y hy => hw i hi' y ((m1 i hi' y).mp hy).1)]
        exact fr1 w hw

/-! ### Insertion at the head of a list -/

theorem getHead_ok (h : Heap) (i : Nat) : getHead i h = .ok (h.array i, h) := rfl

/-- A heap with the same geometry and consistent tags is tiled. -/
theorem Tiled.of_tags {h h' : Heap} {bl : List (Nat × Nat)} (t : Tiled h bl)
    (e1 : h'.lo = h.lo) (e2 : h'.brk = h.brk) (e3 : h'.heapStart = h.heapStart)
    (hm : ∀ b ∈ bl, (h'.mem b.1 = b.2 ∨ h'.mem b.1 = b.2 + 1) ∧
      h'.mem (b.1 + b.2 - 8) = h'.mem b.1) :
    Tiled h' bl where
  lo_le := by rw [e1, e3]; exact t.lo_le
  hs_pos := by rw [e3]; exact t.hs_pos
  hs_le := by rw [e2, e3]; exact t.hs_le
  small := by rw [e2, e3]; exact t.small
  brk_lt := by rw [e2]; exact t.brk_lt
  first := by rw [e2, e3]; exact t.first
  inside := by rw [e2, e3]; exact t.inside
  disj := t.disj
  before := by rw [e3]; exact t.before
  after := by rw [e2]; exact t.after
  tagged := fun b hb => ⟨(t.tagged b hb).1, (t.tagged b hb).2.1, (hm b hb).1, (hm b hb).2⟩

/-- A block that no list holds may be counted among the loose ones. -/
theorem WF.loosen {h : Heap} {bl : List (Nat × Nat)} {bk : Nat → List (Nat × Nat)}
    {L : List Nat} (wf : WF h bl bk L) {a : Nat}
    (hout : ∀ i, i < arrayLength → ∀ y ∈ bk i, y.1 ≠ a) : WF h bl bk (a :: L) := by
  obtain ⟨t, l⟩ := wf
  refine ⟨t, l.chains, l.members, l.nodup, ?_, ?_⟩
  · intro c hc hf
    rcases l.registered c hc hf with h1 | h1
    · exact Or.inl (List.mem_cons_of_mem _ h1)
    · exact Or.inr h1
  · intro i hi y hy hin
    rcases List.mem_cons.mp hin with h1 | h1
    · exact hout i hi y hy h1
    · exact l.loose_out i hi y hy h1

/-- The state after `freeInsert` in terms of what it writes: the head of the
list, the tags and links of the block, and the back link of the old head. -/
theorem WF.push_state {h h' : Heap} {bl : List (Nat × Nat)} {bk : Nat → List (Nat × Nat)}
    (b : Nat × Nat) {i : Nat} (wf : WF h bl bk [b.1]) (hb : b ∈ bl) (hidx : i = getIndexOf b.2)
    (g1 : h'.lo = h.lo) (g2 : h'.brk = h.brk) (g3 : h'.heapStart = h.heapStart)
    (ha : ∀ j, h'.array j = if j = i then b.1 else h.array j)
    (hb1 : h'.mem b.1 = b.2) (hb2 : h'.mem (b.1 + b.2 - 8) = b.2)
    (hb3 : h'.mem (b.1 + 8) = 0) (hb4 : h'.mem (b.1 + b.2 - 16) = h.array i)
    (ht : ∀ c ∈ bl, c ≠ b →
      h'.mem c.1 = h.mem c.1 ∧ h'.mem (c.1 + c.2 - 8) = h.mem (c.1 + c.2 - 8))
    (hs : ∀ j, j < arrayLength → ∀ y ∈ bk j,
      h'.mem (y.1 + 8) = (if y.1 = h.array i then b.1 else h.mem (y.1 + 8)) ∧
      h'.mem (y.1 + y.2 - 16) = h.mem (y.1 + y.2 - 16)) :
    WF h' bl (Function.update bk i (b :: bk i)) [] := by
  obtain ⟨t, l⟩ := wf
  have hi : i < arrayLength := by rw [hidx]; exact getIndexOf_lt b.2
  have hout : ∀ j, j < arrayLength → ∀ y ∈ bk j, y ≠ b := by
    intro j hj y hy e
    exact l.loose_out j hj y hy (by rw [e]; exact List.mem_singleton_self _)
  have hnz : ∀ j, j < arrayLength → ∀ y ∈ bk j, y.1 ≠ 0 := fun j hj =>
    Chain.ne_zero (l.chains j hj)
  have hhead : ∀ j, j < arrayLength → ∀ y ∈ bk j, y.1 = h.array i →
      j = i ∧ ∃ rest, bk i = y :: rest := by
    intro j hj y hy e
    have c := l.chains i hi
    cases hbi : bk i with
    | nil =>
      rw [hbi] at c
      exact absurd (e.trans c) (hnz j hj y hy)
    | cons q rest =>
      rw [hbi] at c
      have hq : q ∈ bk i := by rw [hbi]; exact List.mem_cons_self _ _
      have := Listed.same_node t l hi hj hq hy (e.trans c.1)
      exact ⟨this.2, rest, by rw [this.1]⟩
  have t' : Tiled h' bl := by
    apply t.of_tags g1 g2 g3
    intro c hc
    by_cases hcb : c = b
    · subst hcb
      exact ⟨Or.inl hb1, hb2.trans hb1.symm⟩
    · rw [(ht c hc hcb).1, (ht c hc hcb).2]
      exact ⟨t.header hc, (t.tagged c hc).2.2.2⟩
  refine ⟨t', ?_, ?_, ?_, ?_, ?_⟩
  · -- chains
    intro j hj
    by_cases hji : j = i
    · subst hji
      rw [Function.update_same, ha j, if_pos rfl]
      have fb := t.facts hb
      refine ⟨rfl, by omega, hb3, ?_⟩
      rw [hb4]
      apply Chain.relink (l.chains j hj)
      intro q rest eq
      have c := l.chains j hj
      rw [eq] at c
      have nd := l.nodup j hj
      rw [eq] at nd
      have hq : q ∈ bk j := by rw [eq]; exact List.mem_cons_self _ _
      have hq2 := hs j hj q hq
      rw [if_pos c.1.symm] at hq2
      refine ⟨hq2.1, hq2.2, fun y hy => ?_⟩
      have hy' : y ∈ bk j := by rw [eq]; exact List.mem_cons_of_mem _ hy
      have hy2 := hs j hj y hy'
      have hne : y.1 ≠ h.array j := by
        intro e
        have := (Listed.same_node t l hj hj hq hy' (e.trans c.1)).1
        subst this
        exact (List.nodup_cons.mp nd).1 hy
      rw [if_neg hne] at hy2
      exact hy2
    · rw [Function.update_noteq hji, ha j, if_neg hji]
      apply Chain.same_links _ (l.chains j hj)
      intro y hy
      have hy2 := hs j hj y hy
      rw [if_neg (fun e => hji (hhead j hj y hy e).1)] at hy2
      exact hy2
  · -- members
    intro j hj x hx
    have old : ∀ k, k < arrayLength → x ∈ bk k →
        x ∈ bl ∧ h'.mem x.1 = x.2 ∧ getIndexOf x.2 = k := by
      intro k hk hxk
      have m := l.members k hk x hxk
      exact ⟨m.1, by rw [(ht x m.1 (hout k hk x hxk)).1]; exact m.2.1, m.2.2⟩
    by_cases hji : j = i
    · subst hji
      rw [Function.update_same] at hx
      rcases List.mem_cons.mp hx with e | hx'
      · subst e
        exact ⟨hb, hb1, hidx.symm⟩
      · exact old j hj hx'
    · rw [Function.update_noteq hji] at hx
      exact old j hj hx
  · -- nodup
    intro j hj
    by_cases hji : j = i
    · subst hji
      rw [Function.update_same]
      exact List.nodup_cons.mpr ⟨fun hb' => hout j hj b hb' rfl, l.nodup j hj⟩
    · rw [Function.update_noteq hji]
      exact l.nodup j hj
  · -- registered
    intro c hc hf
    right
    by_cases hcb : c = b
    · subst hcb
      rw [← hidx, Function.update_same]
      exact List.mem_cons_self _ _
    · rw [(ht c hc hcb).1] at hf
      rcases l.registered c hc hf with h1 | h1
      · exact absurd (t.addr_inj hc hb (List.mem_singleton.mp h1)) hcb
      · by_cases hci : getIndexOf c.2 = i
        · rw [hci, Function.update_same]
          exact List.mem_cons_of_mem _ (hci ▸ h1)
        · rw [Function.update_noteq hci]
          exact h1
  · intro j hj y hy hin
    exact absurd hin (List.not_mem_nil _)

/-- Two different blocks do not overlap. -/
theorem Tiled.apart {h : Heap} {bl : List (Nat × Nat)} (t : Tiled h bl) {b c : Nat × Nat}
    (hb : b ∈ bl) (hc : c ∈ bl) (hne : c ≠ b) : b.1 + b.2 ≤ c.1 ∨ c.1 + c.2 ≤ b.1 := by
  rcases t.disj b hb c hc with d | d
  · exact absurd d.symm hne
  · exact d

/-- The function `freeInsert` on the loose block of a well-formed heap: the block becomes
the head of the list of its class and is marked free; no other tag changes. -/
theorem WF.push {h : Heap} {bl : List (Nat × Nat)} {bk : Nat → List (Nat × Nat)}
    (b : Nat × Nat) (wf : WF h bl bk [b.1]) (hb : b ∈ bl) :
    ∃ h', freeInsert b.1 h = .ok ((), h') ∧
      WF h' bl (Function.update bk (getIndexOf b.2) (b :: bk (getIndexOf b.2))) [] ∧
      h'.lo = h.lo ∧ h'.brk = h.brk ∧ h'.heapStart = h.heapStart ∧ h'.maxAddr = h.maxAddr ∧
      h'.mem b.1 = b.2 ∧
      (∀ c ∈ bl, c ≠ b → h'.mem c.1 = h.mem c.1) ∧
      (∀ w, w ≠ b.1 → w ≠ b.1 + 8 → w ≠ b.1 + b.2 - 16 → w ≠ b.1 + b.2 - 8 →
        w ≠ h.array (getIndexOf b.2) + 8 → h'.mem w = h.mem w) := by
  have wf0 := wf
  obtain ⟨t, l⟩ := wf
  have fb := t.facts hb
  have hi : getIndexOf b.2 < arrayLength := getIndexOf_lt b.2
  have hout : ∀ j, j < arrayLength → ∀ y ∈ bk j, y ≠ b := by
    intro j hj y hy e
    exact l.loose_out j hj y hy (by rw [e]; exact List.mem_singleton_self _)
  have hq : h.array (getIndexOf b.2) = 0 ∨
      ∃ q ∈ bk (getIndexOf b.2), q.1 = h.array (getIndexOf b.2) := by
    have c := l.chains _ hi
    cases hbi : bk (getIndexOf b.2) with
    | nil => rw [hbi] at c; exact Or.inl c
    | cons q rest =>
      rw [hbi] at c
      exact Or.inr ⟨q, List.mem_cons_self _ _, c.1.symm⟩
  have hold : u64 (h.array (getIndexOf b.2)) = h.array (getIndexOf b.2) := by
    rcases hq with h0 | ⟨q, hqi, hqe⟩
    · rw [h0]; rfl
    · have fq := t.facts (l.members _ hi q hqi).1
      exact Nat.mod_eq_of_lt (by omega)
  have hv0 : validAddr h b.1 = true := t.valid hb (by omega) (by omega) (by omega)
  have hv1 : validAddr h (b.1 + 8) = true := t.valid hb (by omega) (by omega) (by omega)
  have hv2 : validAddr h (b.1 + b.2 - 16) = true := t.valid hb (by omega) (by omega) (by omega)
  have hv3 : validAddr h (b.1 + b.2 - 8) = true := t.valid hb (by omega) (by omega) (by omega)
  -- the first steps
  have r1 : setPrev b.1 0 h = .ok ((), h.write (b.1 + 8) 0) := t.setPrev hb 0
  obtain ⟨h3, e3⟩ : ∃ h3 : Heap, h3 = ((h.write (b.1 + 8) 0).setArr (getIndexOf b.2) b.1).write
      (b.1 + b.2 - 16) (h.array (getIndexOf b.2)) := ⟨_, rfl⟩
  have g3a : h3.lo = h.lo := by rw [e3]; rfl
  have g3b : h3.brk = h.brk := by rw [e3]; rfl
  have g3c : h3.heapStart = h.heapStart := by rw [e3]; rfl
  have g3d : h3.maxAddr = h.maxAddr := by rw [e3]; rfl
  have a3 : ∀ j, h3.array j = if j = getIndexOf b.2 then b.1 else h.array j := by
    intro j; rw [e3]; rfl
  have base : ∀ w, h3.mem w = if w = b.1 + b.2 - 16 then h.array (getIndexOf b.2)
      else if w = b.1 + 8 then 0 else h.mem w := by
    intro w
    rw [e3, write_mem, hold]
    rfl
  have r3 : setNext b.1 (h.array (getIndexOf b.2))
      ((h.write (b.1 + 8) 0).setArr (getIndexOf b.2) b.1) = .ok ((), h3) := by
    have hv0' : validAddr ((h.write (b.1 + 8) 0).setArr (getIndexOf b.2) b.1) b.1 = true := hv0
    have hv2' : validAddr ((h.write (b.1 + 8) 0).setArr (getIndexOf b.2) b.1)
        (b.1 + b.2 - 16) = true := hv2
    have hh : ((h.write (b.1 + 8) 0).setArr (getIndexOf b.2) b.1).mem b.1 = b.2 ∨
        ((h.write (b.1 + 8) 0).setArr (getIndexOf b.2) b.1).mem b.1 = b.2 + 1 := by
      show (h.write (b.1 + 8) 0).mem b.1 = _ ∨ (h.write (b.1 + 8) 0).mem b.1 = _
      rw [write_mem_ne (by omega)]
      exact t.header hb
    rw [e3]
    exact setNext_ok _ hv0' (by omega) (by omega) fb.2.2.1 hh hv2'
  -- the back link of the old head
  have step4 : ∃ h4, (if h.array (getIndexOf b.2) ≠ 0
        then setPrev (h.array (getIndexOf b.2)) b.1 else pure ()) h3 = .ok ((), h4) ∧
      h4.lo = h.lo ∧ h4.brk = h.brk ∧ h4.heapStart = h.heapStart ∧ h4.maxAddr = h.maxAddr ∧
      (∀ j, h4.array j = if j = getIndexOf b.2 then b.1 else h.array j) ∧
      (∀ w, h4.mem w = if h.array (getIndexOf b.2) ≠ 0 ∧ w = h.array (getIndexOf b.2) + 8
        then b.1
        else if w = b.1 + b.2 - 16 then h.array (getIndexOf b.2)
        else if w = b.1 + 8 then 0 else h.mem w) := by
    rcases hq with h0 | ⟨q, hqi, hqe⟩
    · refine ⟨h3, by rw [if_neg (fun e => e h0)]; rfl, g3a, g3b, g3c, g3d, a3, ?_⟩
      intro w
      rw [if_neg (fun e => e.1 h0)]
      exact base w
    · have hqb := (l.members _ hi q hqi).1
      have fq := t.facts hqb
      have hne : h.array (getIndexOf b.2) ≠ 0 := by rw [← hqe]; omega
      have hvq : validAddr h3 (q.1 + 8) = true := by
        rw [validAddr_iff, g3a, g3b]
        exact (validAddr_iff h _).mp (t.valid hqb (by omega) (by omega) (by omega))
      refine ⟨h3.write (q.1 + 8) b.1, by rw [if_pos hne, ← hqe]; exact store_ok b.1 hvq,
        g3a, g3b, g3c, g3d, a3, ?_⟩
      intro w
      rw [write_mem, hqe, base w]
      by_cases hw : w = h.array (getIndexOf b.2) + 8
      · rw [if_pos hw, if_pos ⟨hne, hw⟩]
        exact Nat.mod_eq_of_lt (by omega)
      · have k : ¬ (h.array (getIndexOf b.2) ≠ 0 ∧ w = h.array (getIndexOf b.2) + 8) :=
          fun e => hw e.2
        rw [if_neg hw, if_neg k]
  obtain ⟨h4, r4, g4a, g4b, g4c, g4d, a4, m4⟩ := step4
  have hv4a : validAddr h4 b.1 = true := by
    rw [validAddr_iff, g4a, g4b]; exact (validAddr_iff h b.1).mp hv0
  have hv4b : validAddr h4 (b.1 + b.2 - 8) = true := by
    rw [validAddr_iff, g4a, g4b]; exact (validAddr_iff h _).mp hv3
  have r5 : setSizeAlloc b.1 b.2 .FREE h4 = .ok ((), (h4.write b.1 b.2).write (b.1 + b.2 - 8) b.2) :=
    setSizeAlloc_free (by omega) hv4a hv4b
  have hrun : freeInsert b.1 h = .ok ((), (h4.write b.1 b.2).write (b.1 + b.2 - 8) b.2) := by
    unfold freeInsert
    rw [run_bind, t.getSize hb]
    simp only []
    rw [run_bind, getIndex_ok h fb.1]
    simp only []
    rw [run_bind, getHead_ok]
    simp only []
    rw [run_bind, r1]
    simp only []
    rw [run_bind, setHead_ok]
    simp only []
    rw [run_bind, r3]
    simp only []
    by_cases h0 : h.array (getIndexOf b.2) ≠ 0
    · rw [if_pos h0] at r4 ⊢
      rw [run_bind, r4]
      exact r5
    · rw [if_neg h0] at r4 ⊢
      rw [run_bind, r4]
      exact r5
  have hu : u64 b.2 = b.2 := Nat.mod_eq_of_lt (by omega)
  have m5 : ∀ w, ((h4.write b.1 b.2).write (b.1 + b.2 - 8) b.2).mem w =
      if w = b.1 + b.2 - 8 then b.2 else if w = b.1 then b.2 else h4.mem w := by
    intro w
    rw [write_mem, write_mem, hu]
  -- the old head is another block
  have hqne : ∀ w, h.array (getIndexOf b.2) ≠ 0 ∧ w = h.array (getIndexOf b.2) + 8 →
      ∃ q ∈ bl, q ≠ b ∧ w = q.1 + 8 ∧ q.1 = h.array (getIndexOf b.2) := by
    rintro w ⟨h0, hw⟩
    rcases hq with h1 | ⟨q, hqi, hqe⟩
    · exact absurd h1 h0
    · exact ⟨q, (l.members _ hi q hqi).1, hout _ hi q hqi, by rw [hqe]; exact hw, hqe⟩
  -- the words of `b` against each other
  have nb : b.1 ≠ b.1 + b.2 - 8 ∧ b.1 + 8 ≠ b.1 + b.2 - 8 ∧ b.1 + 8 ≠ b.1 ∧
      b.1 + 8 ≠ b.1 + b.2 - 16 ∧ b.1 + b.2 - 16 ≠ b.1 + b.2 - 8 ∧ b.1 + b.2 - 16 ≠ b.1 := by
    clear * - fb; omega
  -- the tags of another block
  have tags : ∀ c ∈ bl, c ≠ b →
      ((h4.write b.1 b.2).write (b.1 + b.2 - 8) b.2).mem c.1 = h.mem c.1 ∧
      ((h4.write b.1 b.2).write (b.1 + b.2 - 8) b.2).mem (c.1 + c.2 - 8)
        = h.mem (c.1 + c.2 - 8) := by
    intro c hc hcb
    have fc := t.facts hc
    have hd := t.apart hb hc hcb
    have n : c.1 ≠ b.1 + b.2 - 8 ∧ c.1 ≠ b.1 ∧ c.1 ≠ b.1 + b.2 - 16 ∧ c.1 ≠ b.1 + 8 ∧
        c.1 + c.2 - 8 ≠ b.1 + b.2 - 8 ∧ c.1 + c.2 - 8 ≠ b.1 ∧
        c.1 + c.2 - 8 ≠ b.1 + b.2 - 16 ∧ c.1 + c.2 - 8 ≠ b.1 + 8 := by
      clear * - fb fc hd; omega
    have k1 : ¬ (h.array (getIndexOf b.2) ≠ 0 ∧ c.1 = h.array (getIndexOf b.2) + 8) := by
      intro e
      obtain ⟨q, hqb, _, e2, _⟩ := hqne _ e
      have fq := t.facts hqb
      exact (t.inner_ne hqb hc (w := q.1 + 8) (by clear * - fq; omega)
        (by clear * - fq; omega)).1 e2.symm
    have k2 : ¬ (h.array (getIndexOf b.2) ≠ 0 ∧
        c.1 + c.2 - 8 = h.array (getIndexOf b.2) + 8) := by
      intro e
      obtain ⟨q, hqb, _, e2, _⟩ := hqne _ e
      have fq := t.facts hqb
      exact (t.inner_ne hqb hc (w := q.1 + 8) (by clear * - fq; omega)
        (by clear * - fq; omega)).2 e2.symm
    constructor
    · rw [m5, if_neg n.1, if_neg n.2.1, m4, if_neg k1, if_neg n.2.2.1, if_neg n.2.2.2.1]
    · rw [m5, if_neg n.2.2.2.2.1, if_neg n.2.2.2.2.2.1, m4, if_neg k2, if_neg n.2.2.2.2.2.2.1,
        if_neg n.2.2.2.2.2.2.2]
  have hb1 : ((h4.write b.1 b.2).write (b.1 + b.2 - 8) b.2).mem b.1 = b.2 := by
    rw [m5, if_neg nb.1, if_pos rfl]
  refine ⟨_, hrun, ?_, g4a, g4b, g4c, g4d, hb1, fun c hc hcb => (tags c hc hcb).1, ?_⟩
  · have ga : ((h4.write b.1 b.2).write (b.1 + b.2 - 8) b.2).lo = h.lo := g4a
    have gb : ((h4.write b.1 b.2).write (b.1 + b.2 - 8) b.2).brk = h.brk := g4b
    have gc : ((h4.write b.1 b.2).write (b.1 + b.2 - 8) b.2).heapStart = h.heapStart := g4c
    apply wf0.push_state b hb rfl ga gb gc a4 hb1 _ _ _ tags
    · intro j hj y hy
      have hyb := (l.members j hj y hy).1
      have hyx := hout j hj y hy
      have fy := t.facts hyb
      have hd := t.apart hb hyb hyx
      have n : y.1 + 8 ≠ b.1 + b.2 - 8 ∧ y.1 + 8 ≠ b.1 ∧ y.1 + 8 ≠ b.1 + b.2 - 16 ∧
          y.1 + 8 ≠ b.1 + 8 ∧ y.1 + y.2 - 16 ≠ b.1 + b.2 - 8 ∧ y.1 + y.2 - 16 ≠ b.1 ∧
          y.1 + y.2 - 16 ≠ b.1 + b.2 - 16 ∧ y.1 + y.2 - 16 ≠ b.1 + 8 ∧ y.1 ≠ 0 := by
        clear * - fb fy hd; omega
      constructor
      · rw [m5, if_neg n.1, if_neg n.2.1, m4]
        by_cases hyh : y.1 = h.array (getIndexOf b.2)
        · rw [if_pos ⟨by rw [← hyh]; exact n.2.2.2.2.2.2.2.2, by rw [hyh]⟩, if_pos hyh]
        · have k : ¬ (h.array (getIndexOf b.2) ≠ 0 ∧ y.1 + 8 = h.array (getIndexOf b.2) + 8) :=
            fun e => hyh (Nat.add_right_cancel e.2)
          rw [if_neg k, if_neg n.2.2.1, if_neg n.2.2.2.1, if_neg hyh]
      · have k : ¬ (h.array (getIndexOf b.2) ≠ 0 ∧
            y.1 + y.2 - 16 = h.array (getIndexOf b.2) + 8) := by
          intro e
          obtain ⟨q, hqb, _, e2, _⟩ := hqne _ e
          exact (t.slots hqb hyb).1 e2.symm
        rw [m5, if_neg n.2.2.2.2.1, if_neg n.2.2.2.2.2.1, m4, if_neg k,
          if_neg n.2.2.2.2.2.2.1, if_neg n.2.2.2.2.2.2.2.1]
    · rw [m5, if_pos rfl]
    · have k : ¬ (h.array (getIndexOf b.2) ≠ 0 ∧ b.1 + 8 = h.array (getIndexOf b.2) + 8) := by
        intro e
        obtain ⟨q, hqb, hqn, e2, _⟩ := hqne _ e
        exact hqn (t.addr_inj hqb hb (Nat.add_right_cancel e2).symm)
      rw [m5, if_neg nb.2.1, if_neg nb.2.2.1, m4, if_neg k, if_neg nb.2.2.2.1, if_pos rfl]
    · have k : ¬ (h.array (getIndexOf b.2) ≠ 0 ∧
          b.1 + b.2 - 16 = h.array (getIndexOf b.2) + 8) := by
        intro e
        obtain ⟨q, hqb, hqn, e2, _⟩ := hqne _ e
        exact (t.slots hqb hb).1 e2.symm
      rw [m5, if_neg nb.2.2.2.2.1, if_neg nb.2.2.2.2.2, m4, if_neg k, if_pos rfl]
  · intro w w1 w2 w3 w4 w5
    rw [m5, if_neg w4, if_neg w1, m4, if_neg (fun e => w5 e.2), if_neg w3, if_neg w2]

/-! ### `mm_free` on a well-formed heap -/

/-- An allocated block is in no list. -/
theorem WF.alloc_out {h : Heap} {bl : List (Nat × Nat)} {bk : Nat → List (Nat × Nat)}
    {L : List Nat} (wf : WF h bl bk L) {b : Nat × Nat} (hb : b ∈ bl)
    (ha : h.mem b.1 = b.2 + 1) : ∀ i, i < arrayLength → ∀ y ∈ bk i, y.1 ≠ b.1 := by
  intro i hi y hy e
  have m := wf.2.members i hi y hy
  have := wf.1.addr_inj m.1 hb e
  subst this
  have := m.2.1
  omega

/-- The membership in a list after a push. -/
theorem mem_update_cons {bk : Nat → List (Nat × Nat)} {i0 : Nat} {m : Nat × Nat} (i : Nat)
    (y : Nat × Nat) :
    y ∈ Function.update bk i0 (m :: bk i0) i ↔ ((y = m ∧ i = i0) ∨ y ∈ bk i) := by
  by_cases hi : i = i0
  · subst hi
    rw [Function.update_same, List.mem_cons]
    constructor
    · rintro (h1 | h1)
      · exact Or.inl ⟨h1, rfl⟩
      · exact Or.inr h1
    · rintro (h1 | h1)
      · exact Or.inl h1.1
      · exact Or.inr h1
  · rw [Function.update_noteq hi]
    constructor
    · exact fun h1 => Or.inr h1
    · rintro (h1 | h1)
      · exact absurd h1.2 hi
      · exact h1

/-- The function `mm_free` on an allocated block of a well-formed heap: the block and its
free neighbours become one free block, registered in the list of its size;
the heap stays well formed and no block outside the merged one changes. -/
theorem WF.free_ok {h : Heap} {bl : List (Nat × Nat)} {bk : Nat → List (Nat × Nat)}
    (wf : WF h bl bk []) {b : Nat × Nat} (hb : b ∈ bl) (ha : h.mem b.1 = b.2 + 1)
    {p n : Nat} (hp : FreeBefore h bl b.1 p) (hn : FreeAfter h bl (b.1 + b.2) n) :
    ∃ h' bl' bk', mm_free (b.1 + 8) h = .ok ((), h') ∧ WF h' bl' bk' [] ∧
      (∀ c, c ∈ bl' ↔ (c = (b.1 - p, p + b.2 + n) ∨
        (c ∈ bl ∧ (c.1 + c.2 ≤ b.1 - p ∨ b.1 + b.2 + n ≤ c.1)))) ∧
      (∀ i, i < arrayLength → ∀ y, y ∈ bk' i ↔
        ((y = (b.1 - p, p + b.2 + n) ∧ i = getIndexOf (p + b.2 + n)) ∨
          (y ∈ bk i ∧ (y.1 + y.2 ≤ b.1 - p ∨ b.1 + b.2 + n ≤ y.1)))) ∧
      h'.lo = h.lo ∧ h'.brk = h.brk ∧ h'.heapStart = h.heapStart ∧ h'.maxAddr = h.maxAddr ∧
      h'.mem (b.1 - p) = p + b.2 + n ∧
      (∀ c ∈ bl, c.1 + c.2 ≤ b.1 - p ∨ b.1 + b.2 + n ≤ c.1 → h'.mem c.1 = h.mem c.1) := by
  have t := wf.1
  have l := wf.2
  have wfL := wf.loosen (wf.alloc_out hb ha)
  obtain ⟨h1, bl1, bk1, r1, wf1, mbl, mbk, g1a, g1b, g1c, g1d, _, _, fr1⟩ :=
    wfL.coalesce_ok hb hp hn
  have hm : (b.1 - p, p + b.2 + n) ∈ bl1 := (mbl _).mpr (Or.inl rfl)
  obtain ⟨h2, r2, wf2, g2a, g2b, g2c, g2d, hd, tg, _⟩ := WF.push (b.1 - p, p + b.2 + n) wf1 hm
  have hrun : mm_free (b.1 + 8) h = .ok ((), h2) := by
    unfold mm_free
    rw [if_neg (Nat.succ_ne_zero _), Nat.add_sub_cancel, run_bind, r1]
    exact r2
  refine ⟨h2, bl1, _, hrun, wf2, mbl, ?_, g2a.trans g1a, g2b.trans g1b, g2c.trans g1c,
    g2d.trans g1d, hd, ?_⟩
  · intro i hi y
    rw [mem_update_cons, mbk i hi y]
  · intro c hc ho
    have fc := t.facts hc
    have fb := t.facts hb
    have hc1 : c ∈ bl1 := (mbl c).mpr (Or.inr ⟨hc, ho⟩)
    have hne : c ≠ (b.1 - p, p + b.2 + n) := by
      intro e
      have e1 : c.1 = b.1 - p := by rw [e]
      have e2 : c.2 = p + b.2 + n := by rw [e]
      have hpp : p ≤ b.1 := by
        rcases hp with h0 | h0
        · rw [h0.1]; exact Nat.zero_le _
        · exact h0.1
      clear * - e1 e2 ho fc fb hpp
      omega
    rw [tg c hc1 hne]
    apply fr1
    · intro i hi y hy
      have hyb := (l.members i hi y hy).1
      have fy := t.facts hyb
      have i1 := t.inner_ne hyb hc (w := y.1 + 8) (by clear * - fy; omega) (by clear * - fy; omega)
      have i2 := t.inner_ne hyb hc (w := y.1 + y.2 - 16) (by clear * - fy; omega)
        (by clear * - fy; omega)
      exact ⟨fun e => i1.1 e.symm, fun e => i2.1 e.symm⟩
    · have hpp : p ≤ b.1 := by
        rcases hp with h0 | h0
        · rw [h0.1]; exact Nat.zero_le _
        · exact h0.1
      intro e
      have d := t.disj c hc
      rcases hp with h0 | h0
      · have e0 : c.1 = b.1 := by rw [e, h0.1]; rfl
        have := t.addr_inj hc hb e0
        subst this
        clear * - ho fc h0
        omega
      · have e0 : c.1 = (b.1 - p, p).1 := e
        have := t.addr_inj hc h0.2.1 e0
        subst this
        clear * - ho fc fb hpp
        simp only at ho fc
        omega
    · have hpp : p ≤ b.1 := by
        rcases hp with h0 | h0
        · rw [h0.1]; exact Nat.zero_le _
        · exact h0.1
      clear * - ho fc fb hpp
      omega

/-! ### Marking and splitting a block that is in no list -/

/-- The tags of a block that is in no list are set to allocated; words outside
the block are as before. -/
theorem WF.mark_state {h h' : Heap} {bl : List (Nat × Nat)} {bk : Nat → List (Nat × Nat)}
    {L : List Nat} (wf : WF h bl bk L) {b : Nat × Nat} (hb : b ∈ bl)
    (hout : ∀ i, i < arrayLength → b ∉ bk i)
    (g1 : h'.lo = h.lo) (g2 : h'.brk = h.brk) (g3 : h'.heapStart = h.heapStart)
    (ga : h'.array = h.array)
    (m1 : h'.mem b.1 = b.2 + 1) (m2 : h'.mem (b.1 + b.2 - 8) = b.2 + 1)
    (keep : ∀ w, w < b.1 ∨ b.1 + b.2 ≤ w → h'.mem w = h.mem w) :
    WF h' bl bk L := by
  obtain ⟨t, l⟩ := wf
  have fb := t.facts hb
  have kept : ∀ c ∈ bl, c ≠ b → ∀ w, c.1 ≤ w → w < c.1 + c.2 → h'.mem w = h.mem w := by
    intro c hc hcb w h1 h2
    have hd := t.apart hb hc hcb
    exact keep w (by clear * - hd h1 h2; omega)
  have t' : Tiled h' bl := by
    apply t.of_tags g1 g2 g3
    intro c hc
    by_cases hcb : c = b
    · subst hcb
      exact ⟨Or.inr m1, m2.trans m1.symm⟩
    · have fc := t.facts hc
      rw [kept c hc hcb _ (Nat.le_refl _) (by clear * - fc; omega),
        kept c hc hcb _ (by clear * - fc; omega) (by clear * - fc; omega)]
      exact ⟨t.header hc, (t.tagged c hc).2.2.2⟩
  have hne : ∀ i, i < arrayLength → ∀ x ∈ bk i, x ∈ bl ∧ x ≠ b := fun i hi x hx =>
    ⟨(l.members i hi x hx).1, fun e => hout i hi (e ▸ hx)⟩
  refine ⟨t', ?_, ?_, l.nodup, ?_, l.loose_out⟩
  · intro i hi
    rw [ga]
    apply Chain.same_links _ (l.chains i hi)
    intro x hx
    have ho := hne i hi x hx
    have fx := t.facts ho.1
    exact ⟨kept x ho.1 ho.2 _ (by clear * - fx; omega) (by clear * - fx; omega),
      kept x ho.1 ho.2 _ (by clear * - fx; omega) (by clear * - fx; omega)⟩
  · intro i hi x hx
    have ho := hne i hi x hx
    have fx := t.facts ho.1
    have m := l.members i hi x hx
    exact ⟨m.1, by rw [kept x ho.1 ho.2 _ (Nat.le_refl _) (by clear * - fx; omega)]; exact m.2.1,
      m.2.2⟩
  · intro c hc hf
    by_cases hcb : c = b
    · subst hcb
      rw [m1] at hf
      exact absurd hf (Nat.succ_ne_self _)
    · have fc := t.facts hc
      rw [kept c hc hcb _ (Nat.le_refl _) (by clear * - fc; omega)] at hf
      exact l.registered c hc hf

/-- A block that is in no list is cut in two allocated blocks, the first of
size `s`; words outside the block are as before. -/
theorem WF.split_state {h h' : Heap} {bl : List (Nat × Nat)} {bk : Nat → List (Nat × Nat)}
    {L : List Nat} (wf : WF h bl bk L) {b : Nat × Nat} (hb : b ∈ bl)
    (hout : ∀ i, i < arrayLength → b ∉ bk i) {s : Nat} (h32 : 32 ≤ s) (h16 : s % 16 = 0)
    (hr : s + 32 ≤ b.2)
    (g1 : h'.lo = h.lo) (g2 : h'.brk = h.brk) (g3 : h'.heapStart = h.heapStart)
    (ga : h'.array = h.array)
    (m1 : h'.mem b.1 = s + 1) (m2 : h'.mem (b.1 + s - 8) = s + 1)
    (m3 : h'.mem (b.1 + s) = b.2 - s + 1) (m4 : h'.mem (b.1 + b.2 - 8) = b.2 - s + 1)
    (keep : ∀ w, w < b.1 ∨ b.1 + b.2 ≤ w → h'.mem w = h.mem w) :
    WF h' ((b.1, s) :: (b.1 + s, b.2 - s) ::
      bl.filter (fun c => decide (c.1 + c.2 ≤ b.1 ∨ b.1 + b.2 ≤ c.1))) bk L := by
  obtain ⟨t, l⟩ := wf
  have fb := t.facts hb
  have memf : ∀ c, c ∈ bl.filter (fun c => decide (c.1 + c.2 ≤ b.1 ∨ b.1 + b.2 ≤ c.1)) ↔
      c ∈ bl ∧ (c.1 + c.2 ≤ b.1 ∨ b.1 + b.2 ≤ c.1) := by
    intro c
    rw [List.mem_filter, decide_eq_true_iff]
  have old : ∀ c ∈ bl, c = b ∨ (c.1 + c.2 ≤ b.1 ∨ b.1 + b.2 ≤ c.1) := by
    intro c hc
    by_cases hcb : c = b
    · exact Or.inl hcb
    · rcases t.apart hb hc hcb with d | d
      · exact Or.inr (Or.inr d)
      · exact Or.inr (Or.inl d)
  have mem3 : ∀ c, c ∈ bl → (c.1 + c.2 ≤ b.1 ∨ b.1 + b.2 ≤ c.1) →
      c ∈ (b.1, s) :: (b.1 + s, b.2 - s) ::
        bl.filter (fun c => decide (c.1 + c.2 ≤ b.1 ∨ b.1 + b.2 ≤ c.1)) :=
    fun c hc ho => List.mem_cons_of_mem _ (List.mem_cons_of_mem _ ((memf c).mpr ⟨hc, ho⟩))
  have cases3 : ∀ c, c ∈ (b.1, s) :: (b.1 + s, b.2 - s) ::
        bl.filter (fun c => decide (c.1 + c.2 ≤ b.1 ∨ b.1 + b.2 ≤ c.1)) →
      (c.1 = b.1 ∧ c.2 = s) ∨ (c.1 = b.1 + s ∧ c.2 = b.2 - s) ∨
        (c ∈ bl ∧ (c.1 + c.2 ≤ b.1 ∨ b.1 + b.2 ≤ c.1)) := by
    intro c hc
    rcases List.mem_cons.mp hc with e | hc
    · exact Or.inl ⟨by rw [e], by rw [e]⟩
    · rcases List.mem_cons.mp hc with e | hc
      · exact Or.inr (Or.inl ⟨by rw [e], by rw [e]⟩)
      · exact Or.inr (Or.inr ((memf c).mp hc))
  have kept : ∀ c ∈ bl, (c.1 + c.2 ≤ b.1 ∨ b.1 + b.2 ≤ c.1) → ∀ w, c.1 ≤ w → w < c.1 + c.2 →
      h'.mem w = h.mem w := by
    intro c hc ho w h1 h2
    exact keep w (by clear * - ho h1 h2; omega)
  have hne : ∀ i, i < arrayLength → ∀ x ∈ bk i,
      x ∈ bl ∧ (x.1 + x.2 ≤ b.1 ∨ b.1 + b.2 ≤ x.1) := by
    intro i hi x hx
    have hxb := (l.members i hi x hx).1
    rcases old x hxb with e | ho
    · exact absurd (e ▸ hx) (hout i hi)
    · exact ⟨hxb, ho⟩
  constructor
  · constructor
    · rw [g1, g3]; exact t.lo_le
    · rw [g3]; exact t.hs_pos
    · rw [g2, g3]; exact t.hs_le
    · rw [g2, g3]; exact t.small
    · rw [g2]; exact t.brk_lt
    · -- first
      rw [g2, g3]
      rcases t.first with h1 | ⟨c, hc, ec⟩
      · exact Or.inl h1
      · right
        rcases old c hc with e | ho
        · exact ⟨(b.1, s), List.mem_cons_self _ _, by rw [← ec, e]⟩
        · exact ⟨c, mem3 c hc ho, ec⟩
    · -- inside
      rw [g2, g3]
      intro c hc
      rcases cases3 c hc with ⟨e1, e2⟩ | ⟨e1, e2⟩ | ⟨hc', _⟩
      · rw [e1, e2]; clear * - fb hr; omega
      · rw [e1, e2]; clear * - fb hr h16; omega
      · exact t.inside c hc'
    · -- disj
      intro c hc d hd
      rcases cases3 c hc with ⟨c1, c2⟩ | ⟨c1, c2⟩ | ⟨hc', hco⟩
      · rcases cases3 d hd with ⟨d1, d2⟩ | ⟨d1, d2⟩ | ⟨hd', hdo⟩
        · exact Or.inl (Prod.ext (c1.trans d1.symm) (c2.trans d2.symm))
        · right; rw [c1, c2, d1, d2]; clear * - hr; omega
        · right; rw [c1, c2]; clear * - hr hdo; omega
      · rcases cases3 d hd with ⟨d1, d2⟩ | ⟨d1, d2⟩ | ⟨hd', hdo⟩
        · right; rw [c1, c2, d1, d2]; clear * - hr; omega
        · exact Or.inl (Prod.ext (c1.trans d1.symm) (c2.trans d2.symm))
        · right; rw [c1, c2]; clear * - hr hdo; omega
      · rcases cases3 d hd with ⟨d1, d2⟩ | ⟨d1, d2⟩ | ⟨hd', hdo⟩
        · right; rw [d1, d2]; clear * - hr hco; omega
        · right; rw [d1, d2]; clear * - hr hco; omega
        · exact t.disj c hc' d hd'
    · -- before
      rw [g3]
      intro c hc
      rcases cases3 c hc with ⟨c1, c2⟩ | ⟨c1, c2⟩ | ⟨hc', hco⟩
      · rw [c1]
        rcases t.before b hb with h1 | ⟨d, hd, ed⟩
        · exact Or.inl h1
        · exact Or.inr ⟨d, mem3 d hd (Or.inl (Nat.le_of_eq ed)), ed⟩
      · exact Or.inr ⟨(b.1, s), List.mem_cons_self _ _, c1.symm⟩
      · rcases t.before c hc' with h1 | ⟨d, hd, ed⟩
        · exact Or.inl h1
        · right
          rcases old d hd with e | ho
          · refine ⟨(b.1 + s, b.2 - s), List.mem_cons_of_mem _ (List.mem_cons_self _ _), ?_⟩
            rw [e] at ed
            show b.1 + s + (b.2 - s) = c.1
            clear * - ed hr; omega
          · exact ⟨d, mem3 d hd ho, ed⟩
    · -- after
      rw [g2]
      intro c hc
      rcases cases3 c hc with ⟨c1, c2⟩ | ⟨c1, c2⟩ | ⟨hc', hco⟩
      · exact Or.inr ⟨(b.1 + s, b.2 - s), List.mem_cons_of_mem _ (List.mem_cons_self _ _),
          by rw [c1, c2]⟩
      · have e : c.1 + c.2 = b.1 + b.2 := by rw [c1, c2]; clear * - hr; omega
        rw [e]
        rcases t.after b hb with h1 | ⟨d, hd, ed⟩
        · exact Or.inl h1
        · exact Or.inr ⟨d, mem3 d hd (Or.inr (Nat.le_of_eq ed.symm)), ed⟩
      · rcases t.after c hc' with h1 | ⟨d, hd, ed⟩
        · exact Or.inl h1
        · right
          rcases old d hd with e | ho
          · exact ⟨(b.1, s), List.mem_cons_self _ _, by rw [← ed, e]⟩
          · exact ⟨d, mem3 d hd ho, ed⟩
    · -- tagged
      intro c hc
      rcases cases3 c hc with ⟨c1, c2⟩ | ⟨c1, c2⟩ | ⟨hc', hco⟩
      · rw [c1, c2, m1, m2]
        exact ⟨h32, h16, Or.inr rfl, rfl⟩
      · have e : b.1 + s + (b.2 - s) - 8 = b.1 + b.2 - 8 := by clear * - hr; omega
        rw [c1, c2, e, m3, m4]
        exact ⟨by clear * - hr; omega, by clear * - hr h16 fb; omega, Or.inr rfl, rfl⟩
      · have fc := t.facts hc'
        rw [kept c hc' hco _ (Nat.le_refl _) (by clear * - fc; omega),
          kept c hc' hco _ (by clear * - fc; omega) (by clear * - fc; omega)]
        exact t.tagged c hc'
  · constructor
    · intro i hi
      rw [ga]
      apply Chain.same_links _ (l.chains i hi)
      intro x hx
      have ho := hne i hi x hx
      have fx := t.facts ho.1
      exact ⟨kept x ho.1 ho.2 _ (by clear * - fx; omega) (by clear * - fx; omega),
        kept x ho.1 ho.2 _ (by clear * - fx; omega) (by clear * - fx; omega)⟩
    · intro i hi x hx
      have ho := hne i hi x hx
      have fx := t.facts ho.1
      have m := l.members i hi x hx
      exact ⟨mem3 x ho.1 ho.2,
        by rw [kept x ho.1 ho.2 _ (Nat.le_refl _) (by clear * - fx; omega)]; exact m.2.1, m.2.2⟩
    · exact l.nodup
    · intro c hc hf
      rcases cases3 c hc with ⟨c1, c2⟩ | ⟨c1, c2⟩ | ⟨hc', hco⟩
      · rw [c1, m1, c2] at hf
        exact absurd hf (Nat.succ_ne_self _)
      · rw [c1, m3, c2] at hf
        exact absurd hf (Nat.succ_ne_self _)
      · have fc := t.facts hc'
        rw [kept c hc' hco _ (Nat.le_refl _) (by clear * - fc; omega)] at hf
        exact l.registered c hc' hf
    · exact l.loose_out

/-! ### `place` on a well-formed heap -/

theorem u32_sub {B s : Nat} (hs : s ≤ B) (hB : B < 2 ^ 32) : u32 (B + 2 ^ 32 - s) = B - s := by
  unfold u32
  omega

theorem setPrev_ok {h : Heap} {a : Nat} (v : Nat) (hv : validAddr h (a + 8) = true) :
    setPrev a v h = .ok ((), h.write (a + 8) v) := store_ok v hv

/-- The branch of `place` that keeps the whole block. -/
theorem WF.place_whole {h : Heap} {bl : List (Nat × Nat)} {bk : Nat → List (Nat × Nat)}
    {b : Nat × Nat}
    (wf : WF h bl bk [b.1]) (hb : b ∈ bl) :
    ∃ h', (∀ (β : Type) (f : Unit → M β), (do
        setSizeAlloc b.1 b.2 .ALLOCATED
        setNext b.1 0
        let y ← setPrev b.1 0
        f y : M β) h = f () h') ∧
      WF h' bl bk [] ∧
      h'.lo = h.lo ∧ h'.brk = h.brk ∧ h'.heapStart = h.heapStart ∧ h'.maxAddr = h.maxAddr ∧
      h'.mem b.1 = b.2 + 1 ∧ (∀ w, w < b.1 ∨ b.1 + b.2 ≤ w → h'.mem w = h.mem w) := by
  have t := wf.1
  have fb := t.facts hb
  have hout : ∀ i, i < arrayLength → b ∉ bk i := fun i hi hx =>
    wf.2.loose_out i hi b hx (List.mem_singleton_self _)
  have hv0 : validAddr h b.1 = true :=
    t.valid hb (Nat.le_refl _) (by clear * - fb; omega) (by clear * - fb; omega)
  have hv1 : validAddr h (b.1 + 8) = true :=
    t.valid hb (by clear * - fb; omega) (by clear * - fb; omega) (by clear * - fb; omega)
  have hv2 : validAddr h (b.1 + b.2 - 16) = true :=
    t.valid hb (by clear * - fb; omega) (by clear * - fb; omega) (by clear * - fb; omega)
  have hv3 : validAddr h (b.1 + b.2 - 8) = true :=
    t.valid hb (by clear * - fb; omega) (by clear * - fb; omega) (by clear * - fb; omega)
  have d : b.1 ≠ b.1 + b.2 - 8 ∧ b.1 ≠ b.1 + b.2 - 16 ∧ b.1 ≠ b.1 + 8 ∧
      b.1 + b.2 - 8 ≠ b.1 + b.2 - 16 ∧ b.1 + b.2 - 8 ≠ b.1 + 8 ∧ b.2 + 1 < 2 ^ 64 ∧
      b.2 % 2 = 0 := by
    clear * - fb; omega
  obtain ⟨h2, e2⟩ : ∃ h2 : Heap, h2 = (h.write b.1 (b.2 + 1)).write (b.1 + b.2 - 8) (b.2 + 1) :=
    ⟨_, rfl⟩
  have r2 : setSizeAlloc b.1 b.2 .ALLOCATED h = .ok ((), h2) := by
    rw [e2]; exact setSizeAlloc_alloc d.2.2.2.2.2.2 hv0 hv3
  have hd2 : h2.mem b.1 = b.2 + 1 := by
    rw [e2, write_mem_ne d.1, write_mem_eq d.2.2.2.2.2.1]
  have hf2 : h2.mem (b.1 + b.2 - 8) = b.2 + 1 := by
    rw [e2, write_mem_eq d.2.2.2.2.2.1]
  have r3 : setNext b.1 0 h2 = .ok ((), h2.write (b.1 + b.2 - 16) 0) := by
    have hv0' : validAddr h2 b.1 = true := by rw [e2]; exact hv0
    have hv2' : validAddr h2 (b.1 + b.2 - 16) = true := by rw [e2]; exact hv2
    exact setNext_ok 0 hv0' d.2.2.2.2.2.2 (by clear * - fb; omega) fb.2.2.1 (Or.inr hd2) hv2'
  have r4 : setPrev b.1 0 (h2.write (b.1 + b.2 - 16) 0)
      = .ok ((), (h2.write (b.1 + b.2 - 16) 0).write (b.1 + 8) 0) := by
    have hv1' : validAddr (h2.write (b.1 + b.2 - 16) 0) (b.1 + 8) = true := by
      rw [e2]; exact hv1
    exact setPrev_ok 0 hv1'
  have hd4 : ((h2.write (b.1 + b.2 - 16) 0).write (b.1 + 8) 0).mem b.1 = b.2 + 1 := by
    rw [write_mem_ne d.2.2.1, write_mem_ne d.2.1, hd2]
  have hf4 : ((h2.write (b.1 + b.2 - 16) 0).write (b.1 + 8) 0).mem (b.1 + b.2 - 8) = b.2 + 1 := by
    rw [write_mem_ne d.2.2.2.2.1, write_mem_ne d.2.2.2.1, hf2]
  have keep : ∀ w, w < b.1 ∨ b.1 + b.2 ≤ w →
      ((h2.write (b.1 + b.2 - 16) 0).write (b.1 + 8) 0).mem w = h.mem w := by
    intro w hw
    have n : w ≠ b.1 + 8 ∧ w ≠ b.1 + b.2 - 16 ∧ w ≠ b.1 + b.2 - 8 ∧ w ≠ b.1 := by
      clear * - fb hw; omega
    rw [write_mem_ne n.1, write_mem_ne n.2.1, e2, write_mem_ne n.2.2.1, write_mem_ne n.2.2.2]
  have g : ((h2.write (b.1 + b.2 - 16) 0).write (b.1 + 8) 0).lo = h.lo ∧
      ((h2.write (b.1 + b.2 - 16) 0).write (b.1 + 8) 0).brk = h.brk ∧
      ((h2.write (b.1 + b.2 - 16) 0).write (b.1 + 8) 0).heapStart = h.heapStart ∧
      ((h2.write (b.1 + b.2 - 16) 0).write (b.1 + 8) 0).maxAddr = h.maxAddr ∧
      ((h2.write (b.1 + b.2 - 16) 0).write (b.1 + 8) 0).array = h.array := by
    rw [e2]; exact ⟨rfl, rfl, rfl, rfl, rfl⟩
  have wf4 := wf.mark_state hb hout g.1 g.2.1 g.2.2.1 g.2.2.2.2 hd4 hf4 keep
  refine ⟨_, ?_, ?_, g.1, g.2.1, g.2.2.1, g.2.2.2.1, hd4, keep⟩
  · intro β f
    rw [run_bind, r2]
    simp only []
    rw [run_bind, r3]
    simp only []
    rw [run_bind, r4]
  · apply wf4.shrink
    · intro z hz
      exact absurd hz (List.not_mem_nil _)
    · intro c hc hf hin
      have e := wf4.1.addr_inj hc hb (List.mem_singleton.mp hin)
      rw [e, hd4] at hf
      exact absurd hf (Nat.succ_ne_self _)

/-- The branch of `place` that splits the block. -/
theorem WF.place_split {h : Heap} {bl : List (Nat × Nat)} {bk : Nat → List (Nat × Nat)}
    {b : Nat × Nat} (wf : WF h bl bk [b.1]) (hb : b ∈ bl) {s : Nat} (h32 : 32 ≤ s)
    (h16 : s % 16 = 0) (hr : s + 32 ≤ b.2) :
    ∃ h' bl' bk', (∀ (β : Type) (f : Unit → M β), (do
        setSizeAlloc (b.1 + s) (b.2 - s) .ALLOCATED
        setSizeAlloc b.1 s .ALLOCATED
        setNext b.1 0
        setPrev b.1 0
        setNext (b.1 + s) 0
        setPrev (b.1 + s) 0
        let y ← mm_free (b.1 + s + 8)
        f y : M β) h = f () h') ∧
      WF h' bl' bk' [] ∧
      h'.lo = h.lo ∧ h'.brk = h.brk ∧ h'.heapStart = h.heapStart ∧ h'.maxAddr = h.maxAddr ∧
      (b.1, s) ∈ bl' ∧ h'.mem b.1 = s + 1 ∧
      (∃ n, (b.1 + s, b.2 - s + n) ∈ bl' ∧ h'.mem (b.1 + s) = b.2 - s + n ∧
        (b.1 + s, b.2 - s + n) ∈ bk' (getIndexOf (b.2 - s + n))) ∧
      (∀ j, j < arrayLength → ∀ y ∈ bk' j, y.1 ≠ b.1) := by
  have t := wf.1
  have fb := t.facts hb
  have hout : ∀ i, i < arrayLength → b ∉ bk i := fun i hi hx =>
    wf.2.loose_out i hi b hx (List.mem_singleton_self _)
  have hv : ∀ a, b.1 ≤ a → a + 8 ≤ b.1 + b.2 → a % 8 = 0 → ∀ h' : Heap, h'.lo = h.lo →
      h'.brk = h.brk → validAddr h' a = true := by
    intro a h1 h2 h3 h' e1 e2
    rw [validAddr_iff, e1, e2]
    exact (validAddr_iff h a).mp (t.valid hb h1 h2 h3)
  -- the eight words written before `mm_free`
  have d : b.1 + s + (b.2 - s) - 8 ≠ b.1 + s ∧
      b.1 + s - 8 ≠ b.1 ∧
      b.1 ≠ b.1 + s + (b.2 - s) - 8 ∧ b.1 ≠ b.1 + s ∧
      b.1 + s ≠ b.1 + s - 8 ∧ b.1 + s ≠ b.1 ∧ b.1 + s ≠ b.1 + s - 16 ∧ b.1 + s ≠ b.1 + 8 ∧
      b.2 - s + 1 < 2 ^ 64 ∧ s + 1 < 2 ^ 64 ∧ (b.2 - s) % 2 = 0 ∧ s % 2 = 0 ∧
      16 ≤ s ∧ s < 2 ^ 32 ∧ 16 ≤ b.2 - s ∧ b.2 - s < 2 ^ 32 ∧
      b.1 ≠ b.1 + s - 16 ∧ b.1 ≠ b.1 + 8 := by
    clear * - fb h32 h16 hr; omega
  have va : (b.1 ≤ b.1 ∧ b.1 + 8 ≤ b.1 + b.2 ∧ b.1 % 8 = 0) ∧
      (b.1 ≤ b.1 + 8 ∧ b.1 + 8 + 8 ≤ b.1 + b.2 ∧ (b.1 + 8) % 8 = 0) ∧
      (b.1 ≤ b.1 + s - 16 ∧ b.1 + s - 16 + 8 ≤ b.1 + b.2 ∧ (b.1 + s - 16) % 8 = 0) ∧
      (b.1 ≤ b.1 + s - 8 ∧ b.1 + s - 8 + 8 ≤ b.1 + b.2 ∧ (b.1 + s - 8) % 8 = 0) ∧
      (b.1 ≤ b.1 + s ∧ b.1 + s + 8 ≤ b.1 + b.2 ∧ (b.1 + s) % 8 = 0) ∧
      (b.1 ≤ b.1 + s + 8 ∧ b.1 + s + 8 + 8 ≤ b.1 + b.2 ∧ (b.1 + s + 8) % 8 = 0) ∧
      (b.1 ≤ b.1 + s + (b.2 - s) - 16 ∧ b.1 + s + (b.2 - s) - 16 + 8 ≤ b.1 + b.2 ∧
        (b.1 + s + (b.2 - s) - 16) % 8 = 0) ∧
      (b.1 ≤ b.1 + s + (b.2 - s) - 8 ∧ b.1 + s + (b.2 - s) - 8 + 8 ≤ b.1 + b.2 ∧
        (b.1 + s + (b.2 - s) - 8) % 8 = 0) := by
    clear * - fb h32 h16 hr; omega
  obtain ⟨h2, e2⟩ : ∃ h2 : Heap, h2 = (h.write (b.1 + s) (b.2 - s + 1)).write
      (b.1 + s + (b.2 - s) - 8) (b.2 - s + 1) := ⟨_, rfl⟩
  obtain ⟨h3, e3⟩ : ∃ h3 : Heap, h3 = (h2.write b.1 (s + 1)).write (b.1 + s - 8) (s + 1) :=
    ⟨_, rfl⟩
  obtain ⟨h5, e5⟩ : ∃ h5 : Heap, h5 = (h3.write (b.1 + s - 16) 0).write (b.1 + 8) 0 := ⟨_, rfl⟩
  obtain ⟨h7, e7⟩ : ∃ h7 : Heap, h7 = (h5.write (b.1 + s + (b.2 - s) - 16) 0).write
      (b.1 + s + 8) 0 := ⟨_, rfl⟩
  have g2 : h2.lo = h.lo ∧ h2.brk = h.brk ∧ h2.heapStart = h.heapStart ∧ h2.maxAddr = h.maxAddr ∧
      h2.array = h.array := by rw [e2]; exact ⟨rfl, rfl, rfl, rfl, rfl⟩
  have g3 : h3.lo = h.lo ∧ h3.brk = h.brk ∧ h3.heapStart = h.heapStart ∧ h3.maxAddr = h.maxAddr ∧
      h3.array = h.array := by rw [e3]; exact g2
  have g5 : h5.lo = h.lo ∧ h5.brk = h.brk ∧ h5.heapStart = h.heapStart ∧ h5.maxAddr = h.maxAddr ∧
      h5.array = h.array := by rw [e5]; exact g3
  have g7 : h7.lo = h.lo ∧ h7.brk = h.brk ∧ h7.heapStart = h.heapStart ∧ h7.maxAddr = h.maxAddr ∧
      h7.array = h.array := by rw [e7]; exact g5
  have r2 : setSizeAlloc (b.1 + s) (b.2 - s) .ALLOCATED h = .ok ((), h2) := by
    rw [e2]
    exact setSizeAlloc_alloc d.2.2.2.2.2.2.2.2.2.2.1
      (hv _ va.2.2.2.2.1.1 va.2.2.2.2.1.2.1 va.2.2.2.2.1.2.2 h rfl rfl)
      (hv _ va.2.2.2.2.2.2.2.1 va.2.2.2.2.2.2.2.2.1 va.2.2.2.2.2.2.2.2.2 h rfl rfl)
  have r3 : setSizeAlloc b.1 s .ALLOCATED h2 = .ok ((), h3) := by
    rw [e3]
    exact setSizeAlloc_alloc d.2.2.2.2.2.2.2.2.2.2.2.1
      (hv _ va.1.1 va.1.2.1 va.1.2.2 h2 g2.1 g2.2.1)
      (hv _ va.2.2.2.1.1 va.2.2.2.1.2.1 va.2.2.2.1.2.2 h2 g2.1 g2.2.1)
  have hd3 : h3.mem b.1 = s + 1 := by
    rw [e3, write_mem_ne d.2.1.symm, write_mem_eq d.2.2.2.2.2.2.2.2.2.1]
  have hn3 : h3.mem (b.1 + s) = b.2 - s + 1 := by
    rw [e3, write_mem_ne d.2.2.2.2.1, write_mem_ne d.2.2.2.2.2.1, e2, write_mem_ne d.1.symm,
      write_mem_eq d.2.2.2.2.2.2.2.2.1]
  have r4 : setNext b.1 0 h3 = .ok ((), h3.write (b.1 + s - 16) 0) :=
    setNext_ok 0 (hv _ va.1.1 va.1.2.1 va.1.2.2 h3 g3.1 g3.2.1) d.2.2.2.2.2.2.2.2.2.2.2.1
      d.2.2.2.2.2.2.2.2.2.2.2.2.1 d.2.2.2.2.2.2.2.2.2.2.2.2.2.1 (Or.inr hd3)
      (hv _ va.2.2.1.1 va.2.2.1.2.1 va.2.2.1.2.2 h3 g3.1 g3.2.1)
  have r5 : setPrev b.1 0 (h3.write (b.1 + s - 16) 0) = .ok ((), h5) := by
    rw [e5]
    exact setPrev_ok 0 (hv _ va.2.1.1 va.2.1.2.1 va.2.1.2.2 _ g3.1 g3.2.1)
  have hn5 : h5.mem (b.1 + s) = b.2 - s + 1 := by
    rw [e5, write_mem_ne d.2.2.2.2.2.2.2.1, write_mem_ne d.2.2.2.2.2.2.1, hn3]
  have r6 : setNext (b.1 + s) 0 h5 = .ok ((), h5.write (b.1 + s + (b.2 - s) - 16) 0) :=
    setNext_ok 0 (hv _ va.2.2.2.2.1.1 va.2.2.2.2.1.2.1 va.2.2.2.2.1.2.2 h5 g5.1 g5.2.1)
      d.2.2.2.2.2.2.2.2.2.2.1 d.2.2.2.2.2.2.2.2.2.2.2.2.2.2.1
      d.2.2.2.2.2.2.2.2.2.2.2.2.2.2.2.1 (Or.inr hn5)
      (hv _ va.2.2.2.2.2.2.1.1 va.2.2.2.2.2.2.1.2.1 va.2.2.2.2.2.2.1.2.2 h5 g5.1 g5.2.1)
  have r7 : setPrev (b.1 + s) 0 (h5.write (b.1 + s + (b.2 - s) - 16) 0) = .ok ((), h7) := by
    rw [e7]
    exact setPrev_ok 0 (hv _ va.2.2.2.2.2.1.1 va.2.2.2.2.2.1.2.1 va.2.2.2.2.2.1.2.2 _ g5.1 g5.2.1)
  -- the words of the final state
  have m7 : ∀ w, h7.mem w =
      if w = b.1 + s + 8 then 0 else if w = b.1 + s + (b.2 - s) - 16 then 0
      else if w = b.1 + 8 then 0 else if w = b.1 + s - 16 then 0
      else if w = b.1 + s - 8 then s + 1 else if w = b.1 then s + 1
      else if w = b.1 + s + (b.2 - s) - 8 then b.2 - s + 1
      else if w = b.1 + s then b.2 - s + 1 else h.mem w := by
    intro w
    have u0 : u64 0 = 0 := rfl
    have u1 : u64 (s + 1) = s + 1 := Nat.mod_eq_of_lt d.2.2.2.2.2.2.2.2.2.1
    have u2 : u64 (b.2 - s + 1) = b.2 - s + 1 := Nat.mod_eq_of_lt d.2.2.2.2.2.2.2.2.1
    rw [e7, e5, e3, e2]
    simp only [write_mem, u0, u1, u2]
  have dd : (b.1 ≠ b.1 + s + 8 ∧ b.1 ≠ b.1 + s + (b.2 - s) - 16 ∧ b.1 ≠ b.1 + 8 ∧
      b.1 ≠ b.1 + s - 16 ∧ b.1 ≠ b.1 + s - 8) ∧
      (b.1 + s - 8 ≠ b.1 + s + 8 ∧ b.1 + s - 8 ≠ b.1 + s + (b.2 - s) - 16 ∧
        b.1 + s - 8 ≠ b.1 + 8 ∧ b.1 + s - 8 ≠ b.1 + s - 16) ∧
      (b.1 + s ≠ b.1 + s + 8 ∧ b.1 + s ≠ b.1 + s + (b.2 - s) - 16 ∧ b.1 + s ≠ b.1 + 8 ∧
        b.1 + s ≠ b.1 + s - 16 ∧ b.1 + s ≠ b.1 + s - 8 ∧ b.1 + s ≠ b.1 ∧
        b.1 + s ≠ b.1 + s + (b.2 - s) - 8) ∧
      (b.1 + b.2 - 8 ≠ b.1 + s + 8 ∧ b.1 + b.2 - 8 ≠ b.1 + s + (b.2 - s) - 16 ∧
        b.1 + b.2 - 8 ≠ b.1 + 8 ∧ b.1 + b.2 - 8 ≠ b.1 + s - 16 ∧ b.1 + b.2 - 8 ≠ b.1 + s - 8 ∧
        b.1 + b.2 - 8 ≠ b.1 ∧ b.1 + b.2 - 8 = b.1 + s + (b.2 - s) - 8) := by
    clear * - fb h32 h16 hr; omega
  have k1 : h7.mem b.1 = s + 1 := by
    rw [m7, if_neg dd.1.1, if_neg dd.1.2.1, if_neg dd.1.2.2.1, if_neg dd.1.2.2.2.1,
      if_neg dd.1.2.2.2.2, if_pos rfl]
  have k2 : h7.mem (b.1 + s - 8) = s + 1 := by
    rw [m7, if_neg dd.2.1.1, if_neg dd.2.1.2.1, if_neg dd.2.1.2.2.1, if_neg dd.2.1.2.2.2,
      if_pos rfl]
  have k3 : h7.mem (b.1 + s) = b.2 - s + 1 := by
    rw [m7, if_neg dd.2.2.1.1, if_neg dd.2.2.1.2.1, if_neg dd.2.2.1.2.2.1,
      if_neg dd.2.2.1.2.2.2.1, if_neg dd.2.2.1.2.2.2.2.1, if_neg dd.2.2.1.2.2.2.2.2.1,
      if_neg dd.2.2.1.2.2.2.2.2.2, if_pos rfl]
  have k4 : h7.mem (b.1 + b.2 - 8) = b.2 - s + 1 := by
    rw [m7, if_neg dd.2.2.2.1, if_neg dd.2.2.2.2.1, if_neg dd.2.2.2.2.2.1,
      if_neg dd.2.2.2.2.2.2.1, if_neg dd.2.2.2.2.2.2.2.1, if_neg dd.2.2.2.2.2.2.2.2.1,
      if_pos dd.2.2.2.2.2.2.2.2.2]
  have keep : ∀ w, w < b.1 ∨ b.1 + b.2 ≤ w → h7.mem w = h.mem w := by
    intro w hw
    have n : w ≠ b.1 + s + 8 ∧ w ≠ b.1 + s + (b.2 - s) - 16 ∧ w ≠ b.1 + 8 ∧ w ≠ b.1 + s - 16 ∧
        w ≠ b.1 + s - 8 ∧ w ≠ b.1 ∧ w ≠ b.1 + s + (b.2 - s) - 8 ∧ w ≠ b.1 + s := by
      clear * - fb h32 h16 hr hw; omega
    rw [m7, if_neg n.1, if_neg n.2.1, if_neg n.2.2.1, if_neg n.2.2.2.1, if_neg n.2.2.2.2.1,
      if_neg n.2.2.2.2.2.1, if_neg n.2.2.2.2.2.2.1, if_neg n.2.2.2.2.2.2.2]
  have wf7L := wf.split_state hb hout h32 h16 hr g7.1 g7.2.1 g7.2.2.1 g7.2.2.2.2 k1 k2 k3 k4 keep
  have hA : (b.1, s) ∈ (b.1, s) :: (b.1 + s, b.2 - s) ::
      bl.filter (fun c => decide (c.1 + c.2 ≤ b.1 ∨ b.1 + b.2 ≤ c.1)) := List.mem_cons_self _ _
  have hR : (b.1 + s, b.2 - s) ∈ (b.1, s) :: (b.1 + s, b.2 - s) ::
      bl.filter (fun c => decide (c.1 + c.2 ≤ b.1 ∨ b.1 + b.2 ≤ c.1)) :=
    List.mem_cons_of_mem _ (List.mem_cons_self _ _)
  have wf7 : WF h7 ((b.1, s) :: (b.1 + s, b.2 - s) ::
      bl.filter (fun c => decide (c.1 + c.2 ≤ b.1 ∨ b.1 + b.2 ≤ c.1))) bk [] := by
    apply wf7L.shrink
    · intro z hz
      exact absurd hz (List.not_mem_nil _)
    · intro c hc hf hin
      have e := wf7L.1.addr_inj hc hA (List.mem_singleton.mp hin)
      rw [e] at hf
      rw [k1] at hf
      exact absurd hf (Nat.succ_ne_self _)
  have hp : FreeBefore h7 ((b.1, s) :: (b.1 + s, b.2 - s) ::
      bl.filter (fun c => decide (c.1 + c.2 ≤ b.1 ∨ b.1 + b.2 ≤ c.1))) (b.1 + s, b.2 - s).1 0 :=
    Or.inl ⟨rfl, Or.inr ⟨(b.1, s), hA, rfl, k1⟩⟩
  obtain ⟨n, hn⟩ := (wf7.1.neighbours hR).2
  obtain ⟨h8, bl8, bk8, r8, wf8, mbl, mbk, g8a, g8b, g8c, g8d, hd8, tg8⟩ :=
    wf7.free_ok hR k3 hp hn
  dsimp only at r8 mbl mbk hd8 tg8
  rw [Nat.sub_zero] at mbl mbk hd8 tg8
  rw [Nat.zero_add] at mbl mbk hd8
  have hA8 : (b.1, s) ∈ bl8 := (mbl _).mpr (Or.inr ⟨hA, Or.inl (Nat.le_refl _)⟩)
  refine ⟨h8, bl8, bk8, ?_, wf8, g8a.trans g7.1, g8b.trans g7.2.1, g8c.trans g7.2.2.1,
    g8d.trans g7.2.2.2.1, hA8, ?_, ⟨n, (mbl _).mpr (Or.inl rfl), hd8,
      (mbk _ (getIndexOf_lt _) _).mpr (Or.inl ⟨rfl, rfl⟩)⟩, ?_⟩
  · intro β f
    rw [run_bind, r2]
    simp only []
    rw [run_bind, r3]
    simp only []
    rw [run_bind, r4]
    simp only []
    rw [run_bind, r5]
    simp only []
    rw [run_bind, r6]
    simp only []
    rw [run_bind, r7]
    simp only []
    rw [run_bind, r8]
  · rw [tg8 _ hA (Or.inl (Nat.le_refl _))]
    exact k1
  · intro j hj y hy
    rcases (mbk j hj y).mp hy with ⟨e, _⟩ | ⟨hyk, _⟩
    · rw [e]
      exact d.2.2.2.2.2.1
    · intro e
      have hyb := (wf.2.members j hj y hyk).1
      have := t.addr_inj hyb hb e
      exact hout j hj (this ▸ hyk)


/-- The function `place` on a member of a list of a well-formed heap, with a needed size
`s` that the block can hold. -/
theorem WF.place_ok {h : Heap} {bl : List (Nat × Nat)} {bk : Nat → List (Nat × Nat)}
    (wf : WF h bl bk []) {i : Nat} (hi : i < arrayLength) {b : Nat × Nat} (hx : b ∈ bk i)
    {s : Nat} (h32 : 32 ≤ s) (h16 : s % 16 = 0) (hle : s ≤ b.2) (k : Nat) :
    ∃ h' bl' bk', place b.1 s k h = .ok (b.1 + 8, h') ∧ WF h' bl' bk' [] ∧
      h'.lo = h.lo ∧ h'.brk = h.brk ∧ h'.heapStart = h.heapStart ∧ h'.maxAddr = h.maxAddr ∧
      (∀ j, j < arrayLength → ∀ y ∈ bk' j, y.1 ≠ b.1) ∧
      ((s + 32 ≤ b.2 ∧ (b.1, s) ∈ bl' ∧ h'.mem b.1 = s + 1 ∧
          ∃ n, (b.1 + s, b.2 - s + n) ∈ bl' ∧ h'.mem (b.1 + s) = b.2 - s + n ∧
            (b.1 + s, b.2 - s + n) ∈ bk' (getIndexOf (b.2 - s + n))) ∨
        (b.2 < s + 32 ∧ (b.2 = s ∨ b.2 = s + 16) ∧ bl' = bl ∧ h'.mem b.1 = b.2 + 1 ∧
          (∀ j, j < arrayLength → ∀ y, y ∈ bk' j ↔ (y ∈ bk j ∧ y ≠ b)) ∧
          (∀ c ∈ bl, c ≠ b → h'.mem c.1 = h.mem c.1))) := by
  have t := wf.1
  have mx := wf.2.members i hi b hx
  have fb := t.facts mx.1
  have hsm := t.small
  have hB : b.2 + 32 < 2 ^ 32 := by clear * - fb hsm; omega
  obtain ⟨h1, bk1, r1, wf1, m1, g1a, g1b, g1c, g1d, fr1⟩ := wf.unlink hi hx
  have hsz : getSize b.1 h = .ok (b.2, h) := t.getSize mx.1
  by_cases hr : s + 32 ≤ b.2
  · obtain ⟨h8, bl8, bk8, r8, wf8, g8a, g8b, g8c, g8d, hA, hd, hrem, hno⟩ :=
      wf1.place_split mx.1 h32 h16 hr
    have hu : u32 (s + 32) ≤ b.2 := by
      rw [u32_id (by clear * - hB hr; omega)]
      exact hr
    refine ⟨h8, bl8, bk8, ?_, wf8, g8a.trans g1a, g8b.trans g1b, g8c.trans g1c, g8d.trans g1d,
      hno, Or.inl ⟨hr, hA, hd, hrem⟩⟩
    unfold place
    rw [run_bind, hsz]
    simp only []
    rw [run_bind, r1]
    simp only []
    rw [if_pos hu, u32_sub hle (by clear * - hB; omega)]
    exact r8 Nat (fun _ => pure (b.1 + 8))
  · obtain ⟨h4, r4, wf4, g4a, g4b, g4c, g4d, hd, keep⟩ := wf1.place_whole mx.1
    have hu : ¬ u32 (s + 32) ≤ b.2 := by
      rw [u32_id (by clear * - hB hle; omega)]
      exact hr
    have hout : ∀ j, j < arrayLength → ∀ y ∈ bk1 j, y.1 ≠ b.1 := by
      intro j hj y hy e
      have hy2 := (m1 j hj y).mp hy
      exact hy2.2 (t.addr_inj (wf.2.members j hj y hy2.1).1 mx.1 e)
    refine ⟨h4, bl, bk1, ?_, wf4, g4a.trans g1a, g4b.trans g1b, g4c.trans g1c, g4d.trans g1d,
      hout, Or.inr ⟨Nat.lt_of_not_le hr, ?_, rfl, hd, m1, ?_⟩⟩
    · unfold place
      rw [run_bind, hsz]
      simp only []
      rw [run_bind, r1]
      simp only []
      rw [if_neg hu]
      exact r4 Nat (fun _ => pure (b.1 + 8))
    · clear * - hr hle h16 fb; omega
    · intro c hc hcb
      have fc := t.facts hc
      have hd2 := t.apart mx.1 hc hcb
      rw [keep c.1 (by clear * - hd2 fc; omega)]
      apply fr1
      intro j hj y hy
      have hyb := (wf.2.members j hj y hy).1
      have fy := t.facts hyb
      have i1 := t.inner_ne hyb hc (w := y.1 + 8) (by clear * - fy; omega) (by clear * - fy; omega)
      have i2 := t.inner_ne hyb hc (w := y.1 + y.2 - 16) (by clear * - fy; omega)
        (by clear * - fy; omega)
      exact ⟨fun e => i1.1 e.symm, fun e => i2.1 e.symm⟩

/-! ### The first request on an empty heap -/

theorem hi_next {x : Nat} (hx : x < 2 ^ 64) : u64 (u64 (x + (2 ^ 64 - 1)) + 1) = x := by
  rcases Nat.eq_zero_or_pos x with h0 | h0
  · subst h0; rfl
  · rw [hi_eq h0 hx]
    unfold u64
    rw [Nat.sub_add_cancel h0]
    exact Nat.mod_eq_of_lt hx

theorem mem_sbrk_ok {h : Heap} {n : Nat} (hn : h.brk + n ≤ h.maxAddr) :
    mem_sbrk n h = .ok (some h.brk, { h with brk := h.brk + n }) := by
  unfold mem_sbrk
  rw [if_pos hn]

theorem mm_initLoop_succ (n : Nat) : mm_initLoop (n + 1) = (do
    let hi ← mem_heap_hi
    let nextHeapSpot := u64 (hi + 1)
    if nextHeapSpot % 16 ≠ 8 then
      let _ ← mem_sbrk 8
      mm_initLoop n
    else pure nextHeapSpot) := rfl

/-- The loop of `mm_init` stops at once when the end of the heap is 8 modulo
16. -/
theorem mm_initLoop_stop {h : Heap} (n : Nat) (h8 : h.brk % 16 = 8) (h64 : h.brk < 2 ^ 64) :
    mm_initLoop (n + 1) h = .ok (h.brk, h) := by
  rw [mm_initLoop_succ]
  rw [run_bind, mem_heap_hi_ok]
  simp only []
  rw [hi_next h64, if_neg (fun e => e h8)]
  rfl

/-- The loop of `mm_init` on a heap that ends at a multiple of 8 and can grow
by 8 bytes. -/
theorem mm_initLoop_ok {h : Heap} (hlo : h.brk % 8 = 0) (hroom : h.brk + 8 ≤ h.maxAddr)
    (hmax : h.maxAddr < 2 ^ 64) :
    ∃ h', mm_initLoop 3 h = .ok (h'.brk, h') ∧ h'.lo = h.lo ∧ h'.maxAddr = h.maxAddr ∧
      h'.array = h.array ∧ h'.mem = h.mem ∧ h.brk ≤ h'.brk ∧ h'.brk ≤ h.brk + 8 ∧
      h'.brk % 16 = 8 := by
  by_cases h8 : h.brk % 16 = 8
  · exact ⟨h, mm_initLoop_stop 2 h8 (by omega), rfl, rfl, rfl, rfl, Nat.le_refl _,
      Nat.le_add_right _ _, h8⟩
  · have h8' : ({ h with brk := h.brk + 8 } : Heap).brk % 16 = 8 := by
      show (h.brk + 8) % 16 = 8
      omega
    have h64' : ({ h with brk := h.brk + 8 } : Heap).brk < 2 ^ 64 := by
      show h.brk + 8 < 2 ^ 64
      omega
    refine ⟨{ h with brk := h.brk + 8 }, ?_, rfl, rfl, rfl, rfl, Nat.le_add_right _ _,
      Nat.le_refl _, h8'⟩
    rw [mm_initLoop_succ]
    rw [run_bind, mem_heap_hi_ok]
    simp only []
    rw [hi_next (by omega), if_pos h8, run_bind, mem_sbrk_ok hroom]
    exact mm_initLoop_stop 1 h8' h64'

theorem run_bind_ok {α β : Type} {m : M α} {f : α → M β} {h h' : Heap} {a : α}
    (e : m h = .ok (a, h')) : (m >>= f) h = f a h' := by
  rw [run_bind, e]

theorem run_modify (f : Heap → Heap) (h : Heap) : (modify f : M Unit) h = .ok ((), f h) := rfl

/-- The function `mm_init` on a heap that ends at a multiple of 8 and can grow by 8 bytes:
the heap then starts where it ends, 8 modulo 16, and every list is empty. -/
theorem mm_init_run (h0 : Heap) (hlo : h0.brk % 8 = 0) (hroom : h0.brk + 8 ≤ h0.maxAddr)
    (hmax : h0.maxAddr < 2 ^ 64) :
    ∃ h, mm_init h0 = .ok (0, h) ∧ h.lo = h0.lo ∧ h.maxAddr = h0.maxAddr ∧
      h.heapStart = h.brk ∧ h0.brk ≤ h.brk ∧ h.brk ≤ h0.brk + 8 ∧ h.brk % 16 = 8 ∧
      (∀ j, j < arrayLength → h.array j = 0) := by
  obtain ⟨h1, r1, g1, g2, g3, _, g5, g6, g7⟩ :=
    mm_initLoop_ok (h := (fun h : Heap =>
      { h with array := fun j => if j < arrayLength then 0 else h.array j }) h0) hlo hroom hmax
  dsimp only at r1
  refine ⟨{ h1 with heapStart := h1.brk }, ?_, g1, g2, rfl, g5, g6, g7, ?_⟩
  · unfold mm_init
    rw [run_bind, run_modify]
    dsimp only
    rw [run_bind_ok r1, run_bind, run_modify]
    rfl
  · intro j hj
    show h1.array j = 0
    rw [g3]
    show (if j < arrayLength then 0 else h0.array j) = 0
    rw [if_pos hj]


theorem extendLoop_succ (n i iter prev : Nat) :
    extendLoop 16 32 (n + 1) i iter prev = (do
      setSizeAlloc iter 32 .FREE
      setPrev iter prev
      setNext iter (if 16 - 1 = i then 0 else iter + 32)
      extendLoop 16 32 n (i + 1) (iter + 32) iter) := rfl

/-- The loop of `extend_heap` for class 0: it formats `left` blocks of 32
bytes from `iter` on, linked one after the other, the first one to `prev`. -/
theorem extendLoop_ok : ∀ (left i iter prev : Nat) (h : Heap), i + left = 16 → h.lo ≤ iter →
    iter + 32 * left ≤ h.brk → iter % 8 = 0 → h.brk < 2 ^ 64 → prev < 2 ^ 64 →
    ∃ h', extendLoop 16 32 left i iter prev h
        = .ok (if left = 0 then prev else iter + 32 * (left - 1), h') ∧
      h'.lo = h.lo ∧ h'.brk = h.brk ∧ h'.heapStart = h.heapStart ∧ h'.maxAddr = h.maxAddr ∧
      h'.array = h.array ∧
      (∀ w, w < iter ∨ iter + 32 * left ≤ w → h'.mem w = h.mem w) ∧
      (∀ k, k < left → h'.mem (iter + 32 * k) = 32 ∧ h'.mem (iter + 32 * k + 24) = 32 ∧
        h'.mem (iter + 32 * k + 8) = (if k = 0 then prev else iter + 32 * (k - 1)) ∧
        h'.mem (iter + 32 * k + 16) = (if i + k = 15 then 0 else iter + 32 * (k + 1))) := by
  intro left
  induction left with
  | zero =>
    intro i iter prev h _ _ _ _ _ _
    exact ⟨h, rfl, rfl, rfl, rfl, rfl, rfl, fun _ _ => rfl, fun k hk => absurd hk (Nat.not_lt_zero k)⟩
  | succ n ih =>
    intro i iter prev h hi hlo hbrk h8 h64 hprev
    have va : ∀ h' : Heap, h'.lo = h.lo → h'.brk = h.brk →
        validAddr h' iter = true ∧ validAddr h' (iter + 8) = true ∧
        validAddr h' (iter + 32 - 16) = true ∧ validAddr h' (iter + 32 - 8) = true := by
      intro h' e1 e2
      rw [validAddr_iff, validAddr_iff, validAddr_iff, validAddr_iff, e1, e2]
      clear * - hlo hbrk h8
      omega
    obtain ⟨np, enp⟩ : ∃ np : Nat, np = if 16 - 1 = i then 0 else iter + 32 := ⟨_, rfl⟩
    have hnp : np < 2 ^ 64 := by
      rw [enp]
      clear * - hbrk h64
      split <;> omega
    obtain ⟨h3, e3⟩ : ∃ h3 : Heap, h3 = ((((h.write iter 32).write (iter + 32 - 8) 32).write
        (iter + 8) prev).write (iter + 32 - 16) np) := ⟨_, rfl⟩
    have g3 : h3.lo = h.lo ∧ h3.brk = h.brk ∧ h3.heapStart = h.heapStart ∧
        h3.maxAddr = h.maxAddr ∧ h3.array = h.array := by
      rw [e3]; exact ⟨rfl, rfl, rfl, rfl, rfl⟩
    have m3 : ∀ w, h3.mem w = if w = iter + 32 - 16 then np else if w = iter + 8 then prev
        else if w = iter + 32 - 8 then 32 else if w = iter then 32 else h.mem w := by
      intro w
      have u1 : u64 np = np := Nat.mod_eq_of_lt hnp
      have u2 : u64 prev = prev := Nat.mod_eq_of_lt hprev
      have u3 : u64 32 = 32 := rfl
      rw [e3]
      simp only [write_mem, u1, u2, u3]
    have r1 : setSizeAlloc iter 32 .FREE h = .ok ((), (h.write iter 32).write (iter + 32 - 8) 32) :=
      setSizeAlloc_free rfl (va h rfl rfl).1 (va h rfl rfl).2.2.2
    have r2 : setPrev iter prev ((h.write iter 32).write (iter + 32 - 8) 32)
        = .ok ((), (((h.write iter 32).write (iter + 32 - 8) 32).write (iter + 8) prev)) :=
      setPrev_ok prev (va ((h.write iter 32).write (iter + 32 - 8) 32) rfl rfl).2.1
    have r3 : setNext iter np (((h.write iter 32).write (iter + 32 - 8) 32).write (iter + 8) prev)
        = .ok ((), h3) := by
      rw [e3]
      have v2 := va (((h.write iter 32).write (iter + 32 - 8) 32).write (iter + 8) prev) rfl rfl
      apply setNext_ok np v2.1 (s := 32) rfl (by decide) (by decide) _ v2.2.2.1
      left
      have d : iter ≠ iter + 8 ∧ iter ≠ iter + 32 - 8 := by clear * -; omega
      rw [write_mem_ne d.1, write_mem_ne d.2, write_mem_eq (by decide)]
    obtain ⟨h', r4, g4a, g4b, g4c, g4d, g4e, fr, facts⟩ := ih (i + 1) (iter + 32) iter h3
      (by clear * - hi; omega) (by rw [g3.1]; clear * - hlo; omega)
      (by rw [g3.2.1]; clear * - hbrk; omega) (by clear * - h8; omega) (by rw [g3.2.1]; exact h64)
      (by clear * - hbrk h64; omega)
    refine ⟨h', ?_, g4a.trans g3.1, g4b.trans g3.2.1, g4c.trans g3.2.2.1, g4d.trans g3.2.2.2.1,
      g4e.trans g3.2.2.2.2, ?_, ?_⟩
    · rw [extendLoop_succ, run_bind_ok r1, run_bind_ok r2, ← enp, run_bind_ok r3, r4]
      have e : (if n = 0 then iter else iter + 32 + 32 * (n - 1))
          = (if n + 1 = 0 then prev else iter + 32 * (n + 1 - 1)) := by
        rw [if_neg (Nat.succ_ne_zero n)]
        by_cases hn : n = 0
        · rw [if_pos hn]
          clear * - hn; omega
        · rw [if_neg hn]
          clear * - hn; omega
      rw [e]
    · intro w hw
      have n1 : (w < iter + 32 ∨ iter + 32 + 32 * n ≤ w) ∧ w ≠ iter + 32 - 16 ∧ w ≠ iter + 8 ∧
          w ≠ iter + 32 - 8 ∧ w ≠ iter := by
        clear * - hw; omega
      rw [fr w n1.1, m3, if_neg n1.2.1, if_neg n1.2.2.1, if_neg n1.2.2.2.1, if_neg n1.2.2.2.2]
    · intro k hk
      rcases Nat.eq_zero_or_pos k with k0 | kpos
      · subst k0
        have d : iter + 32 * 0 = iter ∧ iter + 24 = iter + 32 - 8 ∧ iter + 16 = iter + 32 - 16 ∧
            iter ≠ iter + 32 - 16 ∧ iter ≠ iter + 8 ∧ iter ≠ iter + 32 - 8 ∧
            iter + 32 - 8 ≠ iter + 32 - 16 ∧ iter + 32 - 8 ≠ iter + 8 ∧
            iter + 8 ≠ iter + 32 - 16 ∧ (iter < iter + 32) ∧ (iter + 8 < iter + 32) ∧
            (iter + 32 - 8 < iter + 32) ∧ (iter + 32 - 16 < iter + 32) := by
          clear * -; omega
        rw [d.1, d.2.1, d.2.2.1]
        rw [fr _ (Or.inl d.2.2.2.2.2.2.2.2.2.1), fr _ (Or.inl d.2.2.2.2.2.2.2.2.2.2.2.1),
          fr _ (Or.inl d.2.2.2.2.2.2.2.2.2.2.1), fr _ (Or.inl d.2.2.2.2.2.2.2.2.2.2.2.2)]
        refine ⟨?_, ?_, ?_, ?_⟩
        · rw [m3, if_neg d.2.2.2.1, if_neg d.2.2.2.2.1, if_neg d.2.2.2.2.2.1, if_pos rfl]
        · rw [m3, if_neg d.2.2.2.2.2.2.1, if_neg d.2.2.2.2.2.2.2.1, if_pos rfl]
        · rw [m3, if_neg d.2.2.2.2.2.2.2.2.1, if_pos rfl, if_pos rfl]
        · rw [m3, if_pos rfl, enp]
          by_cases h15 : i = 15
          · have c1 : 16 - 1 = i := h15.symm
            have c2 : i + 0 = 15 := h15
            rw [if_pos c1, if_pos c2]
          · have c1 : ¬ 16 - 1 = i := fun e => h15 e.symm
            have c2 : ¬ i + 0 = 15 := h15
            rw [if_neg c1, if_neg c2]
      · obtain ⟨k', ek⟩ : ∃ k', k = k' + 1 := ⟨k - 1, by clear * - kpos; omega⟩
        subst ek
        have f := facts k' (by clear * - hk; omega)
        have e : iter + 32 * (k' + 1) = iter + 32 + 32 * k' := by clear * -; omega
        rw [e]
        refine ⟨f.1, f.2.1, ?_, ?_⟩
        · rw [f.2.2.1, if_neg (Nat.succ_ne_zero k')]
          by_cases hk0 : k' = 0
          · rw [if_pos hk0]
            clear * - hk0; omega
          · rw [if_neg hk0]
            clear * - hk0; omega
        · rw [f.2.2.2]
          by_cases h15 : i + 1 + k' = 15
          · rw [if_pos h15, if_pos (by clear * - h15; omega)]
          · rw [if_neg h15, if_neg (by clear * - h15; omega)]
            clear * -; omega


theorem mem_batchFrom : ∀ (n a : Nat) (c : Nat × Nat),
    c ∈ batchFrom a 32 n ↔ ∃ k, k < n ∧ c = (a + 32 * k, 32) := by
  intro n
  induction n with
  | zero =>
    intro a c
    constructor
    · intro hc; exact absurd hc (List.not_mem_nil _)
    · rintro ⟨k, hk, _⟩; exact absurd hk (Nat.not_lt_zero k)
  | succ n ih =>
    intro a c
    show c ∈ (a, 32) :: batchFrom (a + 32) 32 n ↔ _
    rw [List.mem_cons, ih]
    constructor
    · rintro (e | ⟨k, hk, e⟩)
      · exact ⟨0, Nat.succ_pos n, e⟩
      · refine ⟨k + 1, Nat.succ_lt_succ hk, ?_⟩
        rw [e]
        exact Prod.ext (by show a + 32 + 32 * k = a + 32 * (k + 1); omega) rfl
    · rintro ⟨k, hk, e⟩
      rcases Nat.eq_zero_or_pos k with k0 | kpos
      · left; rw [e, k0]; rfl
      · right
        refine ⟨k - 1, by omega, ?_⟩
        rw [e]
        exact Prod.ext (by show a + 32 * k = a + 32 + 32 * (k - 1); omega) rfl

theorem nodup_batchFrom : ∀ (n a : Nat), (batchFrom a 32 n).Nodup := by
  intro n
  induction n with
  | zero => intro a; exact List.nodup_nil
  | succ n ih =>
    intro a
    show ((a, 32) :: batchFrom (a + 32) 32 n).Nodup
    refine List.nodup_cons.mpr ⟨?_, ih _⟩
    intro hin
    obtain ⟨k, _, e⟩ := (mem_batchFrom n (a + 32) _).mp hin
    have := congrArg Prod.fst e
    simp only at this
    omega

theorem chain_batchFrom {h : Heap} : ∀ (n a prev : Nat), 0 < a →
    (∀ k, k < n → h.mem (a + 32 * k + 8) = (if k = 0 then prev else a + 32 * (k - 1)) ∧
      h.mem (a + 32 * k + 16) = (if k + 1 = n then 0 else a + 32 * (k + 1))) →
    Chain h prev (if n = 0 then 0 else a) (batchFrom a 32 n) := by
  intro n
  induction n with
  | zero => intro a prev _ _; rfl
  | succ n ih =>
    intro a prev ha facts
    rw [if_neg (Nat.succ_ne_zero n)]
    show a = a ∧ a ≠ 0 ∧ h.mem (a + 8) = prev ∧
      Chain h a (h.mem (a + 32 - 16)) (batchFrom (a + 32) 32 n)
    have f0 := facts 0 (Nat.succ_pos n)
    rw [if_pos rfl] at f0
    refine ⟨rfl, Nat.pos_iff_ne_zero.mp ha, f0.1, ?_⟩
    have e : h.mem (a + 32 - 16) = if n = 0 then 0 else a + 32 := by
      have e1 : a + 32 - 16 = a + 32 * 0 + 16 := by omega
      rw [e1, f0.2]
      by_cases hn : n = 0
      · rw [if_pos hn, if_pos (by rw [hn])]
      · rw [if_neg hn, if_neg (by omega)]
    rw [e]
    apply ih (a + 32) a (by omega)
    intro k hk
    have f := facts (k + 1) (Nat.succ_lt_succ hk)
    have e2 : a + 32 + 32 * k = a + 32 * (k + 1) := by omega
    rw [e2]
    refine ⟨?_, ?_⟩
    · rw [f.1, if_neg (Nat.succ_ne_zero k)]
      by_cases hk0 : k = 0
      · rw [if_pos hk0]; omega
      · rw [if_neg hk0]; omega
    · rw [f.2]
      by_cases hkn : k + 1 = n
      · rw [if_pos hkn, if_pos (by omega)]
      · rw [if_neg hkn, if_neg (by omega)]
        omega

/-- A heap that consists of one batch of 16 free blocks of 32 bytes, linked
in the list of class 0 in the order of their addresses, is well formed. -/
theorem WF.of_batch {h : Heap} {a : Nat} (g1 : h.heapStart = a) (g2 : h.brk = a + 512)
    (g3 : h.lo ≤ a) (g4 : a % 8 = 0) (g5 : 0 < a) (g6 : a + 512 < 2 ^ 64)
    (h0 : h.array 0 = a) (hj : ∀ j, 1 ≤ j → j < arrayLength → h.array j = 0)
    (facts : ∀ k, k < 16 → h.mem (a + 32 * k) = 32 ∧ h.mem (a + 32 * k + 24) = 32 ∧
      h.mem (a + 32 * k + 8) = (if k = 0 then 0 else a + 32 * (k - 1)) ∧
      h.mem (a + 32 * k + 16) = (if k + 1 = 16 then 0 else a + 32 * (k + 1))) :
    WF h (batchFrom a 32 16) (classOnly 0 (batchFrom a 32 16)) [] := by
  have mb := mem_batchFrom 16 a
  have mk : ∀ k, k < 16 → (a + 32 * k, 32) ∈ batchFrom a 32 16 :=
    fun k hk => (mb _).mpr ⟨k, hk, rfl⟩
  constructor
  · constructor
    · rw [g1]; exact g3
    · rw [g1]; exact g5
    · rw [g1, g2]; exact Nat.le_add_right _ _
    · rw [g1, g2]; omega
    · rw [g2]; exact g6
    · right
      exact ⟨_, mk 0 (by decide), by rw [g1]; rfl⟩
    · intro b hb
      obtain ⟨k, hk, e⟩ := (mb b).mp hb
      rw [e, g1, g2]
      show a ≤ a + 32 * k ∧ a + 32 * k + 32 ≤ a + 512 ∧ (a + 32 * k) % 8 = 0
      omega
    · intro b hb c hc
      obtain ⟨k, hk, e⟩ := (mb b).mp hb
      obtain ⟨k', hk', e'⟩ := (mb c).mp hc
      rw [e, e']
      by_cases hkk : k = k'
      · left; rw [hkk]
      · right
        show a + 32 * k + 32 ≤ a + 32 * k' ∨ a + 32 * k' + 32 ≤ a + 32 * k
        omega
    · intro b hb
      obtain ⟨k, hk, e⟩ := (mb b).mp hb
      rw [e, g1]
      rcases Nat.eq_zero_or_pos k with k0 | kpos
      · left; rw [k0]; rfl
      · right
        exact ⟨_, mk (k - 1) (by omega), by show a + 32 * (k - 1) + 32 = a + 32 * k; omega⟩
    · intro b hb
      obtain ⟨k, hk, e⟩ := (mb b).mp hb
      rw [e, g2]
      by_cases hk15 : k = 15
      · left; rw [hk15]; rfl
      · right
        exact ⟨_, mk (k + 1) (by omega), by show a + 32 * (k + 1) = a + 32 * k + 32; omega⟩
    · intro b hb
      obtain ⟨k, hk, e⟩ := (mb b).mp hb
      rw [e]
      have f := facts k hk
      have e2 : a + 32 * k + 32 - 8 = a + 32 * k + 24 := by omega
      show 32 ≤ 32 ∧ 32 % 16 = 0 ∧ (h.mem (a + 32 * k) = 32 ∨ h.mem (a + 32 * k) = 32 + 1) ∧
        h.mem (a + 32 * k + 32 - 8) = h.mem (a + 32 * k)
      rw [e2, f.1, f.2.1]
      exact ⟨Nat.le_refl _, rfl, Or.inl rfl, rfl⟩
  · constructor
    · intro i hi
      by_cases hi0 : i = 0
      · subst hi0
        show Chain h 0 (h.array 0) (if 0 = 0 then batchFrom a 32 16 else [])
        rw [if_pos rfl, h0]
        exact chain_batchFrom 16 a 0 g5 (fun k hk => (facts k hk).2.2)
      · show Chain h 0 (h.array i) (if i = 0 then batchFrom a 32 16 else [])
        rw [if_neg hi0]
        exact hj i (by omega) hi
    · intro i hi x hx
      by_cases hi0 : i = 0
      · subst hi0
        have hx' : x ∈ batchFrom a 32 16 := by
          have : x ∈ (if 0 = 0 then batchFrom a 32 16 else []) := hx
          rw [if_pos rfl] at this
          exact this
        obtain ⟨k, hk, e⟩ := (mb x).mp hx'
        refine ⟨hx', ?_, ?_⟩
        · rw [e]; exact (facts k hk).1
        · rw [e]; rfl
      · have : x ∈ (if i = 0 then batchFrom a 32 16 else []) := hx
        rw [if_neg hi0] at this
        exact absurd this (List.not_mem_nil _)
    · intro i hi
      show (if i = 0 then batchFrom a 32 16 else []).Nodup
      by_cases hi0 : i = 0
      · rw [if_pos hi0]; exact nodup_batchFrom 16 a
      · rw [if_neg hi0]; exact List.nodup_nil
    · intro b hb _
      right
      obtain ⟨k, hk, e⟩ := (mb b).mp hb
      have e2 : getIndexOf b.2 = 0 := by rw [e]; rfl
      rw [e2]
      show b ∈ (if 0 = 0 then batchFrom a 32 16 else [])
      rw [if_pos rfl]
      exact hb
    · intro i hi y hy hin
      exact absurd hin (List.not_mem_nil _)


theorem roundUp_small {s : Nat} (h1 : 1 ≤ s) (h16 : s ≤ 16) : roundUp s = 16 := by
  unfold roundUp
  by_cases h : s % 16 = 0
  · rw [if_pos h]
    have : s = 16 := by omega
    rw [this]; rfl
  · rw [if_neg h]
    have : s - s % 16 + 16 = 16 := by omega
    rw [this]; rfl

theorem find_fit_empty {t i : Nat} {h : Heap} (h0 : h.array i = 0) :
    find_fit t i h = .ok (0, h) := by
  unfold find_fit
  rw [run_bind, getHead_ok]
  simp only []
  rw [get_bind_run, h0]
  rfl

theorem find_fit_head {t i z : Nat} {h : Heap} (h0 : h.array i ≠ 0)
    (hs : getSize (h.array i) h = .ok (z, h)) (hfit : ¬ t > z) :
    find_fit t i h = .ok (h.array i, h) := by
  unfold find_fit
  rw [run_bind, getHead_ok]
  simp only []
  rw [get_bind_run]
  show findLoop t ((h.brk - h.lo) / 8 + 1 + 1) (h.array i) h = _
  unfold findLoop
  rw [if_neg h0, run_bind, hs]
  simp only []
  rw [if_neg hfit]
  rfl

theorem write_same {h : Heap} {x v : Nat} (e : h.mem x = u64 v) (w : Nat) :
    (h.write x v).mem w = h.mem w := by
  rw [write_mem]
  by_cases hw : w = x
  · rw [if_pos hw, hw, e]
  · rw [if_neg hw]

/-- The function `extend_heap` for class 0 on a heap with room for a batch. -/
theorem extend_heap_first {h : Heap} (hlo : h.lo ≤ h.brk) (h8 : h.brk % 8 = 0)
    (hroom : h.brk + 512 ≤ h.maxAddr) (hmax : h.maxAddr < 2 ^ 64) :
    ∃ h', extend_heap 0 h = .ok (h.brk + 32 * 15, h') ∧
      h'.lo = h.lo ∧ h'.brk = h.brk + 512 ∧ h'.heapStart = h.heapStart ∧
      h'.maxAddr = h.maxAddr ∧ h'.array 0 = h.brk ∧ (∀ j, j ≠ 0 → h'.array j = h.array j) ∧
      (∀ k, k < 16 → h'.mem (h.brk + 32 * k) = 32 ∧ h'.mem (h.brk + 32 * k + 24) = 32 ∧
        h'.mem (h.brk + 32 * k + 8) = (if k = 0 then 0 else h.brk + 32 * (k - 1)) ∧
        h'.mem (h.brk + 32 * k + 16) = (if 0 + k = 15 then 0 else h.brk + 32 * (k + 1))) := by
  obtain ⟨hS, eS⟩ : ∃ hS : Heap, hS = ({ h with brk := h.brk + 512 } : Heap).setArr 0 h.brk :=
    ⟨_, rfl⟩
  have gS : hS.lo = h.lo ∧ hS.brk = h.brk + 512 ∧ hS.heapStart = h.heapStart ∧
      hS.maxAddr = h.maxAddr ∧ hS.array 0 = h.brk ∧ (∀ j, j ≠ 0 → hS.array j = h.array j) := by
    rw [eS]
    refine ⟨rfl, rfl, rfl, rfl, rfl, fun j hj => ?_⟩
    show (if j = 0 then h.brk else h.array j) = h.array j
    rw [if_neg hj]
  obtain ⟨h', r, g1, g2, g3, g4, g5, _, facts⟩ := extendLoop_ok 16 0 h.brk 0 hS rfl
    (by rw [gS.1]; exact hlo) (by rw [gS.2.1]) h8 (by rw [gS.2.1]; omega) (by decide)
  refine ⟨h', ?_, g1.trans gS.1, g2.trans gS.2.1, g3.trans gS.2.2.1, g4.trans gS.2.2.2.1,
    by rw [g5]; exact gS.2.2.2.2.1, fun j hj => by rw [g5]; exact gS.2.2.2.2.2 j hj, facts⟩
  unfold extend_heap
  have e512 : u32 (16 * 32) = 512 := by decide
  have e16 : (if 0 < 3 then 16 else 1) = 16 := by decide
  have e32 : u32 (1 <<< (0 + 5)) = 32 := by decide
  simp only [e16, e32, e512]
  rw [run_bind_ok (mem_sbrk_ok hroom)]
  simp only []
  rw [run_bind_ok (setHead_ok _ 0 h.brk), ← eS, r]
  rfl


/-- The first request of at most 16 bytes on an initialised heap without
blocks: one batch is created, its first block is returned, and the other 15
blocks are left in the list of class 0. -/
theorem mm_malloc_first {h : Heap} {s : Nat} (hs1 : 1 ≤ s) (hs16 : s ≤ 16)
    (ghs : h.heapStart = h.brk) (hlo : h.lo ≤ h.brk) (h8 : h.brk % 8 = 0) (hpos : 0 < h.brk)
    (hroom : h.brk + 512 ≤ h.maxAddr) (hmax : h.maxAddr < 2 ^ 64)
    (harr : ∀ j, j < arrayLength → h.array j = 0) :
    ∃ h' bk', mm_malloc s h = .ok (h.brk + 8, h') ∧ h'.brk = h.brk + 512 ∧
      h'.heapStart = h.brk ∧ h'.lo = h.lo ∧ h'.maxAddr = h.maxAddr ∧
      WF h' (batchFrom h.brk 32 16) bk' [] ∧ h'.mem h.brk = 33 ∧
      (∀ k, 1 ≤ k → k < 16 → h'.mem (h.brk + 32 * k) = 32) ∧
      (∀ y, y ∈ bk' 0 ↔ ∃ k, 1 ≤ k ∧ k < 16 ∧ y = (h.brk + 32 * k, 32)) ∧
      (∀ j, 1 ≤ j → j < arrayLength → bk' j = []) := by
  have hs0 : s ≠ 0 := by omega
  have hru : roundUp s = 16 := roundUp_small hs1 hs16
  have hidx : getIndex 32 h = .ok (0, h) := getIndex_ok h (Nat.le_refl 32)
  have hscan : mallocScan 32 (arrayLength - 0) 0 h = .ok (none, h) := by
    apply mallocScan_none 32 h 15 0
    intro i _ hi
    have hi' : i < 15 := by clear * - hi; omega
    rw [find_fit_empty (harr i hi')]
    rfl
  obtain ⟨hE, rE, e1, e2, e3, e4, e5, e6, facts⟩ := extend_heap_first hlo h8 hroom hmax
  have f15 := facts 15 (by decide)
  have hv : validAddr hE (h.brk + 32 * 15) = true ∧
      validAddr hE (h.brk + 32 * 15 + 32 - 16) = true := by
    rw [validAddr_iff, validAddr_iff, e1, e2]
    clear * - hlo h8
    omega
  obtain ⟨hN, eN⟩ : ∃ hN : Heap, hN = hE.write (h.brk + 32 * 15 + 32 - 16) 0 := ⟨_, rfl⟩
  have gN : hN.lo = hE.lo ∧ hN.brk = hE.brk ∧ hN.heapStart = hE.heapStart ∧
      hN.maxAddr = hE.maxAddr ∧ hN.array = hE.array := by
    rw [eN]; exact ⟨rfl, rfl, rfl, rfl, rfl⟩
  have rN : setNext (h.brk + 32 * 15) 0 hE = .ok ((), hN) := by
    rw [eN]
    exact setNext_ok 0 hv.1 (s := 32) rfl (by decide) (by decide) (Or.inl f15.1) hv.2
  have mN : ∀ w, hN.mem w = hE.mem w := by
    rw [eN]
    apply write_same
    have e : h.brk + 32 * 15 + 32 - 16 = h.brk + 32 * 15 + 16 := by clear * -; omega
    rw [e, f15.2.2.2]
    rfl
  have aN0 : hN.array 0 = h.brk := by rw [gN.2.2.2.2]; exact e5
  have wfN : WF hN (batchFrom h.brk 32 16) (classOnly 0 (batchFrom h.brk 32 16)) [] := by
    apply WF.of_batch (h := hN) ((gN.2.2.1.trans e3).trans ghs) (gN.2.1.trans e2)
      (by rw [gN.1, e1]; exact hlo) h8 hpos (by clear * - hroom hmax; omega) aN0
    · intro j h1 h2
      rw [gN.2.2.2.2, e6 j (by clear * - h1; omega)]
      exact harr j h2
    · intro k hk
      have f := facts k hk
      rw [mN, mN, mN, mN]
      refine ⟨f.1, f.2.1, f.2.2.1, ?_⟩
      rw [f.2.2.2]
      by_cases h15 : k = 15
      · rw [if_pos (by rw [h15]), if_pos (by rw [h15])]
      · rw [if_neg (by clear * - h15; omega), if_neg (by clear * - h15; omega)]
  have hb : (h.brk, 32) ∈ batchFrom h.brk 32 16 :=
    (mem_batchFrom 16 h.brk _).mpr ⟨0, by decide, rfl⟩
  have hx : (h.brk, 32) ∈ classOnly 0 (batchFrom h.brk 32 16) 0 := hb
  have hfit : find_fit 32 0 hN = .ok (h.brk, hN) := by
    have := find_fit_head (t := 32) (i := 0) (z := 32) (h := hN)
      (by rw [aN0]; exact Nat.pos_iff_ne_zero.mp hpos)
      (by rw [aN0]; exact wfN.1.getSize hb) (by decide)
    rw [aN0] at this
    exact this
  obtain ⟨h', bl', bk', rP, wf', g1, g2, g3, g4, _, hcase⟩ :=
    wfN.place_ok (i := 0) (by decide) hx (s := 32) (Nat.le_refl 32) rfl (Nat.le_refl 32) 0
  rcases hcase with ⟨hsplit, _⟩ | ⟨_, _, ebl, hd, mbk, tg⟩
  · exact absurd hsplit (by show ¬ 32 + 32 ≤ 32; decide)
  subst ebl
  refine ⟨h', bk', ?_, (g2.trans gN.2.1).trans e2, ((g3.trans gN.2.2.1).trans e3).trans ghs,
    (g1.trans gN.1).trans e1, (g4.trans gN.2.2.2.1).trans e4, wf', hd, ?_, ?_, ?_⟩
  · have e32 : u32 (16 + 16) = 32 := by decide
    have hne : ¬ h.brk + 32 * 15 = 0 := by clear * - hpos; omega
    have h00 : ¬ (0 : Nat) ≠ 0 := fun e => e rfl
    have hp : (pure PUnit.unit : M PUnit) hN = .ok (PUnit.unit, hN) := rfl
    unfold mm_malloc
    rw [if_neg hs0]
    simp only [hru, e32]
    rw [run_bind_ok hidx, run_bind_ok hscan]
    simp only []
    rw [run_bind_ok hidx, run_bind_ok (getHead_ok h 0), harr 0 (by decide), run_bind_ok rE,
      if_neg hne, run_bind_ok rN, if_neg h00, run_bind_ok hp, run_bind_ok hfit,
      if_pos (Nat.pos_iff_ne_zero.mp hpos)]
    exact rP
  · intro k h1 h2
    have hk : (h.brk + 32 * k, 32) ∈ batchFrom h.brk 32 16 :=
      (mem_batchFrom 16 h.brk _).mpr ⟨k, h2, rfl⟩
    have hne : (h.brk + 32 * k, 32) ≠ (h.brk, 32) := by
      intro e
      have := congrArg Prod.fst e
      simp only at this
      clear * - this h1
      omega
    have := tg _ hk hne
    simp only at this
    rw [this, mN]
    exact (facts k h2).1
  · intro y
    rw [mbk 0 (by decide) y]
    show (y ∈ (if 0 = 0 then batchFrom h.brk 32 16 else []) ∧ y ≠ (h.brk, 32)) ↔ _
    rw [if_pos rfl, mem_batchFrom]
    constructor
    · rintro ⟨⟨k, hk, e⟩, hne⟩
      refine ⟨k, ?_, hk, e⟩
      rcases Nat.eq_zero_or_pos k with k0 | kpos
      · rw [k0] at e
        exact absurd e hne
      · exact kpos
    · rintro ⟨k, h1, h2, e⟩
      refine ⟨⟨k, h2, e⟩, ?_⟩
      rw [e]
      intro e2
      have := congrArg Prod.fst e2
      simp only at this
      clear * - this h1
      omega
  · intro j h1 h2
    apply List.eq_nil_iff_forall_not_mem.mpr
    intro y hy
    have := ((mbk j h2 y).mp hy).1
    have hj0 : ¬ j = 0 := by clear * - h1; omega
    have h3 : y ∈ (if j = 0 then batchFrom h.brk 32 16 else []) := this
    rw [if_neg hj0] at h3
    exact absurd h3 (List.not_mem_nil _)

/-! ### The claims on well-formed heaps -/

set_option maxRecDepth 1000000 in
theorem twoBlocks_wf :
    WF twoBlocks (batchFrom 4104 32 16) (classOnly 0 ((batchFrom 4104 32 16).drop 2)) [] := by
  refine ⟨⟨?_, ?_, ?_, ?_, ?_, ?_, ?_, ?_, ?_, ?_, ?_⟩, ⟨?_, ?_, ?_, ?_, ?_⟩⟩
  all_goals decide!

set_option maxRecDepth 1000000 in
theorem sampleHeap_wf :
    WF sampleHeap (batchFrom 4104 128 16) (classOnly 2 ((batchFrom 4104 128 16).drop 1)) [] := by
  refine ⟨⟨?_, ?_, ?_, ?_, ?_, ?_, ?_, ?_, ?_, ?_, ?_⟩, ⟨?_, ?_, ?_, ?_, ?_⟩⟩
  all_goals decide!

/-- Claim C14: on the heap that `mm_init` makes of an empty region that can
grow by a batch, `mm_malloc(s)` with `1 ≤ s ≤ 16` needs a block of 32 bytes,
class 0, for which `extend_heap` asks `16 * 32` bytes; the heap grows by that
much and holds the 16 blocks of the batch; the call returns `heapStart + 8`,
the first block is marked allocated, and the other 15 blocks are free, of size
32, and are the members of list 0, the other lists being empty. -/
theorem mm_malloc_on_empty_heap (lo maxAddr s : Nat) (hlo : lo % 8 = 0)
    (hroom : lo + 520 ≤ maxAddr) (hmax : maxAddr < 2 ^ 64) (hs1 : 1 ≤ s) (hs16 : s ≤ 16) :
    ∃ h h' bk', mm_init (emptyHeap lo maxAddr) = .ok (0, h) ∧
      u32 (roundUp s + 16) = 32 ∧ getIndexOf 32 = 0 ∧
      u32 ((if getIndexOf 32 < 3 then 16 else 1) * u32 (1 <<< (getIndexOf 32 + 5))) = 16 * 32 ∧
      mm_malloc s h = .ok (h.heapStart + 8, h') ∧
      h'.brk = h.brk + 16 * 32 ∧ h'.heapStart = h.heapStart ∧
      WF h' (batchFrom h.heapStart 32 16) bk' [] ∧
      h'.mem h.heapStart = 32 + 1 ∧
      (∀ k, 1 ≤ k → k < 16 → h'.mem (h.heapStart + 32 * k) = 32) ∧
      (∀ y, y ∈ bk' 0 ↔ ∃ k, 1 ≤ k ∧ k < 16 ∧ y = (h.heapStart + 32 * k, 32)) ∧
      (∀ j, 1 ≤ j → j < arrayLength → bk' j = []) := by
  obtain ⟨h, r, g1, g2, g3, g4, g5, g6, g7⟩ :=
    mm_init_run (emptyHeap lo maxAddr) hlo
      (show lo + 8 ≤ maxAddr by clear * - hroom; omega) hmax
  have a1 : (emptyHeap lo maxAddr).lo = lo := rfl
  have a2 : (emptyHeap lo maxAddr).maxAddr = maxAddr := rfl
  have a3 : (emptyHeap lo maxAddr).brk = lo := rfl
  rw [a1] at g1
  rw [a2] at g2
  rw [a3] at g4 g5
  obtain ⟨h', bk', r', b1, b2, _, _, wf', hd, tg, m0, mj⟩ :=
    mm_malloc_first (h := h) hs1 hs16 g3 (by rw [g1]; exact g4) (by clear * - g6; omega)
      (by clear * - g6; omega) (by rw [g2]; clear * - g5 hroom; omega) (by rw [g2]; exact hmax) g7
  rw [← g3] at r' b2 wf' hd tg m0
  exact ⟨h, h', bk', r, by rw [roundUp_small hs1 hs16]; decide, by decide, by decide, r', b1, b2,
    wf', hd, tg, m0, mj⟩

/-- The theorem for C14 at the region that starts at 4096 and the request of
10 bytes. -/
theorem mm_malloc_on_empty_heap_witness :
    ∃ h h' bk', mm_init (emptyHeap 4096 1000000) = .ok (0, h) ∧
      u32 (roundUp 10 + 16) = 32 ∧ getIndexOf 32 = 0 ∧
      u32 ((if getIndexOf 32 < 3 then 16 else 1) * u32 (1 <<< (getIndexOf 32 + 5))) = 16 * 32 ∧
      mm_malloc 10 h = .ok (h.heapStart + 8, h') ∧
      h'.brk = h.brk + 16 * 32 ∧ h'.heapStart = h.heapStart ∧
      WF h' (batchFrom h.heapStart 32 16) bk' [] ∧
      h'.mem h.heapStart = 32 + 1 ∧
      (∀ k, 1 ≤ k → k < 16 → h'.mem (h.heapStart + 32 * k) = 32) ∧
      (∀ y, y ∈ bk' 0 ↔ ∃ k, 1 ≤ k ∧ k < 16 ∧ y = (h.heapStart + 32 * k, 32)) ∧
      (∀ j, 1 ≤ j → j < arrayLength → bk' j = []) :=
  mm_malloc_on_empty_heap 4096 1000000 10 (by decide) (by decide) (by decide) (by decide)
    (by decide)

/-- On a well-formed heap, for two allocated blocks `A = (a, sa)` and
`B = (a + sa, sb)`, `B` starting where `A` ends, `mm_free(A)` followed by
`mm_free(B)` succeeds and leaves a well-formed heap in which one free block
covers the bytes of both `A` and `B` and is a member of the list of the class
of its size. -/
theorem mm_free_merges_adjacent_blocks (h : Heap) (bl : List (Nat × Nat))
    (bk : Nat → List (Nat × Nat)) (a sa sb : Nat) (wf : WF h bl bk [])
    (hA : (a, sa) ∈ bl) (hB : (a + sa, sb) ∈ bl)
    (aA : h.mem a = sa + 1) (aB : h.mem (a + sa) = sb + 1) :
    ∃ h' bl' bk', (mm_free (a + 8) >>= fun _ => mm_free (a + sa + 8)) h = .ok ((), h') ∧
      WF h' bl' bk' [] ∧
      ∃ c ∈ bl', c.1 ≤ a ∧ a + sa + sb ≤ c.1 + c.2 ∧ h'.mem c.1 = c.2 ∧
        c ∈ bk' (getIndexOf c.2) := by
  have t := wf.1
  obtain ⟨p, hp⟩ := (t.neighbours hA).1
  have hn : FreeAfter h bl ((a, sa).1 + (a, sa).2) 0 :=
    Or.inl ⟨rfl, Or.inr ⟨(a + sa, sb), hB, rfl, aB⟩⟩
  have hpa : p ≤ a := by
    rcases hp with h0 | h0
    · rw [h0.1]; exact Nat.zero_le _
    · exact h0.1
  obtain ⟨h1, bl1, bk1, r1, wf1, mbl1, mbk1, _, _, _, _, hd1, tg1⟩ := wf.free_ok hA aA hp hn
  dsimp only at r1 mbl1 mbk1 hd1 tg1
  have hB1 : (a + sa, sb) ∈ bl1 := (mbl1 _).mpr (Or.inr ⟨hB, Or.inr (Nat.le_refl _)⟩)
  have aB1 : h1.mem (a + sa) = sb + 1 := by
    rw [tg1 _ hB (Or.inr (Nat.le_refl _))]
    exact aB
  have e1 : a + sa - (p + sa) = a - p := by clear * - hpa; omega
  have hp1 : FreeBefore h1 bl1 (a + sa, sb).1 (p + sa) := by
    refine Or.inr ⟨Nat.add_le_add_right hpa sa, ?_, ?_⟩
    · show (a + sa - (p + sa), p + sa) ∈ bl1
      rw [e1]
      exact (mbl1 _).mpr (Or.inl rfl)
    · show h1.mem (a + sa - (p + sa)) = p + sa
      rw [e1]
      exact hd1
  obtain ⟨n, hn1⟩ := (wf1.1.neighbours hB1).2
  obtain ⟨h2, bl2, bk2, r2, wf2, mbl2, mbk2, _, _, _, _, hd2, _⟩ := wf1.free_ok hB1 aB1 hp1 hn1
  dsimp only at r2 mbl2 mbk2 hd2
  refine ⟨h2, bl2, bk2, ?_, wf2, (a + sa - (p + sa), p + sa + sb + n),
    (mbl2 _).mpr (Or.inl rfl), ?_, ?_, hd2, ?_⟩
  · rw [run_bind, r1]
    exact r2
  · show a + sa - (p + sa) ≤ a
    clear * - hpa; omega
  · show a + sa + sb ≤ a + sa - (p + sa) + (p + sa + sb + n)
    clear * - hpa; omega
  · exact (mbk2 _ (getIndexOf_lt _) _).mpr (Or.inl ⟨rfl, rfl⟩)

set_option maxRecDepth 1000000 in
/-- The merge of two freed neighbours at the first two results of
`mm_malloc(10)` on the empty heap: the blocks at 4104 and 4136, of 32 bytes
each. -/
theorem mm_free_merges_adjacent_blocks_witness :
    ∃ h' bl' bk', (mm_free (4104 + 8) >>= fun _ => mm_free (4104 + 32 + 8)) twoBlocks
        = .ok ((), h') ∧
      WF h' bl' bk' [] ∧
      ∃ c ∈ bl', c.1 ≤ 4104 ∧ 4104 + 32 + 32 ≤ c.1 + c.2 ∧ h'.mem c.1 = c.2 ∧
        c ∈ bk' (getIndexOf c.2) :=
  mm_free_merges_adjacent_blocks twoBlocks (batchFrom 4104 32 16)
    (classOnly 0 ((batchFrom 4104 32 16).drop 2)) 4104 32 32 twoBlocks_wf
    (by decide!) (by decide!) (by decide!) (by decide!)

set_option maxRecDepth 1000000 in
/-- Claim C15, after a reallocation that failed in the growth service: the
caller keeps the end address of the payload of `d`, 4192, in the last word of
`b = 4144`.  The pointers `b` and `d = 4176` are live, each of capacity 16, the
words before them, at 4136 and 4168, are headers of allocated blocks of 32
bytes, and the block of `d` starts where the block of `b` ends.  `mm_free(b)`
takes the last word of `b` for a list link and leaves the number 4104 in the
header of the block at 4200; `mm_free(d)` then takes that block for a free
successor of size 4104, and stops at `assert(size >= 32)` of `getIndex` when
it removes it from its list. -/
theorem adjacent_frees_abort :
    observe (session 4096 4616 (mergedThenFailed 4192))
      (fun c => (c.live, c.live.map (fun e => capacity c.heap e.1), c.heap.mem 4136,
        c.heap.mem 4168))
      = some ([(4176, 16), (4144, 16)], [16, 16], 33, 33) ∧
    observe (session 4096 4616 (mergedThenFailed 4192 ++ [.free 4144]))
      (fun c => (c.live, heapBlocks c.heap 3 c.heap.heapStart, (heads c.heap).take 2))
      = some ([(4176, 16)], [(4104, 64, 64), (4168, 33, 33), (4200, 4104, 0)], [4200, 4104]) ∧
    stopped (session 4096 4616 (mergedThenFailed 4192 ++ [.free 4144, .free 4176]))
      = some (.fault .assertion) := by
  refine ⟨?_, ?_, ?_⟩
  all_goals decide!

/-- On a well-formed heap, for a member `b` of a list and a needed
size `s` with `32 ≤ s ≤ b.2`, `s` a multiple of 16, `place(b, s)` returns
`b + 8` and leaves a well-formed heap in which no list holds `b`; when
`b.2 - s ≥ 32`, `b` is an allocated block of size `s` and a free block that
starts at `b + s` and covers the remainder is a member of the list of the
class of its size; otherwise `b` is an allocated block of its whole size,
which is `s` or `s + 16`. -/
theorem place_registered_block (h : Heap) (bl : List (Nat × Nat))
    (bk : Nat → List (Nat × Nat)) (i : Nat) (b : Nat × Nat) (s k : Nat) (wf : WF h bl bk [])
    (hi : i < arrayLength) (hx : b ∈ bk i) (h32 : 32 ≤ s) (h16 : s % 16 = 0) (hle : s ≤ b.2) :
    ∃ h' bl' bk', place b.1 s k h = .ok (b.1 + 8, h') ∧ WF h' bl' bk' [] ∧
      (∀ j, j < arrayLength → ∀ y ∈ bk' j, y.1 ≠ b.1) ∧
      ((32 ≤ b.2 - s ∧ (b.1, s) ∈ bl' ∧ h'.mem b.1 = s + 1 ∧
          ∃ n, (b.1 + s, b.2 - s + n) ∈ bl' ∧ h'.mem (b.1 + s) = b.2 - s + n ∧
            (b.1 + s, b.2 - s + n) ∈ bk' (getIndexOf (b.2 - s + n))) ∨
        (b.2 - s < 32 ∧ (b.2 = s ∨ b.2 = s + 16) ∧ b ∈ bl' ∧ h'.mem b.1 = b.2 + 1)) := by
  obtain ⟨h', bl', bk', r, wf', _, _, _, _, hno, hcase⟩ := wf.place_ok hi hx h32 h16 hle k
  refine ⟨h', bl', bk', r, wf', hno, ?_⟩
  rcases hcase with ⟨c1, c2, c3, c4⟩ | ⟨c1, c2, c3, c4, _, _⟩
  · exact Or.inl ⟨by clear * - c1 hle; omega, c2, c3, c4⟩
  · refine Or.inr ⟨by clear * - c1 hle; omega, c2, ?_, c4⟩
    rw [c3]
    exact (wf.2.members i hi b hx).1

set_option maxRecDepth 1000000 in
/-- The function `place` at the first free block of `sampleHeap`, of 128
bytes, and the needed size 32. -/
theorem place_registered_block_witness :
    ∃ h' bl' bk', place 4232 32 2 sampleHeap = .ok (4232 + 8, h') ∧ WF h' bl' bk' [] ∧
      (∀ j, j < arrayLength → ∀ y ∈ bk' j, y.1 ≠ 4232) ∧
      ((32 ≤ 128 - 32 ∧ (4232, 32) ∈ bl' ∧ h'.mem 4232 = 32 + 1 ∧
          ∃ n, (4232 + 32, 128 - 32 + n) ∈ bl' ∧ h'.mem (4232 + 32) = 128 - 32 + n ∧
            (4232 + 32, 128 - 32 + n) ∈ bk' (getIndexOf (128 - 32 + n))) ∨
        (128 - 32 < 32 ∧ (128 = 32 ∨ 128 = 32 + 16) ∧ ((4232, 128) : Nat × Nat) ∈ bl' ∧
          h'.mem 4232 = 128 + 1)) :=
  place_registered_block sampleHeap (batchFrom 4104 128 16)
    (classOnly 2 ((batchFrom 4104 128 16).drop 1)) 2 (4232, 128) 32 2 sampleHeap_wf
    (by decide) (by decide!) (by decide) (by decide) (by decide)

set_option maxRecDepth 1000000 in
/-- Claim C20, in the heap `staleLink`, reached after a reallocation that
failed in the growth service: the block `b = 4200` is free, header and footer
give 32 bytes, and it is the head of list 0, the list of its class; its back
link, the word at 4208, is 4104, the head of list 1, whose forward link leads
to `b`.  `place(b, 32)`, which is what
`mm_malloc(16)` calls, returns 4208 and marks `b` allocated, but
`removeFromList` follows the back link instead of moving the head, and `b`
still is the head, and the only member, of list 0.  The next `mm_malloc(16)`
returns 4208 again. -/
theorem place_leaves_block_in_list :
    (staleLink.mem 4200, staleLink.mem 4224, getIndexOf 32, staleLink.array 0,
        staleLink.mem 4208)
      = (32, 32, 0, 4200, 4104) ∧
    (buckets staleLink).take 2
      = [[4200, 4232, 4264, 4296, 4328, 4360, 4392, 4424, 4456, 4488, 4520, 4552, 4584],
         [4104, 4200, 4232, 4264, 4296, 4328, 4360, 4392, 4424, 4456, 4488, 4520, 4552, 4584]] ∧
    afterPlace staleLink 4200 32 0 = some (4208, 33,
      [[4200], [4104, 4232, 4264, 4296, 4328, 4360, 4392, 4424, 4456, 4488, 4520, 4552, 4584],
        [], [], [], [], [], [], [], [], [], [], [], [], []]) ∧
    observe (session 4096 4616 (mergedThenFailed 4200 ++ [.free 4144, .malloc 16, .malloc 16]))
      (fun c => (c.results.take 2, c.live, (buckets c.heap).take 1))
      = some ([4208, 4208], [(4208, 16), (4208, 16), (4176, 16)], [[]]) := by
  refine ⟨?_, ?_, ?_, ?_⟩
  all_goals decide!

/-! ### Claims C21 and C22 -/

/-- Claim C21: on every heap whose end is a multiple of 8, below `2^64`, and
that the growth service can extend by 8 bytes, `mm_init` returns 0 within the
rounds its loop is given; it asks for no growth when the end is 8 modulo 16
and for one growth of 8 bytes when the end is 0 modulo 16; afterwards the 15
list heads are `NULL`, `heapStart` is the end of the heap, and that address
is 8 modulo 16; the start of the region and the limit of the growth service
are as before. -/
theorem mm_init_aligns_heap (h0 : Heap) (h8 : h0.brk % 8 = 0)
    (hroom : h0.brk + 8 ≤ h0.maxAddr) (hmax : h0.maxAddr < 2 ^ 64) :
    ∃ h, mm_init h0 = .ok (0, h) ∧
      (h0.brk % 16 = 8 → h.brk = h0.brk) ∧ (h0.brk % 16 = 0 → h.brk = h0.brk + 8) ∧
      (h.brk = h0.brk ∨ h.brk = h0.brk + 8) ∧
      (∀ j, j < arrayLength → h.array j = 0) ∧
      h.heapStart = h.brk ∧ h.brk % 16 = 8 ∧ h.lo = h0.lo ∧ h.maxAddr = h0.maxAddr := by
  obtain ⟨h, r, g1, g2, g3, g4, g5, g6, g7⟩ := mm_init_run h0 h8 hroom hmax
  refine ⟨h, r, ?_, ?_, ?_, g7, g3, g6, g1, g2⟩
  · intro e
    clear * - e g4 g5 g6
    omega
  · intro e
    clear * - e g4 g5 g6
    omega
  · clear * - h8 g4 g5 g6
    omega

/-- The theorem for C21 at the empty region that starts at 4096, a multiple of
16: one growth of 8 bytes. -/
theorem mm_init_aligns_heap_witness :
    ∃ h, mm_init (emptyHeap 4096 1000000) = .ok (0, h) ∧
      ((emptyHeap 4096 1000000).brk % 16 = 8 → h.brk = (emptyHeap 4096 1000000).brk) ∧
      ((emptyHeap 4096 1000000).brk % 16 = 0 → h.brk = (emptyHeap 4096 1000000).brk + 8) ∧
      (h.brk = (emptyHeap 4096 1000000).brk ∨ h.brk = (emptyHeap 4096 1000000).brk + 8) ∧
      (∀ j, j < arrayLength → h.array j = 0) ∧
      h.heapStart = h.brk ∧ h.brk % 16 = 8 ∧ h.lo = (emptyHeap 4096 1000000).lo ∧
      h.maxAddr = (emptyHeap 4096 1000000).maxAddr :=
  mm_init_aligns_heap (emptyHeap 4096 1000000) (by decide) (by decide) (by decide)

set_option maxRecDepth 1000000 in
/-- Claim C22, at the second of two reallocations of the same pointer that
fail in the growth service: after the first one the live pointer 4144, of
capacity 16, holds the words 0 and 4200 and lies in the allocated block at
4104 of size 64, which is in no list; `mm_realloc(4144, 1000)` fails again and
returns `NULL`, and now the two words are 0 and 0, and the block at 4200 is
the head of list 1 as well as of list 0. -/
theorem failed_realloc_changes_payload :
    observe (session 4096 4616 (mergedThenFailed 4200))
      (fun c => (c.results.head?, c.live, payloadWords c.heap 4144 2))
      = some (some 0, [(4176, 16), (4144, 16)], [0, 4200]) ∧
    observe (session 4096 4616 (mergedThenFailed 4200))
      (fun c => (capacity c.heap 4144, heapBlocks c.heap 2 c.heap.heapStart))
      = some (16, [(4104, 65, 65), (4168, 33, 33)]) ∧
    observe (session 4096 4616 (mergedThenFailed 4200))
      (fun c => ((buckets c.heap).take 2).map (List.take 2))
      = some [[4200, 4232], []] ∧
    observe (session 4096 4616 (mergedThenFailed 4200 ++ [.realloc 4144 1000]))
      (fun c => (c.results.head?, c.live, payloadWords c.heap 4144 2))
      = some (some 0, [(4176, 16), (4144, 16)], [0, 0]) ∧
    observe (session 4096 4616 (mergedThenFailed 4200 ++ [.realloc 4144 1000]))
      (fun c => (capacity c.heap 4144, heapBlocks c.heap 2 c.heap.heapStart))
      = some (16, [(4104, 65, 65), (4168, 33, 33)]) ∧
    observe (session 4096 4616 (mergedThenFailed 4200 ++ [.realloc 4144 1000]))
      (fun c => ((buckets c.heap).take 2).map (List.take 2))
      = some [[4200, 4232], [4200, 4232]] := by
  refine ⟨?_, ?_, ?_, ?_, ?_, ?_⟩
  all_goals decide!

end MM
